import Mathlib

/-!
# Concord sampler: a shallow embedding of `ConcordSampler.cpp`

The development follows `Source/ConcordCore/Private/Sampler/ConcordSampler.cpp`.
State that the C++ code mutates in place is passed explicitly, calls that can end
the process (a failed `check`, a checked map lookup on a missing key) return in
`Except Fatal`.
-/

set_option autoImplicit false

namespace Concord

/-! ## Values and engine primitives -/

/-- A `float` value, carried by its bit pattern: the sampler code moves floats around
and never computes with them. `0.0f` has bit pattern `0`. -/
structure F32 where
  bits : Nat
  deriving DecidableEq, Repr

/-- The default score `0.0f`. -/
def F32.zero : F32 := ⟨0⟩

/-- The two value kinds of an output or parameter block (`EConcordValueType`); the
`default: checkNoEntry()` branches of the source belong to no value of this type. -/
inductive EConcordValueType
  | Int
  | Float
  deriving DecidableEq, Repr

/-- The C++ element type selected by a value kind: `int32` or `float`. An `int32` is
carried as an integer: the sampler code copies such values and does no arithmetic on
them. -/
@[reducible] def FValue : EConcordValueType → Type
  | .Int => Int
  | .Float => F32

/-- Ways in which a call ends the process instead of returning. -/
inductive Fatal
  /-- A `check`/`checkf` whose condition is false, in a build with checks compiled in. -/
  | CheckFailed
  /-- A dereference of a null entry, reached when the check in front of it is compiled out. -/
  | NullDereference
  deriving DecidableEq, Repr

/-- The engine macro `checkf(cond, ...)`: with checks compiled in (`DO_CHECK`) a false
condition is fatal, with checks compiled out the macro expands to nothing. -/
def checkf (DO_CHECK : Bool) (cond : Bool) : Except Fatal Unit :=
  if DO_CHECK && !cond then .error .CheckFailed else .ok ()

/-- The form in which the engine compares names: `FName` keys, `FString` keys and
`FString::EndsWith` (default `ESearchCase::IgnoreCase`) compare without regard to case,
that is with the capitals `A`..`Z` taken as `a`..`z`. -/
def FoldCase (s : String) : String :=
  ⟨s.data.map Char.toLower⟩

/-- `TMap::Find` on a map kept as its list of pairs in enumeration order. The keys are
`FName`s or `FString`s, kept in the spelling they were added in and compared without
regard to case. -/
def Find {β : Type} : List (String × β) → String → Option β
  | [], _ => none
  | (k, v) :: rest, key => if FoldCase k = FoldCase key then some v else Find rest key

/-- `TMap::operator[]` on a const map, that is `FindChecked`: the entry must exist. -/
def FindChecked {β : Type} (DO_CHECK : Bool) (m : List (String × β)) (key : String) :
    Except Fatal β :=
  match Find m key with
  | some v => .ok v
  | none => .error (if DO_CHECK then .CheckFailed else .NullDereference)

/-- `FString::EndsWith(Suffix)` for a suffix that is not empty, with the default
`ESearchCase::IgnoreCase`: the end of the string is compared with the suffix without
regard to case. -/
def EndsWith (s suffix : String) : Bool :=
  (FoldCase suffix).data.isSuffixOf (FoldCase s).data

/-! ## Factor graph, environment, outputs -/

/-- Modelled from the spec: `FConcordFactorGraphBlock`, the descriptor of a parameter block,
"a named, typed, fixed-size array view inside the Environment". The view starts at
`Offset` in the parameter storage of its value kind and has `Size` elements. -/
structure FConcordFactorGraphBlock where
  Offset : Nat
  Size : Nat
  deriving DecidableEq, Repr

/-- Modelled from the spec: the expression context of a sampler, "the current variation
and environment parameters" that an output is a pure function of. -/
structure FConcordExpressionContext where
  Variation : List Int
  IntParameters : List Int
  FloatParameters : List F32
  deriving DecidableEq, Repr

/-- Modelled from the spec: `FConcordFactorGraph::FOutput`, "a named, typed expression
that is a pure function of the current variation and environment parameters into a
fixed-size array". `GetType` and `Num` are the accessors the sampler calls; `Value t c i`
is element `i` of the array that `Eval` produces in context `c` for a target of kind `t`. -/
structure FOutput where
  GetType : EConcordValueType
  Num : Nat
  Value : (t : EConcordValueType) → FConcordExpressionContext → Nat → FValue t

/-- Modelled from the spec: `FOutput::Eval(Context, Target)` fills the target array in
place: cell `i` of the target receives element `i` of the output, for the cells the
output has; the target keeps its length. `i` is the index of the head of the list. -/
def EvalFrom {α : Type} (value : Nat → α) (num : Nat) : Nat → List α → List α
  | _, [] => []
  | i, x :: xs => (if i < num then value i else x) :: EvalFrom value num (i + 1) xs

/-- `Output->Eval(Context, Target)` for a target array of kind `t`. -/
def FOutput.Eval (o : FOutput) (t : EConcordValueType) (c : FConcordExpressionContext)
    (target : List (FValue t)) : List (FValue t) :=
  EvalFrom (o.Value t c) o.Num 0 target

/-- The array an output denotes in a context: its `Num` elements. -/
def FOutput.Values (o : FOutput) (t : EConcordValueType) (c : FConcordExpressionContext) :
    List (FValue t) :=
  (List.range o.Num).map (o.Value t c)

/-- Modelled from the spec: `FConcordFactorGraphEnvironment`, which "holds the staging
variation, a resample mask and named parameter storage for both integer and
floating-point blocks", with the staging copies of mask and parameters that
`SetMaskAndParametersFromStagingArea` copies in. -/
structure FConcordFactorGraphEnvironment where
  StagingVariation : List Int
  StagingMask : List Bool
  StagingIntParameters : List Int
  StagingFloatParameters : List F32
  Mask : List Bool
  IntParameters : List Int
  FloatParameters : List F32
  deriving DecidableEq, Repr

namespace FConcordFactorGraphEnvironment

/-- `GetStagingVariation()`. -/
def GetStagingVariation (e : FConcordFactorGraphEnvironment) : List Int :=
  e.StagingVariation

/-- Modelled from the spec: `SetMaskAndParametersFromStagingArea()`, "copy the current
resample mask and parameter snapshot from the staging area into the Environment". -/
def SetMaskAndParametersFromStagingArea (e : FConcordFactorGraphEnvironment) :
    FConcordFactorGraphEnvironment :=
  { e with Mask := e.StagingMask
           IntParameters := e.StagingIntParameters
           FloatParameters := e.StagingFloatParameters }

/-- Modelled from the spec: `ReturnSampledVariationToStagingArea(Variation)`, "write the
freshly sampled variation back into the Environment's staging variation". -/
def ReturnSampledVariationToStagingArea (e : FConcordFactorGraphEnvironment)
    (Variation : List Int) : FConcordFactorGraphEnvironment :=
  { e with StagingVariation := Variation }

/-- The parameter storage of one value kind. -/
def Parameters (e : FConcordFactorGraphEnvironment) : (t : EConcordValueType) → List (FValue t)
  | .Int => e.IntParameters
  | .Float => e.FloatParameters

/-- Replace the parameter storage of one value kind. -/
def SetParameters (e : FConcordFactorGraphEnvironment) :
    (t : EConcordValueType) → List (FValue t) → FConcordFactorGraphEnvironment
  | .Int, ps => { e with IntParameters := ps }
  | .Float, ps => { e with FloatParameters := ps }

/-- `GetParametersView<FValue>(Block)`: the cells of the block, a window into the
parameter storage of kind `t` (clipped to the storage). -/
def GetParametersView (e : FConcordFactorGraphEnvironment) (t : EConcordValueType)
    (b : FConcordFactorGraphBlock) : List (FValue t) :=
  ((e.Parameters t).drop b.Offset).take b.Size

/-- Writing through a view returned by `GetParametersView<FValue>(Block)`: the cells of
the block become `view`, every other cell of the storage is kept. -/
def StoreParametersView (e : FConcordFactorGraphEnvironment) (t : EConcordValueType)
    (b : FConcordFactorGraphBlock) (view : List (FValue t)) : FConcordFactorGraphEnvironment :=
  e.SetParameters t
    ((e.Parameters t).take b.Offset ++ view ++ (e.Parameters t).drop (b.Offset + view.length))

/-- `Output->Eval(Context, Environment->GetParametersView<FValue>(Block))`: evaluate an
output straight into a parameter block of the environment. -/
def EvalIntoBlock (e : FConcordFactorGraphEnvironment) (t : EConcordValueType)
    (o : FOutput) (c : FConcordExpressionContext) (b : FConcordFactorGraphBlock) :
    FConcordFactorGraphEnvironment :=
  e.StoreParametersView t b (o.Eval t c (e.GetParametersView t b))

end FConcordFactorGraphEnvironment

/-- Modelled from the spec: the part of `FConcordFactorGraph<float>` that the sampler
reads, "named/typed parameter blocks" and "named typed outputs", each a `TMap` kept in
enumeration order. The third table, the instance samplers, is kept with the sampler
(`FConcordSampler.mk`), since the samplers in it change when they sample. -/
structure FConcordFactorGraph where
  IntParameterBlocks : List (String × FConcordFactorGraphBlock)
  FloatParameterBlocks : List (String × FConcordFactorGraphBlock)
  Outputs : List (String × FOutput)

/-- `GetParameterBlocks<FValue>()`. -/
def FConcordFactorGraph.GetParameterBlocks (g : FConcordFactorGraph) :
    EConcordValueType → List (String × FConcordFactorGraphBlock)
  | .Int => g.IntParameterBlocks
  | .Float => g.FloatParameterBlocks

/-- `GetOutputs()`. -/
def FConcordFactorGraph.GetOutputs (g : FConcordFactorGraph) : List (String × FOutput) :=
  g.Outputs

/-! ## The sampler -/

/-- The state of `TFuture<float> FutureScore` once it is valid: the worker has not
delivered yet, or it has delivered a score. -/
inductive TFutureState
  | Pending
  | Ready (Score : F32)
  deriving DecidableEq, Repr

/-- Modelled from the spec: the members of one `FConcordSampler` object, its nested
samplers apart. `FutureScore = none` is an invalid (default or reset) future.
`SampleVariation` is the virtual sweep of the concrete sampler class, which "mutates the
Sampler's own Variation": from the sampler's own state (`SamplerState`, e.g. its random
stream), the variation and the environment it produces the new variation, the score
and the new own state; `bMaximizeScore` and `SamplingUtils` are read by the sweep alone
and are part of that function. `AsyncLaunches` counts the callables this sampler has
handed to the thread pool with `Async`. -/
structure FConcordSamplerMembers where
  FactorGraph : FConcordFactorGraph
  Environment : FConcordFactorGraphEnvironment
  Variation : List Int
  FutureScore : Option TFutureState
  AsyncLaunches : Nat
  SamplerState : Nat
  SampleVariation : Nat → List Int → FConcordFactorGraphEnvironment → List Int × F32 × Nat

mutual
/-- A sampler with the samplers of its nested instances
(`FactorGraph->GetInstanceSamplers()`), owned top-down as a tree. -/
inductive FConcordSampler
  | mk (Members : FConcordSamplerMembers) (InstanceSamplers : FInstanceSamplers)
/-- The instance sampler table, name to sampler, in enumeration order. -/
inductive FInstanceSamplers
  | nil
  | cons (Key : String) (Value : FConcordSampler) (Rest : FInstanceSamplers)
end

namespace FConcordSampler

/-- The members of a sampler. -/
def Members : FConcordSampler → FConcordSamplerMembers
  | .mk m _ => m

/-- `FactorGraph->GetInstanceSamplers()`. -/
def GetInstanceSamplers : FConcordSampler → FInstanceSamplers
  | .mk _ is => is

end FConcordSampler

namespace FConcordSamplerMembers

/-- `IsSamplingVariation()`: `FutureScore.IsValid()`. -/
def IsSamplingVariation (m : FConcordSamplerMembers) : Bool :=
  m.FutureScore.isSome

/-- Modelled from the spec: `GetExpressionContext()`, the sampler's current variation with
the parameters of its environment. -/
def GetExpressionContext (m : FConcordSamplerMembers) : FConcordExpressionContext :=
  ⟨m.Variation, m.Environment.IntParameters, m.Environment.FloatParameters⟩

/-- `GetVariationFromEnvironment()`. -/
def GetVariationFromEnvironment (m : FConcordSamplerMembers) : FConcordSamplerMembers :=
  { m with Variation := m.Environment.GetStagingVariation }

/-- The constructor (lines 5-14): the members are initialised and the variation is taken
from the environment. -/
def Construct (FactorGraph : FConcordFactorGraph)
    (Environment : FConcordFactorGraphEnvironment) (SamplerState : Nat)
    (SampleVariation : Nat → List Int → FConcordFactorGraphEnvironment → List Int × F32 × Nat) :
    FConcordSamplerMembers :=
  GetVariationFromEnvironment ⟨FactorGraph, Environment, [], none, 0, SamplerState, SampleVariation⟩

/-- The virtual `SampleVariation()`: one sweep; returns the score. -/
def RunSampleVariation (m : FConcordSamplerMembers) : F32 × FConcordSamplerMembers :=
  let r := m.SampleVariation m.SamplerState m.Variation m.Environment
  (r.2.1, { m with Variation := r.1, SamplerState := r.2.2 })

end FConcordSamplerMembers

namespace FConcordSampler

/-- The sampler `s` with its members replaced by `m` (the nested samplers are kept). -/
def WithMembers (s : FConcordSampler) (m : FConcordSamplerMembers) : FConcordSampler :=
  .mk m s.GetInstanceSamplers

/-- `FillInstanceInputs<FValue>(InstanceSampler, Parameter)`, a member of the parent
`p`: look up the parent's output `<instance>.<parameter>.Source`; when it exists,
evaluate it in the parent's context into the instance's parameter block. Returns the
members of the instance sampler. -/
def FillInstanceInputs (t : EConcordValueType) (p : FConcordSamplerMembers)
    (InstanceKey : String) (InstanceSampler : FConcordSamplerMembers)
    (Parameter : String × FConcordFactorGraphBlock) : FConcordSamplerMembers :=
  let OutputName := InstanceKey ++ "." ++ Parameter.1 ++ ".Source"
  match Find p.FactorGraph.GetOutputs OutputName with
  | none => InstanceSampler
  | some Output =>
    { InstanceSampler with
      Environment :=
        InstanceSampler.Environment.EvalIntoBlock t Output p.GetExpressionContext Parameter.2 }

/-- The loop `for (NameBlockPair : InstanceSampler->FactorGraph->GetParameterBlocks<FValue>())
FillInstanceInputs<FValue>(...)`. -/
def FillAllInstanceInputs (t : EConcordValueType) (p : FConcordSamplerMembers)
    (InstanceKey : String) (InstanceSampler : FConcordSamplerMembers) : FConcordSamplerMembers :=
  (InstanceSampler.FactorGraph.GetParameterBlocks t).foldl
    (fun i NameBlockPair => FillInstanceInputs t p InstanceKey i NameBlockPair) InstanceSampler

/-- Lines 69-74 of `RunInstanceSamplers`: what the parent `p` does to an instance sampler
before it calls the instance's `SampleVariationSync`. -/
def PrepareInstance (p : FConcordSamplerMembers) (InstanceKey : String)
    (InstanceSampler : FConcordSamplerMembers) : FConcordSamplerMembers :=
  let i1 := { InstanceSampler with
              Environment := InstanceSampler.Environment.SetMaskAndParametersFromStagingArea }
  let i2 := i1.GetVariationFromEnvironment
  let i3 := FillAllInstanceInputs .Int p InstanceKey i2
  FillAllInstanceInputs .Float p InstanceKey i3

/-- One pass of the loop over the instance's outputs (lines 79-86): the parent's block
`<instance>.<output>.Target` of the output's kind is looked up with `operator[]` and
the output is evaluated into it in the instance's context. Returns the parent's members. -/
def PushInstanceOutput (DO_CHECK : Bool) (InstanceKey : String)
    (InstanceSampler : FConcordSamplerMembers) (p : FConcordSamplerMembers)
    (NameOutputPair : String × FOutput) : Except Fatal FConcordSamplerMembers :=
  let Output := NameOutputPair.2
  let ParameterName := InstanceKey ++ "." ++ NameOutputPair.1 ++ ".Target"
  match FindChecked DO_CHECK (p.FactorGraph.GetParameterBlocks Output.GetType) ParameterName with
  | .error e => .error e
  | .ok Block =>
    .ok { p with
          Environment :=
            p.Environment.EvalIntoBlock Output.GetType Output
              InstanceSampler.GetExpressionContext Block }

/-- The loop over `InstanceSampler->FactorGraph->GetOutputs()` (lines 77-87). -/
def PushInstanceOutputs (DO_CHECK : Bool) (InstanceKey : String)
    (InstanceSampler : FConcordSamplerMembers) :
    FConcordSamplerMembers → List (String × FOutput) → Except Fatal FConcordSamplerMembers
  | p, [] => .ok p
  | p, NameOutputPair :: rest =>
    match PushInstanceOutput DO_CHECK InstanceKey InstanceSampler p NameOutputPair with
    | .error e => .error e
    | .ok p1 => PushInstanceOutputs DO_CHECK InstanceKey InstanceSampler p1 rest

/-- Line 76: `InstanceSampler->GetEnvironment()->ReturnSampledVariationToStagingArea(
InstanceSampler->GetVariation())`. -/
def ReturnVariation (InstanceSampler : FConcordSamplerMembers) : FConcordSamplerMembers :=
  { InstanceSampler with
    Environment :=
      InstanceSampler.Environment.ReturnSampledVariationToStagingArea InstanceSampler.Variation }

mutual
/-- `SampleVariationSync()` of the sampler whose members are `m` and whose nested
samplers are those of the argument. -/
def SampleVariationSyncCore (DO_CHECK : Bool) (m : FConcordSamplerMembers) :
    FConcordSampler → Except Fatal (F32 × FConcordSampler)
  | .mk _ is =>
    match checkf DO_CHECK (!m.IsSamplingVariation) with
    | .error e => .error e
    | .ok _ =>
      if m.IsSamplingVariation then .ok (F32.zero, .mk m is)
      else
        match RunInstanceSamplersCore DO_CHECK m is with
        | .error e => .error e
        | .ok (m1, is1) =>
          let r := m1.RunSampleVariation
          .ok (r.1, .mk r.2 is1)
/-- The loop of `RunInstanceSamplers()` for the parent with members `p`, over the
samplers of its instances in enumeration order. -/
def RunInstanceSamplersCore (DO_CHECK : Bool) (p : FConcordSamplerMembers) :
    FInstanceSamplers → Except Fatal (FConcordSamplerMembers × FInstanceSamplers)
  | .nil => .ok (p, .nil)
  | .cons Key Value Rest =>
    match SampleVariationSyncCore DO_CHECK (PrepareInstance p Key Value.Members) Value with
    | .error e => .error e
    | .ok (_, Sampled) =>
      let Returned := ReturnVariation Sampled.Members
      match PushInstanceOutputs DO_CHECK Key Returned p Returned.FactorGraph.GetOutputs with
      | .error e => .error e
      | .ok p1 =>
        match RunInstanceSamplersCore DO_CHECK p1 Rest with
        | .error e => .error e
        | .ok (p2, Rest1) => .ok (p2, .cons Key (Sampled.WithMembers Returned) Rest1)
end

/-- `RunInstanceSamplers()`. -/
def RunInstanceSamplers (DO_CHECK : Bool) (s : FConcordSampler) : Except Fatal FConcordSampler :=
  match RunInstanceSamplersCore DO_CHECK s.Members s.GetInstanceSamplers with
  | .error e => .error e
  | .ok (m, is) => .ok (.mk m is)

/-- `SampleVariation()` on a sampler. -/
def SampleVariation (s : FConcordSampler) : F32 × FConcordSampler :=
  (s.Members.RunSampleVariation.1, s.WithMembers s.Members.RunSampleVariation.2)

/-- `IsSamplingVariation()`. -/
def IsSamplingVariation (s : FConcordSampler) : Bool :=
  s.Members.IsSamplingVariation

/-- `SampleVariationSync()` (lines 16-22). -/
def SampleVariationSync (DO_CHECK : Bool) (s : FConcordSampler) :
    Except Fatal (F32 × FConcordSampler) :=
  SampleVariationSyncCore DO_CHECK s.Members s

/-- `SampleVariationAsync()` (lines 24-38): unless a future is held, hand the callable to
the thread pool and keep the future it returns. -/
def SampleVariationAsync (DO_CHECK : Bool) (s : FConcordSampler) : Except Fatal FConcordSampler :=
  match checkf DO_CHECK (!s.IsSamplingVariation) with
  | .error e => .error e
  | .ok _ =>
    if s.IsSamplingVariation then .ok s
    else
      .ok (s.WithMembers
        { s.Members with FutureScore := some .Pending
                         AsyncLaunches := s.Members.AsyncLaunches + 1 })

/-- The callable `FSampleCallable::operator()` run to its end by the worker: it runs
`RunInstanceSamplers` and `SampleVariation` on the sampler and delivers the score to
the future. It runs only for a future that is pending. -/
def RunSampleCallable (DO_CHECK : Bool) (s : FConcordSampler) : Except Fatal FConcordSampler :=
  match s.Members.FutureScore with
  | some .Pending =>
    match RunInstanceSamplers DO_CHECK s with
    | .error e => .error e
    | .ok s1 =>
      let r := s1.SampleVariation
      .ok (r.2.WithMembers { r.2.Members with FutureScore := some (.Ready r.1) })
  | _ => .ok s

/-- `GetScoreIfDoneSampling()` (lines 45-51); `TFuture::IsReady()` is false for an
invalid future. -/
def GetScoreIfDoneSampling (s : FConcordSampler) : Option F32 × FConcordSampler :=
  match s.Members.FutureScore with
  | some (.Ready Score) => (some Score, s.WithMembers { s.Members with FutureScore := none })
  | _ => (none, s)

end FConcordSampler

/-! ## The loop body of `RunInstanceSamplers` and auxiliary notions -/

/-- Two parameter blocks share no cell. -/
def FConcordFactorGraphBlock.Disjoint (a b : FConcordFactorGraphBlock) : Prop :=
  a.Offset + a.Size ≤ b.Offset ∨ b.Offset + b.Size ≤ a.Offset

instance (a b : FConcordFactorGraphBlock) : Decidable (a.Disjoint b) := by
  unfold FConcordFactorGraphBlock.Disjoint
  exact inferInstance

/-- The blocks of a block table lie pairwise apart in the storage. -/
def BlocksApart (blocks : List (String × FConcordFactorGraphBlock)) : Prop :=
  blocks.Pairwise (fun x y => x.2.Disjoint y.2)

instance (blocks : List (String × FConcordFactorGraphBlock)) : Decidable (BlocksApart blocks) := by
  unfold BlocksApart
  exact inferInstance

/-- The staging copy of the parameter storage of one value kind. -/
def FConcordFactorGraphEnvironment.StagingParameters (e : FConcordFactorGraphEnvironment) :
    (t : EConcordValueType) → List (FValue t)
  | .Int => e.StagingIntParameters
  | .Float => e.StagingFloatParameters

namespace FConcordSampler

/-- One pass of the loop of `RunInstanceSamplers` (lines 68-87) for the instance sampler
`Value` registered under `Key`: returns the parent's members and the instance sampler
after the pass. -/
def ProcessInstance (DO_CHECK : Bool) (p : FConcordSamplerMembers) (Key : String)
    (Value : FConcordSampler) : Except Fatal (FConcordSamplerMembers × FConcordSampler) :=
  match SampleVariationSync DO_CHECK (Value.WithMembers (PrepareInstance p Key Value.Members)) with
  | .error e => .error e
  | .ok (_, Sampled) =>
    let Returned := ReturnVariation Sampled.Members
    match PushInstanceOutputs DO_CHECK Key Returned p Returned.FactorGraph.GetOutputs with
    | .error e => .error e
    | .ok p1 => .ok (p1, Sampled.WithMembers Returned)

end FConcordSampler

/-- The instance sampler table as a list of pairs, in enumeration order. -/
def FInstanceSamplers.toList : FInstanceSamplers → List (String × FConcordSampler)
  | .nil => []
  | .cons Key Value Rest => (Key, Value) :: Rest.toList

/-! ## Output projection -/

/-- The value kinds of a column (`EConcordColumnValuesType`). -/
inductive EConcordColumnValuesType
  | Note
  | Instrument
  | Volume
  | Delay
  deriving DecidableEq, Repr

/-- Modelled from the spec: `FConcordColumnPath`, the "structured path (track name, column
index, value kind)" that an output name parses to. -/
structure FConcordColumnPath where
  TrackName : String
  ColumnIndex : Nat
  ColumnValuesType : EConcordColumnValuesType
  deriving DecidableEq, Repr

/-- Modelled from the spec: `FConcordColumn`, the four value arrays of a column
(the members `SetColumnsFromOutputs` addresses). -/
structure FConcordColumn where
  NoteValues : List Int
  InstrumentValues : List Int
  VolumeValues : List Int
  DelayValues : List Int
  deriving DecidableEq, Repr

/-- A default-constructed column. -/
def FConcordColumn.Default : FConcordColumn := ⟨[], [], [], []⟩

/-- The array of a column that a value kind addresses (the `switch` of lines 119-125). -/
def FConcordColumn.GetValues (c : FConcordColumn) : EConcordColumnValuesType → List Int
  | .Note => c.NoteValues
  | .Instrument => c.InstrumentValues
  | .Volume => c.VolumeValues
  | .Delay => c.DelayValues

/-- Assign the array of a column that a value kind addresses. -/
def FConcordColumn.SetValues (c : FConcordColumn) :
    EConcordColumnValuesType → List Int → FConcordColumn
  | .Note, a => { c with NoteValues := a }
  | .Instrument, a => { c with InstrumentValues := a }
  | .Volume, a => { c with VolumeValues := a }
  | .Delay, a => { c with DelayValues := a }

/-- Modelled from the spec: `FConcordTrack`, a track with its column list. -/
structure FConcordTrack where
  Columns : List FConcordColumn
  deriving DecidableEq, Repr

/-- Modelled from the spec: `FConcordPatternData`, the tracks by name (a `TMap` in
enumeration order). -/
structure FConcordPatternData where
  Tracks : List (String × FConcordTrack)
  deriving DecidableEq, Repr

/-- Writing through a reference to the value stored under `key`: the first entry whose
key compares equal gets the value `v`; the key keeps its spelling. -/
def SetValue {β : Type} : List (String × β) → String → β → List (String × β)
  | [], _, _ => []
  | (k, x) :: rest, key, v =>
    if FoldCase k = FoldCase key then (k, v) :: rest else (k, x) :: SetValue rest key v

/-- `TMap::FindOrAdd(Key)`: a key that is not found is added with a default value. -/
def FindOrAdd {β : Type} (m : List (String × β)) (key : String) (dflt : β) : List (String × β) :=
  if (Find m key).isSome then m else m ++ [(key, dflt)]

/-- `TMap::Add(Key)`: the key is bound to a default value. An entry whose key compares
equal is replaced in its place, key and value (`TSet::Emplace`); otherwise the pair is
added at the end. -/
def Add {β : Type} : List (String × β) → String → β → List (String × β)
  | [], key, dflt => [(key, dflt)]
  | (k, x) :: rest, key, dflt =>
    if FoldCase k = FoldCase key then (key, dflt) :: rest else (k, x) :: Add rest key dflt

/-- `TArray::SetNum(n)`: cut to `n` elements or extend with default-constructed ones. -/
def SetNum {α : Type} (l : List α) (n : Nat) (dflt : α) : List α :=
  l.take n ++ List.replicate (n - l.length) dflt

/-- `TArray::SetNumUninitialized(n)`: cut to `n` elements or extend with cells whose
content is whatever the memory holds; `Uninit k` is the content found in cell `k`. -/
def SetNumUninitialized {α : Type} (Uninit : Nat → α) (l : List α) (n : Nat) : List α :=
  l.take n ++ (List.range (n - l.length)).map (fun k => Uninit (l.length + k))

/-- `SetColumnFromOutput(Output, TargetArray, PreviousArray)` (lines 152-157). Returns the
target array and what is left of the previous array, which a move empties. -/
def SetColumnFromOutput (Context : FConcordExpressionContext) (Uninit : Nat → Int)
    (Output : FOutput) (TargetArray : List Int) (PreviousArray : Option (List Int)) :
    List Int × Option (List Int) :=
  let Moved := match PreviousArray with
    | some a => (a, some [])
    | none => (TargetArray, none)
  let Resized := SetNumUninitialized Uninit Moved.1 Output.Num
  (Output.Eval .Int Context Resized, Moved.2)

/-- The previous column that lines 117-118 select: the column of the same index of the
previous track of the same name, when both exist. -/
def PreviousColumn (PreviousTracks : List (String × FConcordTrack)) (ColumnPath : FConcordColumnPath) :
    Option FConcordColumn :=
  match Find PreviousTracks ColumnPath.TrackName with
  | some PreviousTrack =>
    if ColumnPath.ColumnIndex < PreviousTrack.Columns.length then
      PreviousTrack.Columns[ColumnPath.ColumnIndex]?
    else none
  | none => none

/-- The body of the loop of `SetColumnsFromOutputs` from line 113 on, for an output whose
name parsed to `ColumnPath`; the state is the new track map and the previous one. -/
def SetColumnAtPath (Context : FConcordExpressionContext) (Uninit : Nat → Int)
    (Output : FOutput) (ColumnPath : FConcordColumnPath)
    (st : List (String × FConcordTrack) × List (String × FConcordTrack)) :
    List (String × FConcordTrack) × List (String × FConcordTrack) :=
  let Tracks := FindOrAdd st.1 ColumnPath.TrackName ⟨[]⟩
  let Track := (Find Tracks ColumnPath.TrackName).getD ⟨[]⟩
  let Columns :=
    if ColumnPath.ColumnIndex ≥ Track.Columns.length then
      SetNum Track.Columns (ColumnPath.ColumnIndex + 1) FConcordColumn.Default
    else Track.Columns
  let Column := Columns.getD ColumnPath.ColumnIndex FConcordColumn.Default
  let Previous := PreviousColumn st.2 ColumnPath
  let r := SetColumnFromOutput Context Uninit Output
    (Column.GetValues ColumnPath.ColumnValuesType)
    (Previous.map (fun c => c.GetValues ColumnPath.ColumnValuesType))
  let NewColumns := Columns.set ColumnPath.ColumnIndex
    (Column.SetValues ColumnPath.ColumnValuesType r.1)
  let NewPrevious := match Previous, r.2, Find st.2 ColumnPath.TrackName with
    | some c, some a, some PreviousTrack =>
      SetValue st.2 ColumnPath.TrackName
        ⟨PreviousTrack.Columns.set ColumnPath.ColumnIndex
          (c.SetValues ColumnPath.ColumnValuesType a)⟩
    | _, _, _ => st.2
  (SetValue Tracks ColumnPath.TrackName ⟨NewColumns⟩, NewPrevious)

/-- One pass of the loop of `SetColumnsFromOutputs` (lines 108-125). `Parse` is
`FConcordColumnPath::Parse`. -/
def SetColumnFromNameOutputPair (Parse : String → Option FConcordColumnPath)
    (Context : FConcordExpressionContext) (Uninit : Nat → Int)
    (st : List (String × FConcordTrack) × List (String × FConcordTrack))
    (NameOutputPair : String × FOutput) :
    List (String × FConcordTrack) × List (String × FConcordTrack) :=
  if NameOutputPair.2.GetType = .Float then st
  else if EndsWith NameOutputPair.1 ".Source" then st
  else
    match Parse NameOutputPair.1 with
    | none => st
    | some ColumnPath => SetColumnAtPath Context Uninit NameOutputPair.2 ColumnPath st

/-- `SetColumnsFromOutputs(OutPatternData)` (lines 102-127) for a sampler with members `m`:
the previous tracks are moved out, the track map is reset and refilled from the
outputs. -/
def FConcordSamplerMembers.SetColumnsFromOutputs (m : FConcordSamplerMembers)
    (Parse : String → Option FConcordColumnPath) (Uninit : Nat → Int)
    (OutPatternData : FConcordPatternData) : FConcordPatternData :=
  let PreviousTracks := OutPatternData.Tracks
  ⟨(m.FactorGraph.GetOutputs.foldl
      (SetColumnFromNameOutputPair Parse m.GetExpressionContext Uninit) ([], PreviousTracks)).1⟩

/-- `FConcordIntBlock` / `FConcordFloatBlock` of the crate: a value array. -/
structure FConcordBlock (t : EConcordValueType) where
  Values : List (FValue t)

/-- Modelled from the spec: `FConcordCrateData`, the "flat named collection, separated by
integer/floating type". -/
structure FConcordCrateData where
  IntBlocks : List (String × FConcordBlock .Int)
  FloatBlocks : List (String × FConcordBlock .Float)

/-- The block map of one value kind. -/
def FConcordCrateData.Blocks (c : FConcordCrateData) :
    (t : EConcordValueType) → List (String × FConcordBlock t)
  | .Int => c.IntBlocks
  | .Float => c.FloatBlocks

/-- Replace the block map of one value kind. -/
def FConcordCrateData.SetBlocks (c : FConcordCrateData) :
    (t : EConcordValueType) → List (String × FConcordBlock t) → FConcordCrateData
  | .Int, bs => { c with IntBlocks := bs }
  | .Float, bs => { c with FloatBlocks := bs }

/-- One `case` of the `switch` in `FillCrateWithOutputs` (lines 140-141, 144-145):
`Blocks.Add(Key).Values.SetNumUninitialized(Num)`, then `Eval` into `Blocks[Key].Values`. -/
def FillBlock (t : EConcordValueType) (Context : FConcordExpressionContext)
    (Uninit : Nat → FValue t) (Blocks : List (String × FConcordBlock t))
    (NameOutputPair : String × FOutput) : List (String × FConcordBlock t) :=
  let Added := Add Blocks NameOutputPair.1 ⟨[]⟩
  let Sized := SetValue Added NameOutputPair.1
    ⟨SetNumUninitialized Uninit ((Find Added NameOutputPair.1).getD ⟨[]⟩).Values
      NameOutputPair.2.Num⟩
  SetValue Sized NameOutputPair.1
    ⟨NameOutputPair.2.Eval t Context ((Find Sized NameOutputPair.1).getD ⟨[]⟩).Values⟩

/-- One pass of the loop of `FillCrateWithOutputs` (lines 135-148). -/
def FillCrateFromNameOutputPair (Context : FConcordExpressionContext)
    (Uninit : (t : EConcordValueType) → Nat → FValue t)
    (Crate : FConcordCrateData) (NameOutputPair : String × FOutput) : FConcordCrateData :=
  if EndsWith NameOutputPair.1 ".Source" then Crate
  else
    Crate.SetBlocks NameOutputPair.2.GetType
      (FillBlock NameOutputPair.2.GetType Context (Uninit NameOutputPair.2.GetType)
        (Crate.Blocks NameOutputPair.2.GetType) NameOutputPair)

/-- `FillCrateWithOutputs(OutCrateData)` (lines 129-150). -/
def FConcordSamplerMembers.FillCrateWithOutputs (m : FConcordSamplerMembers)
    (Uninit : (t : EConcordValueType) → Nat → FValue t)
    (OutCrateData : FConcordCrateData) : FConcordCrateData :=
  let Reset : FConcordCrateData := { OutCrateData with IntBlocks := [], FloatBlocks := [] }
  m.FactorGraph.GetOutputs.foldl (FillCrateFromNameOutputPair m.GetExpressionContext Uninit) Reset

/-! ## Well-wired sampler trees -/

mutual
/-- A sampler tree on which sampling runs through: see `FInstanceSamplers.WellWiredIn`. -/
def FConcordSampler.WellWired (DO_CHECK : Bool) : FConcordSampler → Prop
  | .mk m is => FInstanceSamplers.WellWiredIn DO_CHECK m.FactorGraph is
/-- Every instance of the table has, for each of its outputs, the Target block of the
output's kind declared in the parent's factor graph, holds no future when checks are
compiled in, and is itself well wired. -/
def FInstanceSamplers.WellWiredIn (DO_CHECK : Bool) (ParentGraph : FConcordFactorGraph) :
    FInstanceSamplers → Prop
  | .nil => True
  | .cons Key Value Rest =>
    (DO_CHECK = true → Value.IsSamplingVariation = false) ∧
    (∀ x ∈ Value.Members.FactorGraph.GetOutputs,
      (Find (ParentGraph.GetParameterBlocks x.2.GetType)
        (Key ++ "." ++ x.1 ++ ".Target")).isSome = true) ∧
    FConcordSampler.WellWired DO_CHECK Value ∧
    FInstanceSamplers.WellWiredIn DO_CHECK ParentGraph Rest
end

/-! ## Auxiliary notions for track projection -/

/-- The selection of lines 108-112 of `SetColumnsFromOutputs`: the column path of an
output that is not Float-typed, whose name does not end in `.Source` and has a parse. -/
def ColumnPathOf (Parse : String → Option FConcordColumnPath) (x : String × FOutput) :
    Option FConcordColumnPath :=
  if x.2.GetType = .Float then none
  else if EndsWith x.1 ".Source" then none
  else Parse x.1

/-- Two column paths address the same array: the same track, as track names compare,
the same column and the same value kind. -/
def FConcordColumnPath.SameArray (a b : FConcordColumnPath) : Prop :=
  FoldCase a.TrackName = FoldCase b.TrackName ∧ a.ColumnIndex = b.ColumnIndex ∧
    a.ColumnValuesType = b.ColumnValuesType

instance (a b : FConcordColumnPath) : Decidable (a.SameArray b) := by
  unfold FConcordColumnPath.SameArray
  exact inferInstance

/-- The column list of a track after the array `vals` has been deposited at a path
(lines 115-116 and the assignment of the addressed array). -/
def ColumnsWith (Columns : List FConcordColumn) (ColumnPath : FConcordColumnPath)
    (vals : List Int) : List FConcordColumn :=
  let Columns1 :=
    if ColumnPath.ColumnIndex ≥ Columns.length then
      SetNum Columns (ColumnPath.ColumnIndex + 1) FConcordColumn.Default
    else Columns
  Columns1.set ColumnPath.ColumnIndex
    ((Columns1.getD ColumnPath.ColumnIndex FConcordColumn.Default).SetValues
      ColumnPath.ColumnValuesType vals)

/-- The track map after the array `vals` has been deposited at a path. -/
def TracksWith (Tracks : List (String × FConcordTrack)) (ColumnPath : FConcordColumnPath)
    (vals : List Int) : List (String × FConcordTrack) :=
  let Tracks1 := FindOrAdd Tracks ColumnPath.TrackName ⟨[]⟩
  SetValue Tracks1 ColumnPath.TrackName
    ⟨ColumnsWith ((Find Tracks1 ColumnPath.TrackName).getD ⟨[]⟩).Columns ColumnPath vals⟩

/-- The effect of one pass of the loop of `SetColumnsFromOutputs` on the new track map. -/
def TrackStep (Parse : String → Option FConcordColumnPath) (Context : FConcordExpressionContext)
    (Tracks : List (String × FConcordTrack)) (x : String × FOutput) :
    List (String × FConcordTrack) :=
  match ColumnPathOf Parse x with
  | none => Tracks
  | some ColumnPath => TracksWith Tracks ColumnPath (x.2.Values .Int Context)

/-- The track map holds the array `vals` at a path: the track exists, has the column,
and the array of the addressed kind is `vals`. -/
def ColumnHolds (Tracks : List (String × FConcordTrack)) (ColumnPath : FConcordColumnPath)
    (vals : List Int) : Prop :=
  ∃ Track Column, Find Tracks ColumnPath.TrackName = some Track ∧
    Track.Columns[ColumnPath.ColumnIndex]? = some Column ∧
    Column.GetValues ColumnPath.ColumnValuesType = vals

/-! ## Tracker module player (`ConcordMetasoundTrackerModulePlayer.cpp`) -/

/-- The value an `int32` computation yields: the result reduced to 32 bits, two's
complement. -/
def WrapInt32 (x : Int) : Int :=
  (x + 2147483648) % 4294967296 - 2147483648

/-- Conversion of an `int` to `unsigned char`, the type of the fields of `xmp_event`. -/
def ToUInt8 (x : Int) : Nat :=
  (x % 256).toNat

/-- `FMath::Min(A, B)` of the engine, `A <= B ? A : B`. -/
def FMath.Min (A B : Int) : Int :=
  if A ≤ B then A else B

/-- `FMath::Clamp(X, Min, Max)` of the engine, `X < Min ? Min : X < Max ? X : Max`. -/
def FMath.Clamp (X Min Max : Int) : Int :=
  if X < Min then Min else if X < Max then X else Max

/-- The tracker event `xmp_event` of the replay library: seven byte fields and a flag
byte. -/
structure xmp_event where
  note : Nat
  ins : Nat
  vol : Nat
  fxt : Nat
  fxp : Nat
  f2t : Nat
  f2p : Nat
  flag : Nat
  deriving DecidableEq, Repr

/-- The tracker track `xmp_track` of the replay library: a row count and the events. -/
structure xmp_track where
  rows : Int
  event : List xmp_event
  deriving DecidableEq, Repr

/-- The body of the row loop of `UpdatePattern` (lines 221-242): the event of row `row`
of the track is written from the column. `XMP_KEY_OFF` is the key-off note number of the
replay library, `ins` is `mod->ins`. Arithmetic on `int` is reduced to 32 bits. -/
def UpdatePatternEvent (XMP_KEY_OFF ins instrument_index : Int) (bIsRightChannel : Bool)
    (Column : FConcordColumn) (row : Nat) (event : xmp_event) : xmp_event :=
  let note0 := Column.NoteValues.getD row 0
  let note :=
    if note0 > 0 then FMath.Min (WrapInt32 (note0 + 1)) 128
    else if note0 < 0 then XMP_KEY_OFF
    else note0
  let instrument0 := Column.InstrumentValues.getD row 0
  let instrument1 :=
    if instrument0 = 0 ∧ note > 0 then WrapInt32 (instrument_index + 1)
    else if instrument0 ≠ 0 ∧ bIsRightChannel = true then WrapInt32 (instrument0 + 1)
    else instrument0
  let instrument2 := if note = XMP_KEY_OFF then 0 else instrument1
  let instrument := FMath.Clamp instrument2 0 ins
  let vol := FMath.Clamp (Column.VolumeValues.getD row 0) 0 65
  let delay := FMath.Clamp (Column.DelayValues.getD row 0) 0 0x0F
  { event with
    note := ToUInt8 note
    ins := ToUInt8 instrument
    vol := ToUInt8 vol
    fxt := 0x0E
    fxp := ToUInt8 (Int.lor 0xD0 delay) }

/-- One pass of the row loop of `UpdatePattern` (lines 221-242): `track->event[row]` is
written. A row beyond the stored events is left out. -/
def UpdatePatternRow (XMP_KEY_OFF ins instrument_index : Int) (bIsRightChannel : Bool)
    (Column : FConcordColumn) (events : List xmp_event) (row : Nat) : List xmp_event :=
  match events[row]? with
  | some event =>
    events.set row
      (UpdatePatternEvent XMP_KEY_OFF ins instrument_index bIsRightChannel Column row event)
  | none => events

/-- The row loop of `UpdatePattern` (lines 219-243): `for (row = 0; row < track->rows;
++row)`. -/
def UpdatePatternRows (XMP_KEY_OFF ins instrument_index : Int) (bIsRightChannel : Bool)
    (Column : FConcordColumn) (track : xmp_track) : xmp_track :=
  { track with
    event := (List.range track.rows.toNat).foldl
      (UpdatePatternRow XMP_KEY_OFF ins instrument_index bIsRightChannel Column) track.event }

/-- One call `xmp_play_buffer(context, buffer, size, 0)` of the skip loop: the frames of
the iteration and the `size` argument, `FramesSkipped * 2 * sizeof(int16)` as an `int`. -/
structure FPlayBufferCall where
  FramesSkipped : Int
  Size : Int
  deriving DecidableEq, Repr

/-- The loop of `SetPlayerStartPosition` (lines 176-181), run for at most `fuel`
iterations: the calls of `xmp_play_buffer` it makes in order, or nothing when the
loop has not ended within `fuel` iterations. -/
def SetPlayerStartPositionLoop (NumFramesPerBlock : Int) :
    Nat → Int → Option (List FPlayBufferCall)
  | 0, FramesToSkip => if FramesToSkip > 0 then none else some []
  | fuel + 1, FramesToSkip =>
    if FramesToSkip > 0 then
      let FramesSkipped := FMath.Min FramesToSkip NumFramesPerBlock
      match SetPlayerStartPositionLoop NumFramesPerBlock fuel
          (WrapInt32 (FramesToSkip - FramesSkipped)) with
      | some calls => some (⟨FramesSkipped, WrapInt32 (WrapInt32 (FramesSkipped * 2) * 2)⟩ :: calls)
      | none => none
    else some []

/-! ## Concrete samplers used to exercise the statements -/

namespace Example

/-- An output of `n` cells of kind `t`: cell `i` is variation cell `i` plus the first
integer parameter (as an integer), or the float with bit pattern `i`. -/
def Output (t : EConcordValueType) (n : Nat) : FOutput :=
  ⟨t, n, fun u c i =>
    match u with
    | .Int => c.Variation.getD i 0 + c.IntParameters.getD 0 0
    | .Float => ⟨i⟩⟩

/-- A sweep that raises every variable by one and reports the score with bit pattern 3. -/
def Sweep (st : Nat) (v : List Int) (_e : FConcordFactorGraphEnvironment) :
    List Int × F32 × Nat :=
  (v.map (fun x => x + 1), ⟨3⟩, st + 1)

/-- An environment with two variables and four integer parameters. -/
def Environment : FConcordFactorGraphEnvironment :=
  ⟨[0, 0], [], [10, 20, 30, 40], [], [], [10, 20, 30, 40], []⟩

/-- The members of instance `A`, as constructed: parameter block `x`, output `y`. -/
def ChildMembers : FConcordSamplerMembers :=
  FConcordSamplerMembers.Construct ⟨[("x", ⟨1, 2⟩)], [], [("y", Output .Int 2)]⟩ Environment 0
    Sweep

/-- The sampler of instance `A`. -/
def Child : FConcordSampler := .mk ChildMembers .nil

/-- The members of a parent that feeds `A.x` and receives `A.y`. -/
def ParentMembers : FConcordSamplerMembers :=
  FConcordSamplerMembers.Construct
    ⟨[("A.y.Target", ⟨2, 2⟩)], [], [("A.x.Source", Output .Int 2)]⟩ Environment 0 Sweep

/-- A parent with the instance `A`. -/
def Parent : FConcordSampler := .mk ParentMembers (.cons "A" Child .nil)

/-- The members of a parent that declares no block for `A.y` and has no output for `A.x`. -/
def UnwiredParentMembers : FConcordSamplerMembers :=
  ⟨⟨[], [], []⟩, Environment, [0, 0], none, 0, 0, Sweep⟩

/-- A parent with the instance `A` and no wiring. -/
def UnwiredParent : FConcordSampler := .mk UnwiredParentMembers (.cons "A" Child .nil)

/-- The parent after `SampleVariationAsync`, the worker not yet done. -/
def PendingParent : FConcordSampler :=
  Parent.WithMembers { ParentMembers with FutureScore := some .Pending, AsyncLaunches := 1 }

/-- A sampler whose worker has delivered the score with bit pattern 3. -/
def ReadyChild : FConcordSampler :=
  Child.WithMembers { ChildMembers with FutureScore := some (.Ready ⟨3⟩), AsyncLaunches := 1 }

/-- The pending parent after its worker has run the callable. -/
def WorkedParent : FConcordSampler :=
  match FConcordSampler.RunSampleCallable true PendingParent with
  | .ok s => s
  | .error _ => PendingParent

/-- The parent's members and the instance sampler after the loop pass for `A`. -/
def Processed : FConcordSamplerMembers × FConcordSampler :=
  match FConcordSampler.ProcessInstance true ParentMembers "A" Child with
  | .ok r => r
  | .error _ => (ParentMembers, Child)

/-- The sampler `Child` with a cached variation that differs from the staging variation
of its environment (another holder of the shared environment has staged `[0, 0]`). -/
def StaleChild : FConcordSampler :=
  Child.WithMembers { ChildMembers with Variation := [5, 5] }

/-- What `SampleVariationSync` returns for `StaleChild` called on its own. -/
def SampledStaleChild : F32 × FConcordSampler :=
  match FConcordSampler.SampleVariationSync true StaleChild with
  | .ok r => r
  | .error _ => (F32.zero, StaleChild)

/-- What `SampleVariationSync` returns for the instance sampler called on its own. -/
def SampledChild : F32 × FConcordSampler :=
  match FConcordSampler.SampleVariationSync true Child with
  | .ok r => r
  | .error _ => (F32.zero, Child)

/-- A parse of column paths for the names used below; every other name has no parse. -/
def Parse (s : String) : Option FConcordColumnPath :=
  if s = "Lead.0.Note" then some ⟨"Lead", 0, .Note⟩
  else if s = "lead.1.Note" then some ⟨"lead", 1, .Note⟩
  else if s = "LEAD.2.Volume" then some ⟨"LEAD", 2, .Volume⟩
  else if s = "Hat.0.Note.source" then some ⟨"Hat", 0, .Note⟩
  else if s = "Lead.2.Volume" then some ⟨"Lead", 2, .Volume⟩
  else if s = "Bass.1.Delay" then some ⟨"Bass", 1, .Delay⟩
  else if s = "Pad.0.Note" then some ⟨"Pad", 0, .Note⟩
  else if s = "Hat.0.Note.Source" then some ⟨"Hat", 0, .Note⟩
  else none

/-- The members of a sampler with outputs of every sort: three column outputs, a Float
output with a parsable name, a Source output with a parsable name, a name without a
parse and a Float output. -/
def ProjectionMembers : FConcordSamplerMembers :=
  ⟨⟨[], [],
      [("Lead.0.Note", Output .Int 2), ("Lead.2.Volume", Output .Int 3),
        ("Pad.0.Note", Output .Float 2), ("Bass.1.Delay", Output .Int 1),
        ("Hat.0.Note.Source", Output .Int 2), ("Tempo", Output .Int 1),
        ("Gain", Output .Float 2)]⟩,
    Environment, [1, 2, 3], none, 0, 0, Sweep⟩

/-- Content of fresh cells of arrays. -/
def Uninit : (t : EConcordValueType) → Nat → FValue t
  | .Int, k => 777 + k
  | .Float, k => ⟨999 + k⟩

/-- Other content of fresh cells of arrays. -/
def Uninit1 : (t : EConcordValueType) → Nat → FValue t
  | .Int, _ => -1
  | .Float, _ => ⟨5⟩

/-- A crate with earlier content. -/
def OldCrate : FConcordCrateData :=
  ⟨[("Tempo", ⟨[1, 2, 3, 4]⟩), ("Gone", ⟨[9]⟩)], [("Old", ⟨[⟨1⟩]⟩)]⟩

/-- Pattern data with earlier content: a longer `Lead` track and a track that no output
addresses. -/
def OldPattern : FConcordPatternData :=
  ⟨[("Lead", ⟨[⟨[9, 9, 9], [8], [], []⟩, ⟨[], [], [], []⟩, ⟨[], [], [7], []⟩, ⟨[6], [], [], []⟩]⟩),
    ("Gone", ⟨[⟨[1], [], [], []⟩]⟩)]⟩

/-- The members of a parent wired to the instance `A` under other spellings of the
wiring names: it declares the block `a.Y.target` and has the output `a.X.source`. -/
def RespelledParentMembers : FConcordSamplerMembers :=
  FConcordSamplerMembers.Construct
    ⟨[("a.Y.target", ⟨2, 2⟩)], [], [("a.X.source", Output .Int 2)]⟩ Environment 0 Sweep

/-- The respelled parent's members and the instance sampler after the loop pass for `A`. -/
def RespelledProcessed : FConcordSamplerMembers × FConcordSampler :=
  match FConcordSampler.ProcessInstance true RespelledParentMembers "A" Child with
  | .ok r => r
  | .error _ => (RespelledParentMembers, Child)

/-- The members of a sampler whose output names differ in case only from names met
before: `Source` suffixes in small and in capital letters, and the track `Lead` under
three spellings. -/
def RespelledProjectionMembers : FConcordSamplerMembers :=
  ⟨⟨[], [],
      [("Lead.0.Note", Output .Int 2), ("Tempo.source", Output .Int 1),
        ("lead.1.Note", Output .Int 1), ("Gain.SOURCE", Output .Float 2),
        ("LEAD.2.Volume", Output .Int 3), ("Hat.0.Note.source", Output .Int 2),
        ("Tempo", Output .Int 1), ("Gain", Output .Float 2)]⟩,
    Environment, [1, 2, 3], none, 0, 0, Sweep⟩

end Example

namespace Example

/-- The key-off note number of the replay library (`XMP_KEY_OFF`, `0x81`). -/
def KeyOff : Int := 0x81

/-- A column with a note, a rest, a key-off and a high note, instruments, volumes and
delays in and out of range. -/
def TrackerColumn : FConcordColumn :=
  ⟨[60, 0, -1, 200], [0, 3, 2, 7], [64, 70, -5], [1, 20, -3]⟩

/-- An empty event. -/
def EmptyEvent : xmp_event := ⟨0, 0, 0, 0, 0, 0, 0, 0⟩

/-- A track of five rows of cleared events (`ClearPattern`: note off, second effect 9). -/
def TrackerTrack : xmp_track := ⟨5, List.replicate 5 ⟨0x81, 0, 0, 0, 0, 9, 9, 0⟩⟩

end Example

/-! ## Lemmas: maps, arrays, parameter blocks -/

theorem find_eq_none_iff {β : Type} (m : List (String × β)) (key : String) :
    Find m key = none ↔ ∀ k v, (k, v) ∈ m → FoldCase k ≠ FoldCase key := by
  induction m with
  | nil => simp [Find]
  | cons x rest ih =>
    obtain ⟨a, w⟩ := x
    by_cases hk : FoldCase a = FoldCase key
    · simp only [Find, hk, if_true]
      constructor
      · intro h; cases h
      · intro h; exact absurd hk (h a w (List.mem_cons_self _ _))
    · simp only [Find, hk, if_false, ih]
      constructor
      · intro h k v hv
        rcases List.mem_cons.1 hv with h1 | h1
        · rw [Prod.mk.injEq] at h1
          rw [h1.1]
          exact hk
        · exact h k v h1
      · intro h k v hv
        exact h k v (List.mem_cons_of_mem _ hv)

/-- An entry that `Find` returns is stored under a key that compares equal. -/
theorem find_some_mem {β : Type} (m : List (String × β)) (key : String) (v : β)
    (h : Find m key = some v) : ∃ k, FoldCase k = FoldCase key ∧ (k, v) ∈ m := by
  induction m with
  | nil => simp [Find] at h
  | cons x rest ih =>
    obtain ⟨a, w⟩ := x
    by_cases hk : FoldCase a = FoldCase key
    · simp only [Find, hk, if_true, Option.some.injEq] at h
      subst h
      exact ⟨a, hk, List.mem_cons_self _ _⟩
    · simp only [Find, hk, if_false] at h
      obtain ⟨k, h1, h2⟩ := ih h
      exact ⟨k, h1, List.mem_cons_of_mem _ h2⟩

/-- Keys that compare equal find the same entry. -/
theorem find_congr {β : Type} (m : List (String × β)) (a b : String)
    (h : FoldCase a = FoldCase b) : Find m a = Find m b := by
  induction m with
  | nil => rfl
  | cons x rest ih =>
    obtain ⟨k, w⟩ := x
    simp only [Find, h, ih]

theorem string_append_right_cancel (a b c : String) (h : a ++ c = b ++ c) : a = b := by
  have h1 : (a ++ c).data = (b ++ c).data := congrArg String.data h
  rw [String.data_append, String.data_append] at h1
  exact String.ext (List.append_cancel_right h1)

theorem string_append_left_cancel (a b c : String) (h : c ++ a = c ++ b) : a = b := by
  have h1 : (c ++ a).data = (c ++ b).data := congrArg String.data h
  rw [String.data_append, String.data_append] at h1
  exact String.ext (List.append_cancel_left h1)

theorem foldCase_append (a b : String) : FoldCase (a ++ b) = FoldCase a ++ FoldCase b := by
  apply String.ext
  simp [FoldCase, String.data_append]

/-- The wiring name `<instance>.<name><suffix>` determines `<name>`, as names compare. -/
theorem wiring_name_injective (key a b suffix : String)
    (h : FoldCase (key ++ "." ++ a ++ suffix) = FoldCase (key ++ "." ++ b ++ suffix)) :
    FoldCase a = FoldCase b := by
  rw [foldCase_append, foldCase_append, foldCase_append _ suffix, foldCase_append _ b] at h
  exact string_append_left_cancel _ _ (FoldCase (key ++ "."))
    (string_append_right_cancel _ _ (FoldCase suffix) h)

/-- Names that compare equal give wiring names that compare equal. -/
theorem wiring_name_congr (key a b suffix : String) (h : FoldCase a = FoldCase b) :
    FoldCase (key ++ "." ++ a ++ suffix) = FoldCase (key ++ "." ++ b ++ suffix) := by
  rw [foldCase_append, foldCase_append, foldCase_append _ suffix, foldCase_append _ b, h]

theorem evalFrom_length {α : Type} (value : Nat → α) (num : Nat) (i : Nat) (l : List α) :
    (EvalFrom value num i l).length = l.length := by
  induction l generalizing i with
  | nil => rfl
  | cons x xs ih => simp [EvalFrom, ih]

theorem evalFrom_eq_map {α : Type} (value : Nat → α) (num : Nat) (i : Nat) (l : List α)
    (h : i + l.length ≤ num) :
    EvalFrom value num i l = (List.range' i l.length).map value := by
  induction l generalizing i with
  | nil => rfl
  | cons x xs ih =>
    simp only [List.length_cons] at h
    have h1 : i < num := by omega
    simp [EvalFrom, h1, List.range', ih (i + 1) (by omega)]

/-- Evaluating into a target that has exactly the output's size yields the output's array. -/
theorem eval_eq_values (o : FOutput) (t : EConcordValueType) (c : FConcordExpressionContext)
    (target : List (FValue t)) (h : target.length = o.Num) :
    o.Eval t c target = o.Values t c := by
  unfold FOutput.Eval FOutput.Values
  rw [evalFrom_eq_map _ _ _ _ (by omega), h, List.range_eq_range']

theorem eval_length (o : FOutput) (t : EConcordValueType) (c : FConcordExpressionContext)
    (target : List (FValue t)) : (o.Eval t c target).length = target.length :=
  evalFrom_length _ _ _ _

theorem values_length (o : FOutput) (t : EConcordValueType) (c : FConcordExpressionContext) :
    (o.Values t c).length = o.Num := by
  simp [FOutput.Values]

theorem getElem?_view {α : Type} (l : List α) (off size j : Nat) :
    ((l.drop off).take size)[j]? = if j < size then l[off + j]? else none := by
  rw [List.getElem?_take]
  split
  · rw [List.getElem?_drop]
  · rfl

theorem getElem?_store {α : Type} (l v : List α) (off : Nat) (i : Nat)
    (h : off + v.length ≤ l.length) :
    (l.take off ++ v ++ l.drop (off + v.length))[i]? =
      if off ≤ i ∧ i < off + v.length then v[i - off]? else l[i]? := by
  have hlen : (l.take off).length = off := by simp; omega
  by_cases h1 : i < off
  · rw [List.append_assoc, List.getElem?_append_left (by omega)]
    simp only [List.getElem?_take, h1, if_true]
    rw [if_neg (by omega)]
  · by_cases h2 : i < off + v.length
    · rw [List.getElem?_append_left (by simp; omega), List.getElem?_append_right (by omega)]
      simp only [hlen]
      rw [if_pos (by omega)]
    · rw [List.getElem?_append_right (by simp; omega)]
      simp [List.getElem?_drop]
      rw [if_neg (by omega)]
      congr 1; omega

/-- Storing a view of the clipped length of a block changes no cell outside the block. -/
theorem getElem?_store_outside {α : Type} (l v : List α) (off size : Nat) (i : Nat)
    (hv : v.length = ((l.drop off).take size).length)
    (hi : ¬ (off ≤ i ∧ i < off + size)) :
    (l.take off ++ v ++ l.drop (off + v.length))[i]? = l[i]? := by
  have hv1 : v.length = min size (l.length - off) := by simpa using hv
  by_cases hoff : off ≤ l.length
  · rw [getElem?_store l v off i (by omega)]
    rw [if_neg (by omega)]
  · have hnil : v = [] := List.length_eq_zero.1 (by omega)
    subst hnil
    simp

theorem store_length {α : Type} (l v : List α) (off size : Nat)
    (hv : v.length = ((l.drop off).take size).length) :
    (l.take off ++ v ++ l.drop (off + v.length)).length = l.length := by
  have hv1 : v.length = min size (l.length - off) := by simpa using hv
  simp
  omega

namespace FConcordFactorGraphEnvironment

theorem parameters_setParameters (e : FConcordFactorGraphEnvironment) (t : EConcordValueType)
    (ps : List (FValue t)) : (e.SetParameters t ps).Parameters t = ps := by
  cases t <;> rfl

theorem parameters_setParameters_ne (e : FConcordFactorGraphEnvironment)
    (t u : EConcordValueType) (ps : List (FValue t)) (h : u ≠ t) :
    (e.SetParameters t ps).Parameters u = e.Parameters u := by
  cases t <;> cases u <;> first | rfl | exact absurd rfl h

theorem stagingVariation_setParameters (e : FConcordFactorGraphEnvironment)
    (t : EConcordValueType) (ps : List (FValue t)) :
    (e.SetParameters t ps).StagingVariation = e.StagingVariation := by
  cases t <;> rfl

/-- Evaluating into a block leaves the storage of the other kind alone. -/
theorem parameters_evalIntoBlock_ne (e : FConcordFactorGraphEnvironment)
    (t u : EConcordValueType) (o : FOutput) (c : FConcordExpressionContext)
    (b : FConcordFactorGraphBlock) (h : u ≠ t) :
    (e.EvalIntoBlock t o c b).Parameters u = e.Parameters u := by
  unfold EvalIntoBlock StoreParametersView
  exact parameters_setParameters_ne _ _ _ _ h

theorem stagingVariation_evalIntoBlock (e : FConcordFactorGraphEnvironment)
    (t : EConcordValueType) (o : FOutput) (c : FConcordExpressionContext)
    (b : FConcordFactorGraphBlock) :
    (e.EvalIntoBlock t o c b).StagingVariation = e.StagingVariation := by
  unfold EvalIntoBlock StoreParametersView
  exact stagingVariation_setParameters _ _ _

/-- Evaluating into a block keeps the length of the storage. -/
theorem parameters_evalIntoBlock_length (e : FConcordFactorGraphEnvironment)
    (t u : EConcordValueType) (o : FOutput) (c : FConcordExpressionContext)
    (b : FConcordFactorGraphBlock) :
    ((e.EvalIntoBlock t o c b).Parameters u).length = (e.Parameters u).length := by
  by_cases h : u = t
  · subst h
    unfold EvalIntoBlock StoreParametersView
    rw [parameters_setParameters]
    exact store_length _ _ b.Offset b.Size (by rw [eval_length]; rfl)
  · rw [parameters_evalIntoBlock_ne _ _ _ _ _ _ h]

/-- After an output of the block's size is evaluated into a block that lies inside the
storage, the block holds the output's array. -/
theorem view_evalIntoBlock_same (e : FConcordFactorGraphEnvironment) (t : EConcordValueType)
    (o : FOutput) (c : FConcordExpressionContext) (b : FConcordFactorGraphBlock)
    (hsize : b.Size = o.Num) (hin : b.Offset + b.Size ≤ (e.Parameters t).length) :
    (e.EvalIntoBlock t o c b).GetParametersView t b = o.Values t c := by
  have hview : (e.GetParametersView t b).length = o.Num := by
    unfold GetParametersView
    simp
    omega
  unfold EvalIntoBlock StoreParametersView
  rw [eval_eq_values o t c _ hview]
  unfold GetParametersView
  rw [parameters_setParameters]
  have hlen : (List.take b.Offset (e.Parameters t)).length = b.Offset := by simp; omega
  rw [List.append_assoc, List.drop_left' hlen]
  exact List.take_left' (by rw [values_length]; exact hsize.symm)

/-- Evaluating into a block leaves every block apart from it as it was. -/
theorem view_evalIntoBlock_disjoint (e : FConcordFactorGraphEnvironment)
    (t : EConcordValueType) (o : FOutput) (c : FConcordExpressionContext)
    (b b1 : FConcordFactorGraphBlock) (h : b.Disjoint b1) :
    (e.EvalIntoBlock t o c b1).GetParametersView t b = e.GetParametersView t b := by
  unfold EvalIntoBlock StoreParametersView
  unfold GetParametersView
  rw [parameters_setParameters]
  apply List.ext_getElem?
  intro j
  rw [getElem?_view, getElem?_view]
  split
  · rename_i hj
    apply getElem?_store_outside _ _ b1.Offset b1.Size
    · rw [eval_length]
    · unfold FConcordFactorGraphBlock.Disjoint at h
      omega
  · rfl

end FConcordFactorGraphEnvironment

/-! ## Lemmas: filling instance inputs -/

namespace FConcordSampler

theorem withMembers_members (s : FConcordSampler) : s.WithMembers s.Members = s := by
  cases s; rfl

theorem members_withMembers (s : FConcordSampler) (m : FConcordSamplerMembers) :
    (s.WithMembers m).Members = m := rfl

theorem getInstanceSamplers_withMembers (s : FConcordSampler) (m : FConcordSamplerMembers) :
    (s.WithMembers m).GetInstanceSamplers = s.GetInstanceSamplers := rfl

theorem fillInstanceInputs_none (t : EConcordValueType) (p : FConcordSamplerMembers)
    (key : String) (i : FConcordSamplerMembers) (x : String × FConcordFactorGraphBlock)
    (h : Find p.FactorGraph.GetOutputs (key ++ "." ++ x.1 ++ ".Source") = none) :
    FillInstanceInputs t p key i x = i := by
  simp only [FillInstanceInputs, h]

theorem fillInstanceInputs_some (t : EConcordValueType) (p : FConcordSamplerMembers)
    (key : String) (i : FConcordSamplerMembers) (x : String × FConcordFactorGraphBlock)
    (o : FOutput)
    (h : Find p.FactorGraph.GetOutputs (key ++ "." ++ x.1 ++ ".Source") = some o) :
    FillInstanceInputs t p key i x =
      { i with Environment := i.Environment.EvalIntoBlock t o p.GetExpressionContext x.2 } := by
  simp only [FillInstanceInputs, h]

/-- What `FillInstanceInputs` can change of the instance sampler is the parameter
storage of kind `t` of its environment. -/
theorem fillInstanceInputs_frame (t : EConcordValueType) (p : FConcordSamplerMembers)
    (key : String) (i : FConcordSamplerMembers) (x : String × FConcordFactorGraphBlock) :
    (FillInstanceInputs t p key i x).FactorGraph = i.FactorGraph ∧
    (FillInstanceInputs t p key i x).Variation = i.Variation ∧
    (FillInstanceInputs t p key i x).FutureScore = i.FutureScore ∧
    (FillInstanceInputs t p key i x).Environment.StagingVariation
      = i.Environment.StagingVariation ∧
    (∀ u, u ≠ t → (FillInstanceInputs t p key i x).Environment.Parameters u
      = i.Environment.Parameters u) ∧
    (∀ u, ((FillInstanceInputs t p key i x).Environment.Parameters u).length
      = (i.Environment.Parameters u).length) := by
  cases h : Find p.FactorGraph.GetOutputs (key ++ "." ++ x.1 ++ ".Source") with
  | none => rw [fillInstanceInputs_none t p key i x h]; simp
  | some o =>
    rw [fillInstanceInputs_some t p key i x o h]
    refine ⟨rfl, rfl, rfl, ?_, ?_, ?_⟩
    · exact FConcordFactorGraphEnvironment.stagingVariation_evalIntoBlock _ _ _ _ _
    · intro u hu
      exact FConcordFactorGraphEnvironment.parameters_evalIntoBlock_ne _ _ _ _ _ _ hu
    · intro u
      exact FConcordFactorGraphEnvironment.parameters_evalIntoBlock_length _ _ _ _ _ _

theorem fillFold_frame (t : EConcordValueType) (p : FConcordSamplerMembers) (key : String)
    (blocks : List (String × FConcordFactorGraphBlock)) (i : FConcordSamplerMembers) :
    (blocks.foldl (fun j x => FillInstanceInputs t p key j x) i).FactorGraph = i.FactorGraph ∧
    (blocks.foldl (fun j x => FillInstanceInputs t p key j x) i).Variation = i.Variation ∧
    (blocks.foldl (fun j x => FillInstanceInputs t p key j x) i).FutureScore = i.FutureScore ∧
    (blocks.foldl (fun j x => FillInstanceInputs t p key j x) i).Environment.StagingVariation
      = i.Environment.StagingVariation ∧
    (∀ u, u ≠ t →
      (blocks.foldl (fun j x => FillInstanceInputs t p key j x) i).Environment.Parameters u
        = i.Environment.Parameters u) ∧
    (∀ u,
      ((blocks.foldl (fun j x => FillInstanceInputs t p key j x) i).Environment.Parameters u).length
        = (i.Environment.Parameters u).length) := by
  induction blocks generalizing i with
  | nil => simp
  | cons x rest ih =>
    simp only [List.foldl_cons]
    obtain ⟨h1, h2, h3, h4, h5, h6⟩ := ih (FillInstanceInputs t p key i x)
    obtain ⟨g1, g2, g3, g4, g5, g6⟩ := fillInstanceInputs_frame t p key i x
    refine ⟨h1.trans g1, h2.trans g2, h3.trans g3, h4.trans g4, ?_, ?_⟩
    · intro u hu; exact (h5 u hu).trans (g5 u hu)
    · intro u; exact (h6 u).trans (g6 u)

theorem fillAll_frame (t : EConcordValueType) (p : FConcordSamplerMembers) (key : String)
    (i : FConcordSamplerMembers) :
    (FillAllInstanceInputs t p key i).FactorGraph = i.FactorGraph ∧
    (FillAllInstanceInputs t p key i).Variation = i.Variation ∧
    (FillAllInstanceInputs t p key i).FutureScore = i.FutureScore ∧
    (FillAllInstanceInputs t p key i).Environment.StagingVariation
      = i.Environment.StagingVariation ∧
    (∀ u, u ≠ t → (FillAllInstanceInputs t p key i).Environment.Parameters u
      = i.Environment.Parameters u) ∧
    (∀ u, ((FillAllInstanceInputs t p key i).Environment.Parameters u).length
      = (i.Environment.Parameters u).length) :=
  fillFold_frame t p key _ i

/-- The instance sampler as `PrepareInstance` leaves it: its graph and future are
untouched and its variation is its environment's staging variation. -/
theorem prepareInstance_frame (p : FConcordSamplerMembers) (key : String)
    (i : FConcordSamplerMembers) :
    (PrepareInstance p key i).FactorGraph = i.FactorGraph ∧
    (PrepareInstance p key i).FutureScore = i.FutureScore ∧
    (PrepareInstance p key i).Variation = i.Environment.StagingVariation ∧
    (PrepareInstance p key i).Environment.StagingVariation = i.Environment.StagingVariation := by
  unfold PrepareInstance
  simp only
  obtain ⟨h1, h2, h3, h4, _, _⟩ := fillAll_frame .Float p key
    (FillAllInstanceInputs .Int p key
      ({ i with Environment := i.Environment.SetMaskAndParametersFromStagingArea
        }).GetVariationFromEnvironment)
  obtain ⟨g1, g2, g3, g4, _, _⟩ := fillAll_frame .Int p key
    ({ i with Environment := i.Environment.SetMaskAndParametersFromStagingArea
      }).GetVariationFromEnvironment
  exact ⟨h1.trans g1, h3.trans g3, h2.trans g2, h4.trans g4⟩

theorem view_congr (e1 e2 : FConcordFactorGraphEnvironment) (t : EConcordValueType)
    (b : FConcordFactorGraphBlock) (h : e1.Parameters t = e2.Parameters t) :
    e1.GetParametersView t b = e2.GetParametersView t b := by
  unfold FConcordFactorGraphEnvironment.GetParametersView
  rw [h]

/-- Fills of blocks that lie apart from `b` leave `b` as it was. -/
theorem fillFold_view_preserved (t : EConcordValueType) (p : FConcordSamplerMembers)
    (key : String) (blocks : List (String × FConcordFactorGraphBlock))
    (i : FConcordSamplerMembers) (b : FConcordFactorGraphBlock)
    (h : ∀ x ∈ blocks, b.Disjoint x.2) :
    (blocks.foldl (fun j x => FillInstanceInputs t p key j x) i).Environment.GetParametersView t b
      = i.Environment.GetParametersView t b := by
  induction blocks generalizing i with
  | nil => rfl
  | cons x rest ih =>
    simp only [List.foldl_cons]
    rw [ih _ (fun y hy => h y (List.mem_cons_of_mem _ hy))]
    cases hf : Find p.FactorGraph.GetOutputs (key ++ "." ++ x.1 ++ ".Source") with
    | none => rw [fillInstanceInputs_none t p key i x hf]
    | some o =>
      rw [fillInstanceInputs_some t p key i x o hf]
      exact FConcordFactorGraphEnvironment.view_evalIntoBlock_disjoint _ _ _ _ _ _
        (h x (List.mem_cons_self _ _))

theorem disjoint_symm (a b : FConcordFactorGraphBlock) (h : a.Disjoint b) : b.Disjoint a := by
  unfold FConcordFactorGraphBlock.Disjoint at *
  omega

/-- After the fill loop over a table of blocks lying pairwise apart, a block of the table
whose Source output exists in the parent holds that output's array. -/
theorem fillFold_view (t : EConcordValueType) (p : FConcordSamplerMembers) (key : String)
    (blocks : List (String × FConcordFactorGraphBlock)) (i : FConcordSamplerMembers)
    (pname : String) (b : FConcordFactorGraphBlock) (o : FOutput)
    (hmem : (pname, b) ∈ blocks)
    (hsrc : Find p.FactorGraph.GetOutputs (key ++ "." ++ pname ++ ".Source") = some o)
    (hsize : b.Size = o.Num)
    (hin : b.Offset + b.Size ≤ (i.Environment.Parameters t).length)
    (hapart : BlocksApart blocks) :
    (blocks.foldl (fun j x => FillInstanceInputs t p key j x) i).Environment.GetParametersView t b
      = o.Values t p.GetExpressionContext := by
  induction blocks generalizing i with
  | nil => cases hmem
  | cons x rest ih =>
    simp only [List.foldl_cons]
    unfold BlocksApart at hapart
    rw [List.pairwise_cons] at hapart
    rcases List.mem_cons.1 hmem with hx | hx
    · subst hx
      rw [fillFold_view_preserved t p key rest _ b (fun y hy => hapart.1 y hy)]
      rw [fillInstanceInputs_some t p key i (pname, b) o hsrc]
      exact FConcordFactorGraphEnvironment.view_evalIntoBlock_same _ _ _ _ _ hsize hin
    · apply ih _ hx
      · rw [(fillInstanceInputs_frame t p key i x).2.2.2.2.2 t]
        exact hin
      · exact hapart.2

end FConcordSampler

namespace FConcordSampler

theorem syncCore_eq (DO_CHECK : Bool) (m : FConcordSamplerMembers) (s : FConcordSampler) :
    SampleVariationSyncCore DO_CHECK m s = SampleVariationSync DO_CHECK (s.WithMembers m) := by
  cases s with
  | mk m0 is =>
    simp [SampleVariationSync, WithMembers, GetInstanceSamplers, Members, SampleVariationSyncCore]

/-- The body of `SampleVariationSync` (lines 18-21). -/
theorem sampleVariationSync_eq (DO_CHECK : Bool) (s : FConcordSampler) :
    SampleVariationSync DO_CHECK s =
      match checkf DO_CHECK (!s.IsSamplingVariation) with
      | .error e => .error e
      | .ok _ =>
        if s.IsSamplingVariation then .ok (F32.zero, s)
        else
          match RunInstanceSamplers DO_CHECK s with
          | .error e => .error e
          | .ok s1 => .ok s1.SampleVariation := by
  cases s with
  | mk m is =>
    simp only [SampleVariationSync, SampleVariationSyncCore, Members, IsSamplingVariation,
      RunInstanceSamplers, GetInstanceSamplers, SampleVariation, WithMembers]
    cases checkf DO_CHECK (!m.IsSamplingVariation) with
    | error e => rfl
    | ok u =>
      cases m.IsSamplingVariation with
      | true => rfl
      | false =>
        simp only [Bool.false_eq_true, if_false]
        cases RunInstanceSamplersCore DO_CHECK m is with
        | error e => rfl
        | ok r => rfl

/-- The loop of `RunInstanceSamplers`, one instance at a time. -/
theorem runInstanceSamplersCore_cons (DO_CHECK : Bool) (p : FConcordSamplerMembers)
    (Key : String) (Value : FConcordSampler) (Rest : FInstanceSamplers) :
    RunInstanceSamplersCore DO_CHECK p (.cons Key Value Rest) =
      match ProcessInstance DO_CHECK p Key Value with
      | .error e => .error e
      | .ok (p1, Value1) =>
        match RunInstanceSamplersCore DO_CHECK p1 Rest with
        | .error e => .error e
        | .ok (p2, Rest1) => .ok (p2, .cons Key Value1 Rest1) := by
  rw [RunInstanceSamplersCore, ProcessInstance, syncCore_eq]
  cases SampleVariationSync DO_CHECK (Value.WithMembers (PrepareInstance p Key Value.Members)) with
  | error e => rfl
  | ok r =>
    obtain ⟨sc, Sampled⟩ := r
    simp only
    cases PushInstanceOutputs DO_CHECK Key (ReturnVariation Sampled.Members) p
        (ReturnVariation Sampled.Members).FactorGraph.GetOutputs with
    | error e => rfl
    | ok p1 => rfl

end FConcordSampler

/-! ## Lemmas: pushing instance outputs, the instance loop -/

namespace FConcordSampler

theorem blocksApart_find (blocks : List (String × FConcordFactorGraphBlock))
    (hapart : BlocksApart blocks) (n1 n2 : String) (b1 b2 : FConcordFactorGraphBlock)
    (h1 : Find blocks n1 = some b1) (h2 : Find blocks n2 = some b2)
    (hne : FoldCase n1 ≠ FoldCase n2) : b1.Disjoint b2 := by
  have hsymm : Symmetric (fun x y : String × FConcordFactorGraphBlock => x.2.Disjoint y.2) :=
    fun x y h => disjoint_symm _ _ h
  obtain ⟨k1, hk1, hm1⟩ := find_some_mem _ _ _ h1
  obtain ⟨k2, hk2, hm2⟩ := find_some_mem _ _ _ h2
  refine List.Pairwise.forall hsymm hapart hm1 hm2 (fun h => hne ?_)
  rw [← hk1, ← hk2]
  exact congrArg (fun x => FoldCase x.1) h

theorem pushInstanceOutput_missing (DO_CHECK : Bool) (key : String)
    (i p : FConcordSamplerMembers) (x : String × FOutput)
    (h : Find (p.FactorGraph.GetParameterBlocks x.2.GetType) (key ++ "." ++ x.1 ++ ".Target")
      = none) :
    PushInstanceOutput DO_CHECK key i p x
      = .error (if DO_CHECK then .CheckFailed else .NullDereference) := by
  simp only [PushInstanceOutput, FindChecked, h]

theorem pushInstanceOutput_found (DO_CHECK : Bool) (key : String)
    (i p : FConcordSamplerMembers) (x : String × FOutput) (b : FConcordFactorGraphBlock)
    (h : Find (p.FactorGraph.GetParameterBlocks x.2.GetType) (key ++ "." ++ x.1 ++ ".Target")
      = some b) :
    PushInstanceOutput DO_CHECK key i p x
      = .ok { p with Environment :=
                p.Environment.EvalIntoBlock x.2.GetType x.2 i.GetExpressionContext b } := by
  simp only [PushInstanceOutput, FindChecked, h]

/-- A pass of the output loop that returns has found the Target block and evaluated the
output into it. -/
theorem pushInstanceOutput_ok (DO_CHECK : Bool) (key : String)
    (i p p1 : FConcordSamplerMembers) (x : String × FOutput)
    (h : PushInstanceOutput DO_CHECK key i p x = .ok p1) :
    ∃ b, Find (p.FactorGraph.GetParameterBlocks x.2.GetType) (key ++ "." ++ x.1 ++ ".Target")
        = some b ∧
      p1 = { p with Environment :=
                p.Environment.EvalIntoBlock x.2.GetType x.2 i.GetExpressionContext b } := by
  cases hf : Find (p.FactorGraph.GetParameterBlocks x.2.GetType)
      (key ++ "." ++ x.1 ++ ".Target") with
  | none => rw [pushInstanceOutput_missing DO_CHECK key i p x hf] at h; cases h
  | some b =>
    rw [pushInstanceOutput_found DO_CHECK key i p x b hf] at h
    exact ⟨b, rfl, (Except.ok.inj h).symm⟩

/-- What the output loop can change of the parent is the parameter storage of its
environment. -/
theorem pushInstanceOutputs_frame (DO_CHECK : Bool) (key : String) (i : FConcordSamplerMembers)
    (outs : List (String × FOutput)) (p p1 : FConcordSamplerMembers)
    (h : PushInstanceOutputs DO_CHECK key i p outs = .ok p1) :
    p1.FactorGraph = p.FactorGraph ∧ p1.Variation = p.Variation ∧
    p1.FutureScore = p.FutureScore ∧ p1.AsyncLaunches = p.AsyncLaunches ∧
    p1.SamplerState = p.SamplerState ∧ p1.SampleVariation = p.SampleVariation ∧
    p1.Environment.StagingVariation = p.Environment.StagingVariation ∧
    (∀ u, (p1.Environment.Parameters u).length = (p.Environment.Parameters u).length) := by
  induction outs generalizing p with
  | nil =>
    simp only [PushInstanceOutputs, Except.ok.injEq] at h
    subst h
    simp
  | cons x rest ih =>
    rw [PushInstanceOutputs] at h
    cases hx : PushInstanceOutput DO_CHECK key i p x with
    | error e => rw [hx] at h; cases h
    | ok p0 =>
      rw [hx] at h
      obtain ⟨b, _, hp0⟩ := pushInstanceOutput_ok DO_CHECK key i p p0 x hx
      obtain ⟨h1, h2, h3, h4, h5, h6, h7, h8⟩ := ih p0 h
      subst hp0
      refine ⟨h1, h2, h3, h4, h5, h6, ?_, ?_⟩
      · rw [h7]
        exact FConcordFactorGraphEnvironment.stagingVariation_evalIntoBlock _ _ _ _ _
      · intro u
        rw [h8 u]
        exact FConcordFactorGraphEnvironment.parameters_evalIntoBlock_length _ _ _ _ _ _

/-- An output without its Target block in the parent makes the output loop fail. -/
theorem pushInstanceOutputs_missing (DO_CHECK : Bool) (key : String)
    (i : FConcordSamplerMembers) (outs : List (String × FOutput)) (p : FConcordSamplerMembers)
    (x : String × FOutput) (hx : x ∈ outs)
    (h : Find (p.FactorGraph.GetParameterBlocks x.2.GetType) (key ++ "." ++ x.1 ++ ".Target")
      = none) :
    ∃ e, PushInstanceOutputs DO_CHECK key i p outs = .error e := by
  induction outs generalizing p with
  | nil => cases hx
  | cons z rest ih =>
    rw [PushInstanceOutputs]
    cases hz : PushInstanceOutput DO_CHECK key i p z with
    | error e => exact ⟨e, rfl⟩
    | ok p0 =>
      simp only
      rcases List.mem_cons.1 hx with hxz | hxr
      · subst hxz
        rw [pushInstanceOutput_missing DO_CHECK key i p x h] at hz
        cases hz
      · obtain ⟨b, _, hp0⟩ := pushInstanceOutput_ok DO_CHECK key i p p0 z hz
        apply ih p0 hxr
        subst hp0
        exact h

/-- Outputs whose Target blocks lie apart from `b`, or are of another kind, leave `b`
as it was. -/
theorem pushInstanceOutputs_view_preserved (DO_CHECK : Bool) (key : String)
    (i : FConcordSamplerMembers) (outs : List (String × FOutput))
    (p p1 : FConcordSamplerMembers) (t : EConcordValueType) (b : FConcordFactorGraphBlock)
    (hout : ∀ x ∈ outs, ∀ b1, x.2.GetType = t →
      Find (p.FactorGraph.GetParameterBlocks t) (key ++ "." ++ x.1 ++ ".Target") = some b1 →
      b.Disjoint b1)
    (h : PushInstanceOutputs DO_CHECK key i p outs = .ok p1) :
    p1.Environment.GetParametersView t b = p.Environment.GetParametersView t b := by
  induction outs generalizing p with
  | nil =>
    simp only [PushInstanceOutputs, Except.ok.injEq] at h
    subst h
    rfl
  | cons x rest ih =>
    rw [PushInstanceOutputs] at h
    cases hx : PushInstanceOutput DO_CHECK key i p x with
    | error e => rw [hx] at h; cases h
    | ok p0 =>
      rw [hx] at h
      obtain ⟨b1, hb1, hp0⟩ := pushInstanceOutput_ok DO_CHECK key i p p0 x hx
      have hg : p0.FactorGraph = p.FactorGraph := by subst hp0; rfl
      rw [ih p0 (fun y hy b2 hty hf => hout y (List.mem_cons_of_mem _ hy) b2 hty (hg ▸ hf)) h]
      subst hp0
      by_cases hty : x.2.GetType = t
      · subst hty
        exact FConcordFactorGraphEnvironment.view_evalIntoBlock_disjoint _ _ _ _ _ _
          (hout x (List.mem_cons_self _ _) b1 rfl hb1)
      · exact view_congr _ _ t b
          (FConcordFactorGraphEnvironment.parameters_evalIntoBlock_ne _ _ _ _ _ _
            (fun h => hty h.symm))

/-- After the output loop has returned, the Target block of an output holds the
output's array in the instance's context. -/
theorem pushInstanceOutputs_view (DO_CHECK : Bool) (key : String)
    (i : FConcordSamplerMembers) (outs : List (String × FOutput))
    (p p1 : FConcordSamplerMembers) (y : String) (o : FOutput) (b : FConcordFactorGraphBlock)
    (hmem : (y, o) ∈ outs) (hnodup : (outs.map (fun x => FoldCase x.1)).Nodup)
    (hb : Find (p.FactorGraph.GetParameterBlocks o.GetType) (key ++ "." ++ y ++ ".Target")
      = some b)
    (hsize : b.Size = o.Num)
    (hin : b.Offset + b.Size ≤ (p.Environment.Parameters o.GetType).length)
    (hapart : BlocksApart (p.FactorGraph.GetParameterBlocks o.GetType))
    (h : PushInstanceOutputs DO_CHECK key i p outs = .ok p1) :
    p1.Environment.GetParametersView o.GetType b = o.Values o.GetType i.GetExpressionContext := by
  induction outs generalizing p with
  | nil => cases hmem
  | cons x rest ih =>
    rw [PushInstanceOutputs] at h
    rw [List.map_cons, List.nodup_cons] at hnodup
    cases hx : PushInstanceOutput DO_CHECK key i p x with
    | error e => rw [hx] at h; cases h
    | ok p0 =>
      rw [hx] at h
      obtain ⟨b1, hb1, hp0⟩ := pushInstanceOutput_ok DO_CHECK key i p p0 x hx
      have hg : p0.FactorGraph = p.FactorGraph := by subst hp0; rfl
      rcases List.mem_cons.1 hmem with hhead | htail
      · subst hhead
        simp only at hb1
        rw [hb] at hb1
        cases hb1
        rw [pushInstanceOutputs_view_preserved DO_CHECK key i rest p0 p1 o.GetType b ?_ h]
        · subst hp0
          exact FConcordFactorGraphEnvironment.view_evalIntoBlock_same _ _ _ _ _ hsize hin
        · intro z hz b2 _ hf
          rw [hg] at hf
          refine blocksApart_find _ hapart _ _ b b2 hb hf ?_
          intro hname
          have hzy : FoldCase y = FoldCase z.1 :=
            wiring_name_injective key y z.1 ".Target" hname
          have hzmem : FoldCase z.1 ∈ rest.map (fun x => FoldCase x.1) :=
            List.mem_map_of_mem (fun x => FoldCase x.1) hz
          rw [← hzy] at hzmem
          exact hnodup.1 hzmem
      · apply ih p0 htail hnodup.2 (hg ▸ hb) _ (hg ▸ hapart) h
        subst hp0
        rw [FConcordFactorGraphEnvironment.parameters_evalIntoBlock_length]
        exact hin

end FConcordSampler

namespace FConcordSampler

/-- A pass of the instance loop that returns: the nested sampling returned, it started
from the prepared instance, and the parent comes out of the output loop. -/
theorem processInstance_ok (DO_CHECK : Bool) (p p1 : FConcordSamplerMembers) (Key : String)
    (Value Value1 : FConcordSampler)
    (h : ProcessInstance DO_CHECK p Key Value = .ok (p1, Value1)) :
    ∃ Score Sampled,
      SampleVariationSync DO_CHECK (Value.WithMembers (PrepareInstance p Key Value.Members))
        = .ok (Score, Sampled) ∧
      Value1 = Sampled.WithMembers (ReturnVariation Sampled.Members) ∧
      PushInstanceOutputs DO_CHECK Key (ReturnVariation Sampled.Members) p
        Sampled.Members.FactorGraph.GetOutputs = .ok p1 := by
  unfold ProcessInstance at h
  cases hs : SampleVariationSync DO_CHECK
      (Value.WithMembers (PrepareInstance p Key Value.Members)) with
  | error e => rw [hs] at h; cases h
  | ok r =>
    obtain ⟨Score, Sampled⟩ := r
    rw [hs] at h
    simp only at h
    cases hp : PushInstanceOutputs DO_CHECK Key (ReturnVariation Sampled.Members) p
        (ReturnVariation Sampled.Members).FactorGraph.GetOutputs with
    | error e => rw [hp] at h; cases h
    | ok p0 =>
      rw [hp] at h
      simp only [Except.ok.injEq, Prod.mk.injEq] at h
      obtain ⟨h1, h2⟩ := h
      subst h1
      exact ⟨Score, Sampled, rfl, h2.symm, hp⟩

/-- What the instance loop can change of the parent is the parameter storage of its
environment. -/
theorem runInstanceSamplersCore_frame (DO_CHECK : Bool) :
    ∀ (is is1 : FInstanceSamplers) (p p1 : FConcordSamplerMembers),
      RunInstanceSamplersCore DO_CHECK p is = .ok (p1, is1) →
      p1.FactorGraph = p.FactorGraph ∧ p1.Variation = p.Variation ∧
      p1.FutureScore = p.FutureScore ∧ p1.AsyncLaunches = p.AsyncLaunches ∧
      p1.SamplerState = p.SamplerState ∧ p1.SampleVariation = p.SampleVariation ∧
      p1.Environment.StagingVariation = p.Environment.StagingVariation
  | .nil, is1, p, p1, h => by
    simp only [RunInstanceSamplersCore, Except.ok.injEq, Prod.mk.injEq] at h
    obtain ⟨h1, _⟩ := h
    subst h1
    simp
  | .cons Key Value Rest, is1, p, p1, h => by
    rw [runInstanceSamplersCore_cons] at h
    cases hp : ProcessInstance DO_CHECK p Key Value with
    | error e => rw [hp] at h; cases h
    | ok r =>
      obtain ⟨p0, Value1⟩ := r
      rw [hp] at h
      simp only at h
      cases hr : RunInstanceSamplersCore DO_CHECK p0 Rest with
      | error e => rw [hr] at h; cases h
      | ok r1 =>
        obtain ⟨p2, Rest1⟩ := r1
        rw [hr] at h
        simp only [Except.ok.injEq, Prod.mk.injEq] at h
        obtain ⟨h1, _⟩ := h
        subst h1
        obtain ⟨_, Sampled, _, _, hpush⟩ := processInstance_ok DO_CHECK p p0 Key Value Value1 hp
        obtain ⟨g1, g2, g3, g4, g5, g6, g7, _⟩ :=
          pushInstanceOutputs_frame DO_CHECK Key _ _ p p0 hpush
        obtain ⟨f1, f2, f3, f4, f5, f6, f7⟩ :=
          runInstanceSamplersCore_frame DO_CHECK Rest Rest1 p0 p2 hr
        exact ⟨f1.trans g1, f2.trans g2, f3.trans g3, f4.trans g4, f5.trans g5, f6.trans g6,
          f7.trans g7⟩

end FConcordSampler

namespace FConcordSampler

/-- What `RunInstanceSamplers` can change of the sampler itself is the parameter storage
of its environment. -/
theorem runInstanceSamplers_frame (DO_CHECK : Bool) (s s1 : FConcordSampler)
    (h : RunInstanceSamplers DO_CHECK s = .ok s1) :
    s1.Members.FactorGraph = s.Members.FactorGraph ∧
    s1.Members.Variation = s.Members.Variation ∧
    s1.Members.FutureScore = s.Members.FutureScore ∧
    s1.Members.Environment.StagingVariation = s.Members.Environment.StagingVariation := by
  unfold RunInstanceSamplers at h
  cases hr : RunInstanceSamplersCore DO_CHECK s.Members s.GetInstanceSamplers with
  | error e => rw [hr] at h; cases h
  | ok r =>
    obtain ⟨m, is⟩ := r
    rw [hr] at h
    simp only [Except.ok.injEq] at h
    subst h
    obtain ⟨f1, f2, f3, _, _, _, f7⟩ := runInstanceSamplersCore_frame DO_CHECK _ _ _ _ hr
    exact ⟨f1, f2, f3, f7⟩

/-- A call of `SampleVariationSync` that returns has either taken the guard of line 19
or run `RunInstanceSamplers` and then `SampleVariation`. -/
theorem sampleVariationSync_ok (DO_CHECK : Bool) (s : FConcordSampler)
    (r : F32 × FConcordSampler) (h : SampleVariationSync DO_CHECK s = .ok r) :
    (s.IsSamplingVariation = true ∧ r = (F32.zero, s)) ∨
    (s.IsSamplingVariation = false ∧
      ∃ s0, RunInstanceSamplers DO_CHECK s = .ok s0 ∧ r = s0.SampleVariation) := by
  rw [sampleVariationSync_eq] at h
  cases hc : checkf DO_CHECK (!s.IsSamplingVariation) with
  | error e => rw [hc] at h; cases h
  | ok u =>
    rw [hc] at h
    simp only at h
    cases hs : s.IsSamplingVariation with
    | true =>
      rw [hs] at h
      simp only [if_true, Except.ok.injEq] at h
      exact Or.inl ⟨rfl, h.symm⟩
    | false =>
      rw [hs] at h
      simp only [Bool.false_eq_true, if_false] at h
      cases hr : RunInstanceSamplers DO_CHECK s with
      | error e => rw [hr] at h; cases h
      | ok s0 =>
        rw [hr] at h
        simp only [Except.ok.injEq] at h
        exact Or.inr ⟨rfl, s0, rfl, h.symm⟩

/-- The call `SampleVariationSync` keeps the factor graph, the future and the
environment's staging variation of the sampler. -/
theorem sampleVariationSync_frame (DO_CHECK : Bool) (s : FConcordSampler)
    (r : F32 × FConcordSampler) (h : SampleVariationSync DO_CHECK s = .ok r) :
    r.2.Members.FactorGraph = s.Members.FactorGraph ∧
    r.2.Members.FutureScore = s.Members.FutureScore ∧
    r.2.Members.Environment.StagingVariation = s.Members.Environment.StagingVariation := by
  rcases sampleVariationSync_ok DO_CHECK s r h with ⟨_, hr⟩ | ⟨_, s0, hrun, hr⟩
  · subst hr
    exact ⟨rfl, rfl, rfl⟩
  · subst hr
    obtain ⟨f1, _, f3, f4⟩ := runInstanceSamplers_frame DO_CHECK s s0 hrun
    exact ⟨f1, f3, f4⟩

end FConcordSampler

namespace FConcordSampler

/-- The sampler that comes out of a nested `SampleVariationSync` inside the instance loop
has the factor graph of the instance. -/
theorem sampled_factorGraph (DO_CHECK : Bool) (p : FConcordSamplerMembers) (Key : String)
    (Value : FConcordSampler) (r : F32 × FConcordSampler)
    (h : SampleVariationSync DO_CHECK (Value.WithMembers (PrepareInstance p Key Value.Members))
      = .ok r) :
    r.2.Members.FactorGraph = Value.Members.FactorGraph := by
  have := (sampleVariationSync_frame DO_CHECK _ _ h).1
  rw [members_withMembers, (prepareInstance_frame p Key Value.Members).1] at this
  exact this

/-- An instance one of whose outputs has no Target block of its kind in the parent makes
the pass of the instance loop fail. -/
theorem processInstance_missing (DO_CHECK : Bool) (p : FConcordSamplerMembers) (Key : String)
    (Value : FConcordSampler) (x : String × FOutput)
    (hx : x ∈ Value.Members.FactorGraph.GetOutputs)
    (h : Find (p.FactorGraph.GetParameterBlocks x.2.GetType) (Key ++ "." ++ x.1 ++ ".Target")
      = none) :
    ∃ e, ProcessInstance DO_CHECK p Key Value = .error e := by
  cases hp : ProcessInstance DO_CHECK p Key Value with
  | error e => exact ⟨e, rfl⟩
  | ok r =>
    obtain ⟨p1, Value1⟩ := r
    obtain ⟨Score, Sampled, hsync, _, hpush⟩ :=
      processInstance_ok DO_CHECK p p1 Key Value Value1 hp
    rw [sampled_factorGraph DO_CHECK p Key Value _ hsync] at hpush
    obtain ⟨e, he⟩ := pushInstanceOutputs_missing DO_CHECK Key
      (ReturnVariation Sampled.Members) _ p x hx h
    rw [he] at hpush
    cases hpush

/-- The instance loop fails when some instance of the table has an output without its
Target block in the parent. -/
theorem runInstanceSamplersCore_missing (DO_CHECK : Bool) :
    ∀ (is : FInstanceSamplers) (p : FConcordSamplerMembers) (Key : String)
      (Value : FConcordSampler) (x : String × FOutput),
      (Key, Value) ∈ is.toList → x ∈ Value.Members.FactorGraph.GetOutputs →
      Find (p.FactorGraph.GetParameterBlocks x.2.GetType) (Key ++ "." ++ x.1 ++ ".Target")
        = none →
      ∃ e, RunInstanceSamplersCore DO_CHECK p is = .error e
  | .nil, _, _, _, _, hmem, _, _ => by cases hmem
  | .cons K V Rest, p, Key, Value, x, hmem, hx, h => by
    rw [runInstanceSamplersCore_cons]
    cases hp : ProcessInstance DO_CHECK p K V with
    | error e => exact ⟨e, rfl⟩
    | ok r =>
      obtain ⟨p0, V1⟩ := r
      simp only
      rw [FInstanceSamplers.toList] at hmem
      rcases List.mem_cons.1 hmem with hhead | htail
      · simp only [Prod.mk.injEq] at hhead
        obtain ⟨hk, hv⟩ := hhead
        subst hk
        subst hv
        obtain ⟨e, he⟩ := processInstance_missing DO_CHECK p Key Value x hx h
        rw [he] at hp
        cases hp
      · obtain ⟨_, Sampled, _, _, hpush⟩ := processInstance_ok DO_CHECK p p0 K V V1 hp
        have hg := (pushInstanceOutputs_frame DO_CHECK K _ _ p p0 hpush).1
        obtain ⟨e, he⟩ := runInstanceSamplersCore_missing DO_CHECK Rest p0 Key Value x htail hx
          (by rw [hg]; exact h)
        rw [he]
        exact ⟨e, rfl⟩

/-- The output loop returns when every output has its Target block of its kind in the
parent. -/
theorem pushInstanceOutputs_returns (DO_CHECK : Bool) (key : String)
    (i : FConcordSamplerMembers) (outs : List (String × FOutput)) (p : FConcordSamplerMembers)
    (h : ∀ x ∈ outs, (Find (p.FactorGraph.GetParameterBlocks x.2.GetType)
      (key ++ "." ++ x.1 ++ ".Target")).isSome = true) :
    ∃ p1, PushInstanceOutputs DO_CHECK key i p outs = .ok p1 := by
  induction outs generalizing p with
  | nil => exact ⟨p, rfl⟩
  | cons x rest ih =>
    rw [PushInstanceOutputs]
    cases hf : Find (p.FactorGraph.GetParameterBlocks x.2.GetType)
        (key ++ "." ++ x.1 ++ ".Target") with
    | none =>
      have := h x (List.mem_cons_self _ _)
      rw [hf] at this
      cases this
    | some b =>
      rw [pushInstanceOutput_found DO_CHECK key i p x b hf]
      exact ih _ (fun z hz => h z (List.mem_cons_of_mem _ hz))

/-- A pass of the instance loop returns when the nested sampling returns and every
output of the instance has its Target block of its kind in the parent. -/
theorem processInstance_returns (DO_CHECK : Bool) (p : FConcordSamplerMembers) (Key : String)
    (Value : FConcordSampler) (r : F32 × FConcordSampler)
    (hsync : SampleVariationSync DO_CHECK
      (Value.WithMembers (PrepareInstance p Key Value.Members)) = .ok r)
    (h : ∀ x ∈ Value.Members.FactorGraph.GetOutputs,
      (Find (p.FactorGraph.GetParameterBlocks x.2.GetType)
        (Key ++ "." ++ x.1 ++ ".Target")).isSome = true) :
    ∃ p1, ProcessInstance DO_CHECK p Key Value
      = .ok (p1, r.2.WithMembers (ReturnVariation r.2.Members)) := by
  have hg := sampled_factorGraph DO_CHECK p Key Value r hsync
  obtain ⟨p1, hp1⟩ := pushInstanceOutputs_returns DO_CHECK Key (ReturnVariation r.2.Members)
    (ReturnVariation r.2.Members).FactorGraph.GetOutputs p
    (by
      have : (ReturnVariation r.2.Members).FactorGraph = Value.Members.FactorGraph := hg
      rw [this]
      exact h)
  refine ⟨p1, ?_⟩
  obtain ⟨Score, Sampled⟩ := r
  simp only [ProcessInstance, hsync, hp1]

end FConcordSampler

/-! ## Lemmas: maps kept as lists of pairs -/

theorem keys_setValue {β : Type} (m : List (String × β)) (k : String) (v : β) :
    (SetValue m k v).map Prod.fst = m.map Prod.fst := by
  induction m with
  | nil => rfl
  | cons x rest ih =>
    obtain ⟨a, w⟩ := x
    by_cases h : FoldCase a = FoldCase k
    · simp [SetValue, h]
    · simp [SetValue, h, ih]

theorem foldedKeys_setValue {β : Type} (m : List (String × β)) (k : String) (v : β) :
    (SetValue m k v).map (fun x => FoldCase x.1) = m.map (fun x => FoldCase x.1) := by
  have h := congrArg (List.map FoldCase) (keys_setValue m k v)
  simpa [List.map_map] using h

theorem find_isSome_iff {β : Type} (m : List (String × β)) (n : String) :
    (Find m n).isSome = true ↔ FoldCase n ∈ m.map (fun x => FoldCase x.1) := by
  induction m with
  | nil => simp [Find]
  | cons x rest ih =>
    obtain ⟨a, w⟩ := x
    by_cases h : FoldCase a = FoldCase n
    · simp [Find, h]
    · have h1 : ¬ FoldCase n = FoldCase a := fun e => h e.symm
      simp [Find, h, h1, ih]

theorem find_eq_none_iff_keys {β : Type} (m : List (String × β)) (n : String) :
    Find m n = none ↔ FoldCase n ∉ m.map (fun x => FoldCase x.1) := by
  rw [← find_isSome_iff]
  cases Find m n <;> simp

theorem find_setValue {β : Type} (m : List (String × β)) (k n : String) (v : β) :
    Find (SetValue m k v) n =
      if FoldCase n = FoldCase k then (if (Find m k).isSome then some v else none)
      else Find m n := by
  induction m with
  | nil => simp [SetValue, Find]
  | cons x rest ih =>
    obtain ⟨a, w⟩ := x
    by_cases h : FoldCase a = FoldCase k
    · by_cases hn : FoldCase n = FoldCase k
      · have han : FoldCase a = FoldCase n := h.trans hn.symm
        simp [SetValue, Find, h, hn, han]
      · have hkn : ¬ FoldCase k = FoldCase n := fun e => hn e.symm
        simp [SetValue, Find, h, hn, hkn]
    · by_cases hn : FoldCase n = FoldCase k
      · have han : ¬ FoldCase a = FoldCase n := fun e => h (e.trans hn)
        simp [SetValue, Find, h, hn, han, ih]
      · by_cases han : FoldCase a = FoldCase n
        · simp [SetValue, Find, h, hn, han]
        · simp [SetValue, Find, h, hn, han, ih]

theorem find_append_single {β : Type} (m : List (String × β)) (k n : String) (d : β) :
    Find (m ++ [(k, d)]) n =
      match Find m n with
      | some v => some v
      | none => if FoldCase k = FoldCase n then some d else none := by
  induction m with
  | nil => simp [Find]
  | cons x rest ih =>
    obtain ⟨a, w⟩ := x
    by_cases h : FoldCase a = FoldCase n
    · simp [Find, h]
    · simp [Find, h, ih]

theorem find_findOrAdd {β : Type} (m : List (String × β)) (k n : String) (d : β) :
    Find (FindOrAdd m k d) n =
      if FoldCase n = FoldCase k then some ((Find m k).getD d) else Find m n := by
  unfold FindOrAdd
  cases hk : Find m k with
  | some v =>
    simp only [Option.isSome_some, if_true, Option.getD_some]
    by_cases hn : FoldCase n = FoldCase k
    · rw [if_pos hn, find_congr m n k hn, hk]
    · rw [if_neg hn]
  | none =>
    simp only [Option.isSome_none, Bool.false_eq_true, if_false, Option.getD_none]
    rw [find_append_single]
    by_cases hn : FoldCase n = FoldCase k
    · rw [if_pos hn, find_congr m n k hn, hk]
      simp only [hn, if_true]
    · have hn1 : ¬ FoldCase k = FoldCase n := fun e => hn e.symm
      simp only [hn, hn1, if_false]
      cases Find m n <;> rfl

/-- The spelling of a key after `FindOrAdd` is the added one or one that was there. -/
theorem mem_keys_findOrAdd {β : Type} (m : List (String × β)) (k n : String) (d : β)
    (h : n ∈ (FindOrAdd m k d).map Prod.fst) : n = k ∨ n ∈ m.map Prod.fst := by
  unfold FindOrAdd at h
  cases hk : Find m k with
  | some v =>
    rw [hk] at h
    exact Or.inr h
  | none =>
    rw [hk] at h
    simp only [Option.isSome_none, Bool.false_eq_true, if_false, List.map_append, List.map_cons,
      List.map_nil, List.mem_append, List.mem_singleton] at h
    exact h.symm

theorem nodup_keys_findOrAdd {β : Type} (m : List (String × β)) (k : String) (d : β)
    (h : (m.map (fun x => FoldCase x.1)).Nodup) :
    ((FindOrAdd m k d).map (fun x => FoldCase x.1)).Nodup := by
  unfold FindOrAdd
  cases hk : Find m k with
  | some v => simpa using h
  | none =>
    simp only [Option.isSome_none, Bool.false_eq_true, if_false, List.map_append, List.map_cons,
      List.map_nil]
    rw [List.nodup_append]
    refine ⟨h, List.nodup_singleton _, ?_⟩
    intro a ha hb
    rw [List.mem_singleton] at hb
    subst hb
    exact (find_eq_none_iff_keys m k).1 hk ha

theorem find_add {β : Type} (m : List (String × β)) (k n : String) (d : β) :
    Find (Add m k d) n = if FoldCase n = FoldCase k then some d else Find m n := by
  induction m with
  | nil =>
    by_cases hn : FoldCase n = FoldCase k
    · simp [Add, Find, hn]
    · have hn1 : ¬ FoldCase k = FoldCase n := fun e => hn e.symm
      simp [Add, Find, hn, hn1]
  | cons x rest ih =>
    obtain ⟨a, w⟩ := x
    by_cases h : FoldCase a = FoldCase k
    · by_cases hn : FoldCase n = FoldCase k
      · simp [Add, Find, h, hn]
      · have hn1 : ¬ FoldCase k = FoldCase n := fun e => hn e.symm
        have han : ¬ FoldCase a = FoldCase n := fun e => hn (e.symm.trans h)
        simp [Add, Find, h, hn, hn1, han]
    · by_cases hn : FoldCase n = FoldCase k
      · have han : ¬ FoldCase a = FoldCase n := fun e => h (e.trans hn)
        simp [Add, Find, h, hn, han, ih]
      · by_cases han : FoldCase a = FoldCase n
        · simp [Add, Find, h, hn, han]
        · simp [Add, Find, h, hn, han, ih]

/-- An `Add` of a key that is not found puts the pair at the end. -/
theorem add_eq_append {β : Type} (m : List (String × β)) (k : String) (d : β)
    (h : Find m k = none) : Add m k d = m ++ [(k, d)] := by
  induction m with
  | nil => rfl
  | cons x rest ih =>
    obtain ⟨a, w⟩ := x
    by_cases hak : FoldCase a = FoldCase k
    · simp [Find, hak] at h
    · simp only [Find, hak, if_false] at h
      simp [Add, hak, ih h]

theorem mem_foldedKeys_add {β : Type} (m : List (String × β)) (k : String) (d : β)
    (f : String) :
    f ∈ (Add m k d).map (fun x => FoldCase x.1) ↔
      f = FoldCase k ∨ f ∈ m.map (fun x => FoldCase x.1) := by
  induction m with
  | nil => simp [Add]
  | cons x rest ih =>
    obtain ⟨a, w⟩ := x
    by_cases h : FoldCase a = FoldCase k
    · simp only [Add, h, if_true, List.map_cons, List.mem_cons]
      tauto
    · simp only [Add, h, if_false, List.map_cons, List.mem_cons, ih]
      tauto

theorem nodup_keys_add {β : Type} (m : List (String × β)) (k : String) (d : β)
    (h : (m.map (fun x => FoldCase x.1)).Nodup) :
    ((Add m k d).map (fun x => FoldCase x.1)).Nodup := by
  induction m with
  | nil => simp [Add]
  | cons x rest ih =>
    obtain ⟨a, w⟩ := x
    rw [List.map_cons, List.nodup_cons] at h
    by_cases hak : FoldCase a = FoldCase k
    · simp only [Add, hak, if_true, List.map_cons, List.nodup_cons]
      simp only [hak] at h
      exact h
    · simp only [Add, hak, if_false, List.map_cons, List.nodup_cons]
      refine ⟨?_, ih h.2⟩
      rw [mem_foldedKeys_add]
      rintro (e | e)
      · exact hak e
      · exact h.1 e

theorem setValue_add {β : Type} (m : List (String × β)) (k : String) (d w : β) :
    SetValue (Add m k d) k w = Add m k w := by
  induction m with
  | nil => simp [Add, SetValue]
  | cons x rest ih =>
    obtain ⟨a, u⟩ := x
    by_cases h : FoldCase a = FoldCase k
    · simp [Add, SetValue, h]
    · simp [Add, SetValue, h, ih]

/-- In a map whose keys compare distinct `Find` returns the entry stored under a name. -/
theorem find_of_mem_nodup {β : Type} (m : List (String × β)) (n : String) (v : β)
    (hnodup : (m.map (fun x => FoldCase x.1)).Nodup) (h : (n, v) ∈ m) : Find m n = some v := by
  induction m with
  | nil => cases h
  | cons x rest ih =>
    obtain ⟨a, w⟩ := x
    rw [List.map_cons, List.nodup_cons] at hnodup
    rcases List.mem_cons.1 h with h1 | h1
    · rw [Prod.mk.injEq] at h1
      obtain ⟨e1, e2⟩ := h1
      subst e1
      subst e2
      simp [Find]
    · have hne : FoldCase a ≠ FoldCase n := by
        intro e
        have hmem : FoldCase n ∈ rest.map (fun x => FoldCase x.1) :=
          List.mem_map_of_mem (fun x => FoldCase x.1) h1
        rw [← e] at hmem
        exact hnodup.1 hmem
      simp only [Find, hne, if_false]
      exact ih hnodup.2 h1

theorem setNumUninitialized_length {α : Type} (Uninit : Nat → α) (l : List α) (n : Nat) :
    (SetNumUninitialized Uninit l n).length = n := by
  unfold SetNumUninitialized
  simp
  omega

namespace FConcordSampler

mutual
/-- On a well-wired tree `SampleVariationSync` returns, unless it is stopped by the
`checkf` of line 18. -/
theorem sampleVariationSyncCore_returns (DO_CHECK : Bool) :
    ∀ (s : FConcordSampler) (m : FConcordSamplerMembers),
      m.FactorGraph = s.Members.FactorGraph →
      (DO_CHECK = true → m.IsSamplingVariation = false) →
      s.WellWired DO_CHECK →
      ∃ r, SampleVariationSyncCore DO_CHECK m s = .ok r
  | .mk m0 is, m, hg, hfree, hw => by
    rw [SampleVariationSyncCore]
    have hcheck : checkf DO_CHECK (!m.IsSamplingVariation) = .ok () := by
      cases hd : DO_CHECK with
      | false => simp [checkf]
      | true => simp [checkf, hfree hd]
    rw [hcheck]
    simp only
    cases hs : m.IsSamplingVariation with
    | true => exact ⟨_, rfl⟩
    | false =>
      simp only [Bool.false_eq_true, if_false]
      rw [WellWired] at hw
      have hw1 : FInstanceSamplers.WellWiredIn DO_CHECK m.FactorGraph is := by
        rw [hg]; exact hw
      obtain ⟨r, hr⟩ := runInstanceSamplersCore_returns DO_CHECK is m hw1
      rw [hr]
      exact ⟨_, rfl⟩
/-- On a well-wired instance table the loop of `RunInstanceSamplers` returns. -/
theorem runInstanceSamplersCore_returns (DO_CHECK : Bool) :
    ∀ (is : FInstanceSamplers) (p : FConcordSamplerMembers),
      FInstanceSamplers.WellWiredIn DO_CHECK p.FactorGraph is →
      ∃ r, RunInstanceSamplersCore DO_CHECK p is = .ok r
  | .nil, p, _ => ⟨(p, .nil), by rw [RunInstanceSamplersCore]⟩
  | .cons Key Value Rest, p, hw => by
    rw [FInstanceSamplers.WellWiredIn] at hw
    obtain ⟨hfree, hwired, hvalue, hrest⟩ := hw
    obtain ⟨g1, g2, _, _⟩ := prepareInstance_frame p Key Value.Members
    obtain ⟨r, hr⟩ := sampleVariationSyncCore_returns DO_CHECK Value
      (PrepareInstance p Key Value.Members) g1
      (by
        intro hd
        have := hfree hd
        unfold IsSamplingVariation at this
        unfold FConcordSamplerMembers.IsSamplingVariation at this ⊢
        rw [g2]
        exact this)
      hvalue
    rw [syncCore_eq] at hr
    obtain ⟨p1, hp1⟩ := processInstance_returns DO_CHECK p Key Value r hr hwired
    rw [runInstanceSamplersCore_cons, hp1]
    simp only
    obtain ⟨_, Sampled, _, _, hpush⟩ := processInstance_ok DO_CHECK p p1 Key Value _ hp1
    have hgp := (pushInstanceOutputs_frame DO_CHECK Key _ _ p p1 hpush).1
    obtain ⟨r1, hr1⟩ := runInstanceSamplersCore_returns DO_CHECK Rest p1
      (by rw [hgp]; exact hrest)
    rw [hr1]
    exact ⟨_, rfl⟩
end

/-- On a well-wired tree `RunInstanceSamplers` returns. -/
theorem runInstanceSamplers_returns (DO_CHECK : Bool) (s : FConcordSampler)
    (hw : s.WellWired DO_CHECK) : ∃ s1, RunInstanceSamplers DO_CHECK s = .ok s1 := by
  cases s with
  | mk m is =>
    rw [WellWired] at hw
    obtain ⟨r, hr⟩ := runInstanceSamplersCore_returns DO_CHECK is m hw
    exact ⟨.mk r.1 r.2, by simp only [RunInstanceSamplers, Members, GetInstanceSamplers, hr]⟩

/-- On a well-wired tree `SampleVariationSync` returns, unless it is stopped by the
`checkf` of line 18. -/
theorem sampleVariationSync_returns (DO_CHECK : Bool) (s : FConcordSampler)
    (hfree : DO_CHECK = true → s.IsSamplingVariation = false) (hw : s.WellWired DO_CHECK) :
    ∃ r, SampleVariationSync DO_CHECK s = .ok r :=
  sampleVariationSyncCore_returns DO_CHECK s s.Members rfl hfree hw

/-- On a well-wired tree a pass of the instance loop returns for an instance that is
well wired, has its Target blocks in the parent and holds no future when checks are
compiled in. -/
theorem processInstance_returns_of_wellWired (DO_CHECK : Bool) (p : FConcordSamplerMembers)
    (Key : String) (Value : FConcordSampler)
    (hfree : DO_CHECK = true → Value.IsSamplingVariation = false)
    (hwired : ∀ x ∈ Value.Members.FactorGraph.GetOutputs,
      (Find (p.FactorGraph.GetParameterBlocks x.2.GetType)
        (Key ++ "." ++ x.1 ++ ".Target")).isSome = true)
    (hw : Value.WellWired DO_CHECK) :
    ∃ r, ProcessInstance DO_CHECK p Key Value = .ok r := by
  obtain ⟨g1, g2, _, _⟩ := prepareInstance_frame p Key Value.Members
  obtain ⟨r, hr⟩ := sampleVariationSyncCore_returns DO_CHECK Value
    (PrepareInstance p Key Value.Members) g1
    (by
      intro hd
      have := hfree hd
      unfold IsSamplingVariation at this
      unfold FConcordSamplerMembers.IsSamplingVariation at this ⊢
      rw [g2]
      exact this)
    hw
  rw [syncCore_eq] at hr
  obtain ⟨p1, hp1⟩ := processInstance_returns DO_CHECK p Key Value r hr hwired
  exact ⟨_, hp1⟩

end FConcordSampler

/-! ## Lemmas: block projection -/

theorem blocks_setBlocks (c : FConcordCrateData) (t : EConcordValueType)
    (bs : List (String × FConcordBlock t)) : (c.SetBlocks t bs).Blocks t = bs := by
  cases t <;> rfl

theorem blocks_setBlocks_ne (c : FConcordCrateData) (t u : EConcordValueType)
    (bs : List (String × FConcordBlock t)) (h : u ≠ t) :
    (c.SetBlocks t bs).Blocks u = c.Blocks u := by
  cases t <;> cases u <;> first | rfl | exact absurd rfl h

/-- The three statements of a `case` of `FillCrateWithOutputs` bind the output's name to
the output's array, whatever the fresh cells held. -/
theorem fillBlock_eq (t : EConcordValueType) (c : FConcordExpressionContext)
    (Uninit : Nat → FValue t) (Blocks : List (String × FConcordBlock t))
    (x : String × FOutput) :
    FillBlock t c Uninit Blocks x = Add Blocks x.1 ⟨x.2.Values t c⟩ := by
  unfold FillBlock
  simp only
  have h1 : Find (Add Blocks x.1 (⟨[]⟩ : FConcordBlock t)) x.1 = some ⟨[]⟩ := by
    rw [find_add]; simp
  rw [h1, Option.getD_some, setValue_add]
  have h2 : Find (Add Blocks x.1
      (⟨SetNumUninitialized Uninit [] x.2.Num⟩ : FConcordBlock t)) x.1
        = some ⟨SetNumUninitialized Uninit [] x.2.Num⟩ := by
    rw [find_add]; simp
  rw [h2, Option.getD_some, setValue_add]
  rw [eval_eq_values _ _ _ _ (setNumUninitialized_length _ _ _)]

theorem fillCrateFromNameOutputPair_eq (c : FConcordExpressionContext)
    (Uninit : (t : EConcordValueType) → Nat → FValue t) (Crate : FConcordCrateData)
    (x : String × FOutput) :
    FillCrateFromNameOutputPair c Uninit Crate x =
      if EndsWith x.1 ".Source" then Crate
      else Crate.SetBlocks x.2.GetType
        (Add (Crate.Blocks x.2.GetType) x.1 ⟨x.2.Values x.2.GetType c⟩) := by
  unfold FillCrateFromNameOutputPair
  rw [fillBlock_eq]

/-- The loop of `FillCrateWithOutputs` does not depend on the content of fresh cells. -/
theorem fillCrate_fold_uninit (c : FConcordExpressionContext)
    (Uninit Uninit1 : (t : EConcordValueType) → Nat → FValue t)
    (outs : List (String × FOutput)) (Crate : FConcordCrateData) :
    outs.foldl (FillCrateFromNameOutputPair c Uninit) Crate
      = outs.foldl (FillCrateFromNameOutputPair c Uninit1) Crate := by
  induction outs generalizing Crate with
  | nil => rfl
  | cons x rest ih =>
    simp only [List.foldl_cons]
    rw [fillCrateFromNameOutputPair_eq c Uninit, ← fillCrateFromNameOutputPair_eq c Uninit1]
    exact ih _

theorem find_add_isSome {β : Type} (m : List (String × β)) (k n : String) (d : β) :
    (Find (Add m k d) n).isSome = true ↔
      FoldCase n = FoldCase k ∨ (Find m n).isSome = true := by
  rw [find_add]
  by_cases hn : FoldCase n = FoldCase k
  · simp [hn]
  · simp [hn]

/-- The crate after the loop over `outs`, started on the reset crate: which names are
bound, once each, and, for output names that compare distinct, the block map of each
kind in full. -/
theorem fillCrate_fold_spec (c : FConcordExpressionContext)
    (Uninit : (t : EConcordValueType) → Nat → FValue t) (outs : List (String × FOutput)) :
    (∀ t n, (Find ((outs.foldl (FillCrateFromNameOutputPair c Uninit) ⟨[], []⟩).Blocks t) n).isSome
        = true ↔
      ∃ x ∈ outs, FoldCase x.1 = FoldCase n ∧ x.2.GetType = t ∧
        EndsWith x.1 ".Source" = false) ∧
    (∀ t, (((outs.foldl (FillCrateFromNameOutputPair c Uninit) ⟨[], []⟩).Blocks t).map
        (fun x => FoldCase x.1)).Nodup) ∧
    ((outs.map (fun x => FoldCase x.1)).Nodup → ∀ t,
      (outs.foldl (FillCrateFromNameOutputPair c Uninit) ⟨[], []⟩).Blocks t
        = (outs.filter (fun x => decide (x.2.GetType = t) && !EndsWith x.1 ".Source")).map
            (fun x => (x.1, (⟨x.2.Values t c⟩ : FConcordBlock t)))) := by
  induction outs using List.reverseRecOn with
  | nil =>
    refine ⟨?_, ?_, ?_⟩
    · intro t n
      cases t <;> simp [FConcordCrateData.Blocks, Find]
    · intro t
      cases t <;> simp [FConcordCrateData.Blocks]
    · intro _ t
      cases t <;> simp [FConcordCrateData.Blocks]
  | append_singleton l x ih =>
    obtain ⟨ihK, ihN, ihV⟩ := ih
    rw [List.foldl_append, List.foldl_cons, List.foldl_nil, fillCrateFromNameOutputPair_eq]
    generalize l.foldl (FillCrateFromNameOutputPair c Uninit) ⟨[], []⟩ = Crate at ihK ihN ihV ⊢
    obtain ⟨xn, xo⟩ := x
    by_cases hsrc : EndsWith xn ".Source" = true
    · simp only [hsrc, if_true]
      refine ⟨?_, ihN, ?_⟩
      · intro t n
        rw [ihK t n]
        constructor
        · rintro ⟨z, hz, hn, ht, hs⟩
          exact ⟨z, List.mem_append_left _ hz, hn, ht, hs⟩
        · rintro ⟨z, hz, hn, ht, hs⟩
          rcases List.mem_append.1 hz with h1 | h1
          · exact ⟨z, h1, hn, ht, hs⟩
          · rw [List.mem_singleton] at h1
            subst h1
            rw [hsrc] at hs
            cases hs
      · intro hnodup t
        rw [List.map_append, List.nodup_append] at hnodup
        rw [ihV hnodup.1 t, List.filter_append, List.map_append]
        have hx : List.filter
            (fun x : String × FOutput => decide (x.2.GetType = t) && !EndsWith x.1 ".Source")
            [(xn, xo)] = [] := by
          simp [List.filter, hsrc]
        rw [hx, List.map_nil, List.append_nil]
    · have hsrc1 : EndsWith xn ".Source" = false := by
        cases h : EndsWith xn ".Source"
        · rfl
        · exact absurd h hsrc
      simp only [hsrc1, Bool.false_eq_true, if_false]
      refine ⟨?_, ?_, ?_⟩
      · intro t n
        by_cases ht : t = xo.GetType
        · subst ht
          rw [blocks_setBlocks, find_add_isSome, ihK]
          constructor
          · rintro (h | ⟨z, hz, hn, hty, hs⟩)
            · exact ⟨(xn, xo), List.mem_append_right _ (List.mem_singleton_self _), h.symm, rfl,
                hsrc1⟩
            · exact ⟨z, List.mem_append_left _ hz, hn, hty, hs⟩
          · rintro ⟨z, hz, hn, hty, hs⟩
            rcases List.mem_append.1 hz with h1 | h1
            · exact Or.inr ⟨z, h1, hn, hty, hs⟩
            · rw [List.mem_singleton] at h1
              subst h1
              exact Or.inl hn.symm
        · rw [blocks_setBlocks_ne _ _ _ _ ht, ihK]
          constructor
          · rintro ⟨z, hz, hn, hty, hs⟩
            exact ⟨z, List.mem_append_left _ hz, hn, hty, hs⟩
          · rintro ⟨z, hz, hn, hty, hs⟩
            rcases List.mem_append.1 hz with h1 | h1
            · exact ⟨z, h1, hn, hty, hs⟩
            · rw [List.mem_singleton] at h1
              subst h1
              exact absurd hty.symm ht
      · intro t
        by_cases ht : t = xo.GetType
        · subst ht
          rw [blocks_setBlocks]
          exact nodup_keys_add _ _ _ (ihN _)
        · rw [blocks_setBlocks_ne _ _ _ _ ht]
          exact ihN t
      · intro hnodup t
        rw [List.map_append, List.nodup_append] at hnodup
        rw [List.filter_append, List.map_append]
        by_cases ht : t = xo.GetType
        · subst ht
          have hnone : Find (Crate.Blocks xo.GetType) xn = none := by
            cases hf : Find (Crate.Blocks xo.GetType) xn with
            | none => rfl
            | some b =>
              obtain ⟨z, hz, hn, _, _⟩ := (ihK xo.GetType xn).1 (by rw [hf]; rfl)
              exact absurd hn.symm (fun e => hnodup.2.2
                (List.mem_map_of_mem (fun x => FoldCase x.1) hz) (by simp [e]))
          rw [blocks_setBlocks, add_eq_append _ _ _ hnone, ihV hnodup.1]
          have hx : List.filter
              (fun x : String × FOutput =>
                decide (x.2.GetType = xo.GetType) && !EndsWith x.1 ".Source")
              [(xn, xo)] = [(xn, xo)] := by
            simp [List.filter, hsrc1]
          rw [hx]
          rfl
        · rw [blocks_setBlocks_ne _ _ _ _ ht, ihV hnodup.1]
          have hx : List.filter
              (fun x : String × FOutput => decide (x.2.GetType = t) && !EndsWith x.1 ".Source")
              [(xn, xo)] = [] := by
            have : ¬ xo.GetType = t := fun e => ht e.symm
            simp [List.filter, this]
          rw [hx, List.map_nil, List.append_nil]

/-! ## Lemmas: track projection -/

/-- The array `SetColumnFromOutput` leaves in the target is the output's array, whatever
the target, the previous array and the fresh cells held. -/
theorem setColumnFromOutput_fst (c : FConcordExpressionContext) (Uninit : Nat → Int)
    (o : FOutput) (TargetArray : List Int) (PreviousArray : Option (List Int)) :
    (SetColumnFromOutput c Uninit o TargetArray PreviousArray).1 = o.Values .Int c := by
  unfold SetColumnFromOutput
  exact eval_eq_values o .Int c _ (setNumUninitialized_length _ _ _)

theorem setColumnAtPath_fst (c : FConcordExpressionContext) (Uninit : Nat → Int)
    (o : FOutput) (ColumnPath : FConcordColumnPath)
    (st : List (String × FConcordTrack) × List (String × FConcordTrack)) :
    (SetColumnAtPath c Uninit o ColumnPath st).1 = TracksWith st.1 ColumnPath (o.Values .Int c) := by
  unfold SetColumnAtPath TracksWith ColumnsWith
  simp only [setColumnFromOutput_fst]

theorem setColumnFromNameOutputPair_fst (Parse : String → Option FConcordColumnPath)
    (c : FConcordExpressionContext) (Uninit : Nat → Int)
    (st : List (String × FConcordTrack) × List (String × FConcordTrack))
    (x : String × FOutput) :
    (SetColumnFromNameOutputPair Parse c Uninit st x).1 = TrackStep Parse c st.1 x := by
  unfold SetColumnFromNameOutputPair TrackStep ColumnPathOf
  by_cases h1 : x.2.GetType = .Float
  · simp [h1]
  · by_cases h2 : EndsWith x.1 ".Source" = true
    · simp [h1, h2]
    · simp only [h1, h2, if_false]
      cases Parse x.1 with
      | none => rfl
      | some path => exact setColumnAtPath_fst c Uninit x.2 path st

/-- The new track map after the loop depends on neither the previous tracks nor the
content of fresh cells. -/
theorem setColumns_fold_fst (Parse : String → Option FConcordColumnPath)
    (c : FConcordExpressionContext) (Uninit : Nat → Int) (outs : List (String × FOutput))
    (st : List (String × FConcordTrack) × List (String × FConcordTrack)) :
    (outs.foldl (SetColumnFromNameOutputPair Parse c Uninit) st).1
      = outs.foldl (TrackStep Parse c) st.1 := by
  induction outs generalizing st with
  | nil => rfl
  | cons x rest ih =>
    simp only [List.foldl_cons]
    rw [ih, setColumnFromNameOutputPair_fst]

theorem setColumnsFromOutputs_eq (m : FConcordSamplerMembers)
    (Parse : String → Option FConcordColumnPath) (Uninit : Nat → Int)
    (OutPatternData : FConcordPatternData) :
    m.SetColumnsFromOutputs Parse Uninit OutPatternData
      = ⟨m.FactorGraph.GetOutputs.foldl (TrackStep Parse m.GetExpressionContext) []⟩ := by
  unfold FConcordSamplerMembers.SetColumnsFromOutputs
  simp only [setColumns_fold_fst]

theorem columnPathOf_eq_some_iff (Parse : String → Option FConcordColumnPath)
    (x : String × FOutput) (path : FConcordColumnPath) :
    ColumnPathOf Parse x = some path ↔
      x.2.GetType ≠ .Float ∧ EndsWith x.1 ".Source" = false ∧ Parse x.1 = some path := by
  unfold ColumnPathOf
  by_cases h1 : x.2.GetType = .Float
  · simp [h1]
  · cases h2 : EndsWith x.1 ".Source" <;> simp [h1]

theorem getValues_setValues (col : FConcordColumn) (k : EConcordColumnValuesType)
    (v : List Int) : (col.SetValues k v).GetValues k = v := by
  cases k <;> rfl

theorem getValues_setValues_ne (col : FConcordColumn) (k k1 : EConcordColumnValuesType)
    (v : List Int) (h : k ≠ k1) : (col.SetValues k1 v).GetValues k = col.GetValues k := by
  cases k <;> cases k1 <;> first | rfl | exact absurd rfl h

theorem setNum_length {α : Type} (l : List α) (n : Nat) (d : α) : (SetNum l n d).length = n := by
  unfold SetNum
  simp
  omega

theorem columnsWith_length (cols : List FConcordColumn) (path : FConcordColumnPath)
    (v : List Int) :
    (ColumnsWith cols path v).length = max cols.length (path.ColumnIndex + 1) := by
  unfold ColumnsWith
  by_cases h : path.ColumnIndex ≥ cols.length
  · simp only [h, if_true, List.length_set, setNum_length]
    omega
  · simp only [h, if_false, List.length_set]
    omega

theorem setNum_getD_default (cols : List FConcordColumn) (n j : Nat) :
    (SetNum cols n FConcordColumn.Default).getD j FConcordColumn.Default
      = if j < n then cols.getD j FConcordColumn.Default else FConcordColumn.Default := by
  unfold SetNum
  rw [List.getD_eq_getElem?_getD, List.getD_eq_getElem?_getD]
  by_cases hj : j < n
  · simp only [hj, if_true]
    by_cases hl : j < cols.length
    · rw [List.getElem?_append_left (by simp; omega), List.getElem?_take]
      simp [hj]
    · rw [List.getElem?_append_right (by simp; omega)]
      rw [List.getElem?_eq_none (l := cols) (by omega)]
      simp only [List.length_take, Option.getD_none]
      rw [List.getElem?_replicate]
      split <;> rfl
  · simp only [hj, if_false]
    rw [List.getElem?_eq_none]
    · rfl
    · simp; omega

theorem columnsWith_at (cols : List FConcordColumn) (path : FConcordColumnPath) (v : List Int) :
    (ColumnsWith cols path v)[path.ColumnIndex]? =
      some ((cols.getD path.ColumnIndex FConcordColumn.Default).SetValues
        path.ColumnValuesType v) := by
  unfold ColumnsWith
  by_cases h : path.ColumnIndex ≥ cols.length
  · simp only [h, if_true]
    rw [List.getElem?_set_self (by rw [setNum_length]; omega), setNum_getD_default]
    simp
  · simp only [h, if_false]
    rw [List.getElem?_set_self (by omega)]

theorem columnsWith_other (cols : List FConcordColumn) (path : FConcordColumnPath)
    (v : List Int) (j : Nat) (hj : j ≠ path.ColumnIndex) (hlt : j < cols.length) :
    (ColumnsWith cols path v)[j]? = cols[j]? := by
  unfold ColumnsWith
  by_cases h : path.ColumnIndex ≥ cols.length
  · simp only [h, if_true]
    rw [List.getElem?_set_ne (fun e => hj e.symm)]
    unfold SetNum
    rw [List.getElem?_append_left (by simp; omega), List.getElem?_take]
    simp
    omega
  · simp only [h, if_false]
    rw [List.getElem?_set_ne (fun e => hj e.symm)]

theorem find_tracksWith (Tracks : List (String × FConcordTrack)) (path : FConcordColumnPath)
    (v : List Int) (n : String) :
    Find (TracksWith Tracks path v) n =
      if FoldCase n = FoldCase path.TrackName then
        some ⟨ColumnsWith ((Find Tracks path.TrackName).getD ⟨[]⟩).Columns path v⟩
      else Find Tracks n := by
  unfold TracksWith
  simp only
  rw [find_setValue, find_findOrAdd, find_findOrAdd]
  by_cases h : FoldCase n = FoldCase path.TrackName
  · simp [h]
  · simp [h]

theorem find_tracksWith_isSome (Tracks : List (String × FConcordTrack))
    (path : FConcordColumnPath) (v : List Int) (n : String) :
    (Find (TracksWith Tracks path v) n).isSome = true ↔
      FoldCase n = FoldCase path.TrackName ∨ (Find Tracks n).isSome = true := by
  rw [find_tracksWith]
  by_cases h : FoldCase n = FoldCase path.TrackName
  · simp [h]
  · simp [h]

theorem mem_keys_tracksWith (Tracks : List (String × FConcordTrack))
    (path : FConcordColumnPath) (v : List Int) (n : String)
    (h : n ∈ (TracksWith Tracks path v).map Prod.fst) :
    n = path.TrackName ∨ n ∈ Tracks.map Prod.fst := by
  unfold TracksWith at h
  simp only at h
  rw [keys_setValue] at h
  exact mem_keys_findOrAdd _ _ _ _ h

theorem nodup_keys_tracksWith (Tracks : List (String × FConcordTrack))
    (path : FConcordColumnPath) (v : List Int)
    (h : (Tracks.map (fun x => FoldCase x.1)).Nodup) :
    ((TracksWith Tracks path v).map (fun x => FoldCase x.1)).Nodup := by
  unfold TracksWith
  simp only
  rw [foldedKeys_setValue]
  exact nodup_keys_findOrAdd _ _ _ h

theorem trackStep_none (Parse : String → Option FConcordColumnPath)
    (c : FConcordExpressionContext) (Tracks : List (String × FConcordTrack))
    (x : String × FOutput) (h : ColumnPathOf Parse x = none) :
    TrackStep Parse c Tracks x = Tracks := by
  simp only [TrackStep, h]

theorem trackStep_some (Parse : String → Option FConcordColumnPath)
    (c : FConcordExpressionContext) (Tracks : List (String × FConcordTrack))
    (x : String × FOutput) (path : FConcordColumnPath) (h : ColumnPathOf Parse x = some path) :
    TrackStep Parse c Tracks x = TracksWith Tracks path (x.2.Values .Int c) := by
  simp only [TrackStep, h]

/-- The track map after the loop over `outs`, started on the empty map: which tracks
it has, under which spelling, once each, and how many columns each has. -/
theorem tracks_fold_spec (Parse : String → Option FConcordColumnPath)
    (c : FConcordExpressionContext) (outs : List (String × FOutput)) :
    (∀ n, (Find (outs.foldl (TrackStep Parse c) []) n).isSome = true ↔
      ∃ x ∈ outs, ∃ path, ColumnPathOf Parse x = some path ∧
        FoldCase path.TrackName = FoldCase n) ∧
    (∀ n, n ∈ (outs.foldl (TrackStep Parse c) []).map Prod.fst →
      ∃ x ∈ outs, ∃ path, ColumnPathOf Parse x = some path ∧ path.TrackName = n) ∧
    ((outs.foldl (TrackStep Parse c) []).map (fun x => FoldCase x.1)).Nodup ∧
    (∀ n tr, Find (outs.foldl (TrackStep Parse c) []) n = some tr →
      (∀ x ∈ outs, ∀ path, ColumnPathOf Parse x = some path →
        FoldCase path.TrackName = FoldCase n → path.ColumnIndex < tr.Columns.length) ∧
      (∃ x ∈ outs, ∃ path, ColumnPathOf Parse x = some path ∧
        FoldCase path.TrackName = FoldCase n ∧ path.ColumnIndex + 1 = tr.Columns.length)) := by
  induction outs using List.reverseRecOn with
  | nil =>
    refine ⟨?_, ?_, ?_, ?_⟩
    · intro n; simp [Find]
    · intro n h; simp at h
    · simp
    · intro n tr h; simp [Find] at h
  | append_singleton l x ih =>
    obtain ⟨ihK, ihS, ihN, ihC⟩ := ih
    rw [List.foldl_append, List.foldl_cons, List.foldl_nil]
    generalize l.foldl (TrackStep Parse c) [] = R at ihK ihS ihN ihC ⊢
    cases hx : ColumnPathOf Parse x with
    | none =>
      rw [trackStep_none Parse c R x hx]
      refine ⟨?_, ?_, ihN, ?_⟩
      · intro n
        rw [ihK n]
        constructor
        · rintro ⟨z, hz, path, hp, hn⟩
          exact ⟨z, List.mem_append_left _ hz, path, hp, hn⟩
        · rintro ⟨z, hz, path, hp, hn⟩
          rcases List.mem_append.1 hz with h1 | h1
          · exact ⟨z, h1, path, hp, hn⟩
          · rw [List.mem_singleton] at h1
            subst h1
            rw [hx] at hp
            cases hp
      · intro n hn
        obtain ⟨z, hz, path, hp, hpn⟩ := ihS n hn
        exact ⟨z, List.mem_append_left _ hz, path, hp, hpn⟩
      · intro n tr h
        obtain ⟨hall, z, hz, path, hp, hn, hlen⟩ := ihC n tr h
        refine ⟨?_, z, List.mem_append_left _ hz, path, hp, hn, hlen⟩
        intro w hw pw hpw hnw
        rcases List.mem_append.1 hw with h1 | h1
        · exact hall w h1 pw hpw hnw
        · rw [List.mem_singleton] at h1
          subst h1
          rw [hx] at hpw
          cases hpw
    | some px =>
      rw [trackStep_some Parse c R x px hx]
      refine ⟨?_, ?_, nodup_keys_tracksWith _ _ _ ihN, ?_⟩
      · intro n
        rw [find_tracksWith_isSome, ihK n]
        constructor
        · rintro (h | ⟨z, hz, path, hp, hn⟩)
          · exact ⟨x, List.mem_append_right _ (List.mem_singleton_self _), px, hx, h.symm⟩
          · exact ⟨z, List.mem_append_left _ hz, path, hp, hn⟩
        · rintro ⟨z, hz, path, hp, hn⟩
          rcases List.mem_append.1 hz with h1 | h1
          · exact Or.inr ⟨z, h1, path, hp, hn⟩
          · rw [List.mem_singleton] at h1
            subst h1
            rw [hx, Option.some.injEq] at hp
            subst hp
            exact Or.inl hn.symm
      · intro n hn
        rcases mem_keys_tracksWith _ _ _ _ hn with h | h
        · exact ⟨x, List.mem_append_right _ (List.mem_singleton_self _), px, hx, h.symm⟩
        · obtain ⟨z, hz, path, hp, hpn⟩ := ihS n h
          exact ⟨z, List.mem_append_left _ hz, path, hp, hpn⟩
      · intro n tr h
        rw [find_tracksWith] at h
        by_cases hn : FoldCase n = FoldCase px.TrackName
        · simp only [hn, if_true, Option.some.injEq] at h
          subst h
          simp only [columnsWith_length]
          cases hold : Find R px.TrackName with
          | none =>
            simp only [Option.getD_none, List.length_nil]
            refine ⟨?_, x, List.mem_append_right _ (List.mem_singleton_self _), px, hx, hn.symm,
              by omega⟩
            intro w hw pw hpw hnw
            rcases List.mem_append.1 hw with h1 | h1
            · have hsome := (ihK px.TrackName).2 ⟨w, h1, pw, hpw, hnw.trans hn⟩
              rw [hold] at hsome
              cases hsome
            · rw [List.mem_singleton] at h1
              subst h1
              rw [hx, Option.some.injEq] at hpw
              subst hpw
              omega
          | some tr0 =>
            obtain ⟨hall, z, hz, pz, hpz, hnz, hlen⟩ := ihC px.TrackName tr0 hold
            simp only [Option.getD_some]
            refine ⟨?_, ?_⟩
            · intro w hw pw hpw hnw
              rcases List.mem_append.1 hw with h1 | h1
              · have := hall w h1 pw hpw (hnw.trans hn)
                omega
              · rw [List.mem_singleton] at h1
                subst h1
                rw [hx, Option.some.injEq] at hpw
                subst hpw
                omega
            · by_cases hbig : tr0.Columns.length ≤ px.ColumnIndex + 1
              · exact ⟨x, List.mem_append_right _ (List.mem_singleton_self _), px, hx, hn.symm,
                  by omega⟩
              · exact ⟨z, List.mem_append_left _ hz, pz, hpz, hnz.trans hn.symm, by omega⟩
        · simp only [hn, if_false] at h
          obtain ⟨hall, z, hz, pz, hpz, hnz, hlen⟩ := ihC n tr h
          refine ⟨?_, z, List.mem_append_left _ hz, pz, hpz, hnz, hlen⟩
          intro w hw pw hpw hnw
          rcases List.mem_append.1 hw with h1 | h1
          · exact hall w h1 pw hpw hnw
          · rw [List.mem_singleton] at h1
            subst h1
            rw [hx, Option.some.injEq] at hpw
            subst hpw
            exact absurd hnw.symm hn

theorem columnHolds_tracksWith_self (Tracks : List (String × FConcordTrack))
    (path : FConcordColumnPath) (v : List Int) : ColumnHolds (TracksWith Tracks path v) path v := by
  refine ⟨⟨ColumnsWith ((Find Tracks path.TrackName).getD ⟨[]⟩).Columns path v⟩,
    (((Find Tracks path.TrackName).getD ⟨[]⟩).Columns.getD path.ColumnIndex
      FConcordColumn.Default).SetValues path.ColumnValuesType v, ?_, ?_, ?_⟩
  · rw [find_tracksWith, if_pos rfl]
  · exact columnsWith_at _ path v
  · exact getValues_setValues _ _ _

theorem columnHolds_tracksWith_other (Tracks : List (String × FConcordTrack))
    (path path1 : FConcordColumnPath) (v v1 : List Int) (hne : ¬ path1.SameArray path)
    (h : ColumnHolds Tracks path v) : ColumnHolds (TracksWith Tracks path1 v1) path v := by
  obtain ⟨tr, col, hfind, hcol, hval⟩ := h
  by_cases hn : FoldCase path.TrackName = FoldCase path1.TrackName
  · have hfind1 : Find Tracks path1.TrackName = some tr := by
      rw [← find_congr Tracks _ _ hn]
      exact hfind
    have hlt : path.ColumnIndex < tr.Columns.length := by
      by_contra hc
      rw [List.getElem?_eq_none (by omega)] at hcol
      cases hcol
    by_cases hi : path.ColumnIndex = path1.ColumnIndex
    · have hk : path.ColumnValuesType ≠ path1.ColumnValuesType :=
        fun hk => hne ⟨hn.symm, hi.symm, hk.symm⟩
      refine ⟨⟨ColumnsWith tr.Columns path1 v1⟩,
        (tr.Columns.getD path1.ColumnIndex FConcordColumn.Default).SetValues
          path1.ColumnValuesType v1, ?_, ?_, ?_⟩
      · rw [find_tracksWith, if_pos hn, hfind1]
        rfl
      · simp only
        rw [hi]
        exact columnsWith_at _ _ _
      · rw [getValues_setValues_ne _ _ _ _ hk, ← hi, List.getD_eq_getElem _ _ hlt]
        rw [List.getElem?_eq_getElem hlt, Option.some.injEq] at hcol
        rw [hcol]
        exact hval
    · refine ⟨⟨ColumnsWith tr.Columns path1 v1⟩, col, ?_, ?_, hval⟩
      · rw [find_tracksWith, if_pos hn, hfind1]
        rfl
      · simp only
        rw [columnsWith_other _ _ _ _ hi hlt]
        exact hcol
  · refine ⟨tr, col, ?_, hcol, hval⟩
    rw [find_tracksWith, if_neg hn]
    exact hfind

/-- An array deposited at a path stays there while no later output addresses the same
array. -/
theorem columnHolds_fold (Parse : String → Option FConcordColumnPath)
    (c : FConcordExpressionContext) (outs : List (String × FOutput))
    (Tracks : List (String × FConcordTrack)) (path : FConcordColumnPath) (v : List Int)
    (h : ColumnHolds Tracks path v)
    (hlater : ∀ z ∈ outs, ∀ pz, ColumnPathOf Parse z = some pz → ¬ pz.SameArray path) :
    ColumnHolds (outs.foldl (TrackStep Parse c) Tracks) path v := by
  induction outs generalizing Tracks with
  | nil => exact h
  | cons z rest ih =>
    simp only [List.foldl_cons]
    apply ih _ _ (fun w hw => hlater w (List.mem_cons_of_mem _ hw))
    cases hz : ColumnPathOf Parse z with
    | none => rw [trackStep_none Parse c Tracks z hz]; exact h
    | some pz =>
      rw [trackStep_some Parse c Tracks z pz hz]
      exact columnHolds_tracksWith_other _ _ _ _ _
        (hlater z (List.mem_cons_self _ _) pz hz) h

/-! ## Sampling operations -/

namespace FConcordSampler

/-- While a future is held, `SampleVariationAsync` stops at the `checkf` of line 26 when
checks are compiled in, and returns at the guard of line 27 otherwise. -/
theorem sampleVariationAsync_guard (DO_CHECK : Bool) (s : FConcordSampler)
    (h : s.IsSamplingVariation = true) :
    SampleVariationAsync DO_CHECK s = if DO_CHECK then .error .CheckFailed else .ok s := by
  cases DO_CHECK <;> simp [SampleVariationAsync, checkf, h]

/-- While a future is held, `SampleVariationSync` stops at the `checkf` of line 18 when
checks are compiled in, and returns the default score at the guard of line 19 otherwise. -/
theorem sampleVariationSync_guard (DO_CHECK : Bool) (s : FConcordSampler)
    (h : s.IsSamplingVariation = true) :
    SampleVariationSync DO_CHECK s
      = if DO_CHECK then .error .CheckFailed else .ok (F32.zero, s) := by
  rw [sampleVariationSync_eq]
  cases DO_CHECK <;> simp [checkf, h]

/-- Without a held future, `SampleVariationAsync` launches one worker and holds its future. -/
theorem sampleVariationAsync_idle (DO_CHECK : Bool) (s : FConcordSampler)
    (h : s.IsSamplingVariation = false) :
    SampleVariationAsync DO_CHECK s =
      .ok (s.WithMembers { s.Members with FutureScore := some .Pending
                                          AsyncLaunches := s.Members.AsyncLaunches + 1 }) := by
  simp [SampleVariationAsync, checkf, h]

/-- C1 (single-flight). While `IsSamplingVariation()` is true, that is from
`SampleVariationAsync` until the result is retrieved, whether the worker is still
running or has delivered, the guards of lines 19 and 27 make both entry points no-ops.
With `checkf` compiled out both calls return: `SampleVariationAsync` returns the sampler
as it was, so no worker is launched (`AsyncLaunches` is the same) and the held future
is the same; `SampleVariationSync` returns the default score `0.0` and the sampler as it
was, so neither instance recursion nor a sweep has run and variation and environment
are unchanged. In every build, a call that returns has done exactly that. -/
theorem single_flight (s : FConcordSampler) (h : s.IsSamplingVariation = true) :
    SampleVariationAsync false s = .ok s ∧
    SampleVariationSync false s = .ok (F32.zero, s) ∧
    (∀ DO_CHECK s1, SampleVariationAsync DO_CHECK s = .ok s1 → s1 = s) ∧
    (∀ DO_CHECK r, SampleVariationSync DO_CHECK s = .ok r → r = (F32.zero, s)) := by
  refine ⟨?_, ?_, ?_, ?_⟩
  · rw [sampleVariationAsync_guard false s h]
    rfl
  · rw [sampleVariationSync_guard false s h]
    rfl
  · intro DO_CHECK s1 h1
    rw [sampleVariationAsync_guard DO_CHECK s h] at h1
    cases DO_CHECK with
    | true => cases h1
    | false => exact (Except.ok.inj h1).symm
  · intro DO_CHECK r h1
    rw [sampleVariationSync_guard DO_CHECK s h] at h1
    cases DO_CHECK with
    | true => cases h1
    | false => exact (Except.ok.inj h1).symm

/-- The guards at work on the example samplers: a parent whose worker is pending and a
sampler whose worker has delivered. -/
theorem single_flight_witness :
    Example.PendingParent.IsSamplingVariation = true ∧
    Example.ReadyChild.IsSamplingVariation = true ∧
    (SampleVariationAsync false Example.PendingParent = .ok Example.PendingParent ∧
      SampleVariationSync false Example.PendingParent = .ok (F32.zero, Example.PendingParent)) ∧
    (SampleVariationAsync false Example.ReadyChild = .ok Example.ReadyChild ∧
      SampleVariationSync false Example.ReadyChild = .ok (F32.zero, Example.ReadyChild)) :=
  ⟨rfl, rfl,
    ⟨(single_flight Example.PendingParent rfl).1, (single_flight Example.PendingParent rfl).2.1⟩,
    ⟨(single_flight Example.ReadyChild rfl).1, (single_flight Example.ReadyChild rfl).2.1⟩⟩

/-- C2 (polling). `GetScoreIfDoneSampling` returns nothing and the sampler as it was when
no future is held or the held one is pending. On a delivered future it returns the
delivered score and resets the future, so that `IsSamplingVariation()` is false and a
second poll returns nothing. The worker of a pending future runs through on a
well-wired sampler, and the score polled after it has run is the score of its
`SampleVariation` after its `RunInstanceSamplers`. A delivered score
stays in the sampler until it is polled: a call of `SampleVariationAsync` or
`SampleVariationSync` that returns leaves the sampler as it was. -/
theorem polling (s : FConcordSampler) :
    (s.Members.FutureScore = none ∨ s.Members.FutureScore = some .Pending →
      s.GetScoreIfDoneSampling = (none, s)) ∧
    (∀ Score, s.Members.FutureScore = some (.Ready Score) →
      s.GetScoreIfDoneSampling.1 = some Score ∧
      s.GetScoreIfDoneSampling.2 = s.WithMembers { s.Members with FutureScore := none } ∧
      s.GetScoreIfDoneSampling.2.IsSamplingVariation = false ∧
      s.GetScoreIfDoneSampling.2.GetScoreIfDoneSampling = (none, s.GetScoreIfDoneSampling.2)) ∧
    (∀ DO_CHECK, s.Members.FutureScore = some .Pending →
      (s.WellWired DO_CHECK → ∃ s1, RunSampleCallable DO_CHECK s = .ok s1) ∧
      ∀ s1, RunSampleCallable DO_CHECK s = .ok s1 →
        ∃ s2, RunInstanceSamplers DO_CHECK s = .ok s2 ∧
          s1.GetScoreIfDoneSampling.1 = some s2.SampleVariation.1) ∧
    (∀ Score, s.Members.FutureScore = some (.Ready Score) →
      (∀ DO_CHECK s1, SampleVariationAsync DO_CHECK s = .ok s1 →
        s1 = s ∧ s1.GetScoreIfDoneSampling.1 = some Score) ∧
      (∀ DO_CHECK r, SampleVariationSync DO_CHECK s = .ok r →
        r.2 = s ∧ r.2.GetScoreIfDoneSampling.1 = some Score)) := by
  refine ⟨?_, ?_, ?_, ?_⟩
  · rintro (h | h) <;> simp [GetScoreIfDoneSampling, h]
  · intro Score h
    simp [GetScoreIfDoneSampling, h, IsSamplingVariation,
      FConcordSamplerMembers.IsSamplingVariation, members_withMembers]
  · intro DO_CHECK h
    refine ⟨?_, ?_⟩
    · intro hw
      obtain ⟨s2, hr⟩ := runInstanceSamplers_returns DO_CHECK s hw
      refine ⟨s2.SampleVariation.2.WithMembers
        { s2.SampleVariation.2.Members with
          FutureScore := some (.Ready s2.SampleVariation.1) }, ?_⟩
      simp only [RunSampleCallable, h, hr]
    · intro s1 hrun
      simp only [RunSampleCallable, h] at hrun
      cases hr : RunInstanceSamplers DO_CHECK s with
      | error e => rw [hr] at hrun; cases hrun
      | ok s2 =>
        rw [hr] at hrun
        simp only [Except.ok.injEq] at hrun
        subst hrun
        exact ⟨s2, rfl, by simp [GetScoreIfDoneSampling, members_withMembers]⟩
  · intro Score h
    have hs : s.IsSamplingVariation = true := by
      simp [IsSamplingVariation, FConcordSamplerMembers.IsSamplingVariation, h]
    have hpoll : s.GetScoreIfDoneSampling.1 = some Score := by
      simp [GetScoreIfDoneSampling, h]
    refine ⟨?_, ?_⟩
    · intro DO_CHECK s1 h1
      rw [sampleVariationAsync_guard DO_CHECK s hs] at h1
      cases DO_CHECK with
      | true => cases h1
      | false =>
        have e : s = s1 := Except.ok.inj h1
        subst e
        exact ⟨rfl, hpoll⟩
    · intro DO_CHECK r h1
      rw [sampleVariationSync_guard DO_CHECK s hs] at h1
      cases DO_CHECK with
      | true => cases h1
      | false =>
        have e : (F32.zero, s) = r := Except.ok.inj h1
        subst e
        exact ⟨rfl, hpoll⟩

/-- Polling the example samplers: without a future, with a pending one, with a delivered
one, and after the worker of the pending parent has run. -/
theorem polling_witness :
    (Example.Child.GetScoreIfDoneSampling = (none, Example.Child) ∧
      Example.PendingParent.GetScoreIfDoneSampling = (none, Example.PendingParent)) ∧
    (Example.ReadyChild.GetScoreIfDoneSampling.1 = some ⟨3⟩ ∧
      Example.ReadyChild.GetScoreIfDoneSampling.2 = Example.Child.WithMembers
        { Example.ChildMembers with FutureScore := none, AsyncLaunches := 1 } ∧
      Example.ReadyChild.GetScoreIfDoneSampling.2.IsSamplingVariation = false ∧
      Example.ReadyChild.GetScoreIfDoneSampling.2.GetScoreIfDoneSampling
        = (none, Example.ReadyChild.GetScoreIfDoneSampling.2)) ∧
    (∃ s1, RunSampleCallable true Example.PendingParent = .ok s1) ∧
    (∃ s2, RunInstanceSamplers true Example.PendingParent = .ok s2 ∧
      Example.WorkedParent.GetScoreIfDoneSampling.1 = some s2.SampleVariation.1) ∧
    Example.WorkedParent.GetScoreIfDoneSampling.1 = some ⟨3⟩ ∧
    SampleVariationSync false Example.ReadyChild = .ok (F32.zero, Example.ReadyChild) ∧
    Example.ReadyChild.GetScoreIfDoneSampling.1 = some ⟨3⟩ :=
  ⟨⟨(polling Example.Child).1 (Or.inl rfl), (polling Example.PendingParent).1 (Or.inr rfl)⟩,
    (polling Example.ReadyChild).2.1 ⟨3⟩ rfl,
    ((polling Example.PendingParent).2.2.1 true rfl).1
      (by
        simp only [Example.PendingParent, Example.Parent, WithMembers, GetInstanceSamplers,
          WellWired, FInstanceSamplers.WellWiredIn, Example.Child, and_true]
        refine ⟨fun _ => rfl, ?_⟩
        intro x hx
        rw [show x = ("y", Example.Output .Int 2) from List.mem_singleton.1 hx]
        rfl),
    ((polling Example.PendingParent).2.2.1 true rfl).2 Example.WorkedParent rfl,
    rfl,
    rfl,
    (((polling Example.ReadyChild).2.2.2 ⟨3⟩ rfl).2 false (F32.zero, Example.ReadyChild) rfl).2⟩

end FConcordSampler

/-! ## Forward wiring -/

namespace FConcordSampler

/-- C4 (forward wiring). Let `pname` be a parameter block of kind `t` declared by the
factor graph of the instance, and let the factor graph of the parent have an output
named `<instance>.<pname>.Source`, found as `TMap::Find` finds it: names are compared
without regard to case. Then in the state in which `RunInstanceSamplers`
starts `SampleVariationSync` of the instance (the members `PrepareInstance` returns),
the block holds that output evaluated in the expression context of the parent: the
copy-in from the staging area runs before the fill and does not overwrite it. The block
is taken to have the size of the output and to lie inside the staged storage, and the
blocks of the table it belongs to are taken to lie pairwise apart. -/
theorem forward_wiring (t : EConcordValueType) (p : FConcordSamplerMembers)
    (InstanceKey : String) (InstanceSampler : FConcordSamplerMembers)
    (pname : String) (Block : FConcordFactorGraphBlock) (Output : FOutput)
    (hdecl : (pname, Block) ∈ InstanceSampler.FactorGraph.GetParameterBlocks t)
    (hsrc : Find p.FactorGraph.GetOutputs (InstanceKey ++ "." ++ pname ++ ".Source")
      = some Output)
    (hsize : Block.Size = Output.Num)
    (hin : Block.Offset + Block.Size
      ≤ (InstanceSampler.Environment.StagingParameters t).length)
    (hapart : BlocksApart (InstanceSampler.FactorGraph.GetParameterBlocks t)) :
    (PrepareInstance p InstanceKey InstanceSampler).Environment.GetParametersView t Block
      = Output.Values t p.GetExpressionContext := by
  unfold PrepareInstance
  simp only
  generalize hi2 : ({ InstanceSampler with
      Environment := InstanceSampler.Environment.SetMaskAndParametersFromStagingArea
      } : FConcordSamplerMembers).GetVariationFromEnvironment = i2
  have hg2 : i2.FactorGraph = InstanceSampler.FactorGraph := by subst hi2; rfl
  have hp2 : i2.Environment.Parameters t = InstanceSampler.Environment.StagingParameters t := by
    subst hi2; cases t <;> rfl
  cases t with
  | Int =>
    obtain ⟨_, _, _, _, hother, _⟩ := fillAll_frame .Float p InstanceKey
      (FillAllInstanceInputs .Int p InstanceKey i2)
    rw [view_congr _ _ .Int Block (hother .Int (by decide))]
    unfold FillAllInstanceInputs
    rw [hg2]
    exact fillFold_view .Int p InstanceKey _ i2 pname Block Output hdecl hsrc hsize
      (by rw [hp2]; exact hin) hapart
  | Float =>
    obtain ⟨hg3, _, _, _, hother, _⟩ := fillAll_frame .Int p InstanceKey i2
    generalize FillAllInstanceInputs .Int p InstanceKey i2 = i3 at hg3 hother ⊢
    unfold FillAllInstanceInputs
    rw [hg3, hg2]
    exact fillFold_view .Float p InstanceKey _ i3 pname Block Output hdecl hsrc hsize
      (by rw [hother .Float (by decide), hp2]; exact hin) hapart

/-- Forward wiring on the example: the parent output `A.x.Source` evaluates to `[10, 10]`,
which the instance holds in block `x` (cells 1 and 2) when its sampling starts; the
same holds for a parent whose output is spelled `a.X.source`. -/
theorem forward_wiring_witness :
    ((PrepareInstance Example.ParentMembers "A" Example.ChildMembers).Environment.GetParametersView
        .Int ⟨1, 2⟩
      = (Example.Output .Int 2).Values .Int Example.ParentMembers.GetExpressionContext ∧
    (PrepareInstance Example.RespelledParentMembers "A"
        Example.ChildMembers).Environment.GetParametersView .Int ⟨1, 2⟩
      = (Example.Output .Int 2).Values .Int
          Example.RespelledParentMembers.GetExpressionContext) ∧
    (PrepareInstance Example.ParentMembers "A" Example.ChildMembers).Environment.IntParameters
      = [10, 10, 10, 40] ∧
    (PrepareInstance Example.RespelledParentMembers "A"
        Example.ChildMembers).Environment.IntParameters
      = [10, 10, 10, 40] :=
  ⟨⟨forward_wiring .Int Example.ParentMembers "A" Example.ChildMembers "x" ⟨1, 2⟩
      (Example.Output .Int 2) (by decide) rfl rfl (by decide) (by decide),
    forward_wiring .Int Example.RespelledParentMembers "A" Example.ChildMembers "x" ⟨1, 2⟩
      (Example.Output .Int 2) (by decide) rfl rfl (by decide) (by decide)⟩,
    by decide, by decide⟩

/-- C6 (missing Source). When the parent's factor graph has no output named
`<instance>.<parameter>.Source`, under any spelling that compares equal to it (names
are compared without regard to case), `FillInstanceInputs` returns the instance sampler
as it was: nothing is evaluated into its environment and every block keeps its
content. -/
theorem fill_missing_source (t : EConcordValueType) (p : FConcordSamplerMembers)
    (InstanceKey : String) (InstanceSampler : FConcordSamplerMembers)
    (Parameter : String × FConcordFactorGraphBlock)
    (h : ∀ k o, (k, o) ∈ p.FactorGraph.GetOutputs →
      FoldCase k ≠ FoldCase (InstanceKey ++ "." ++ Parameter.1 ++ ".Source")) :
    FillInstanceInputs t p InstanceKey InstanceSampler Parameter = InstanceSampler :=
  fillInstanceInputs_none t p InstanceKey InstanceSampler Parameter
    ((find_eq_none_iff _ _).2 h)

/-- The fill without a Source output on the example: no output `A.z.Source`, and a parent
without outputs. An output spelled `a.X.source` is a Source output of `A.x`: the
block is filled. -/
theorem fill_missing_source_witness :
    FillInstanceInputs .Int Example.ParentMembers "A" Example.ChildMembers ("z", ⟨0, 2⟩)
        = Example.ChildMembers ∧
    FillInstanceInputs .Float Example.UnwiredParentMembers "A" Example.ChildMembers ("x", ⟨1, 2⟩)
        = Example.ChildMembers ∧
    FillInstanceInputs .Int Example.RespelledParentMembers "A" Example.ChildMembers ("z", ⟨0, 2⟩)
        = Example.ChildMembers ∧
    Example.ChildMembers.Environment.IntParameters = [10, 20, 30, 40] ∧
    (FillInstanceInputs .Int Example.RespelledParentMembers "A" Example.ChildMembers
        ("x", ⟨1, 2⟩)).Environment.IntParameters = [10, 10, 10, 40] :=
  ⟨fill_missing_source .Int Example.ParentMembers "A" Example.ChildMembers ("z", ⟨0, 2⟩)
      ((find_eq_none_iff _ _).1 rfl),
    fill_missing_source .Float Example.UnwiredParentMembers "A" Example.ChildMembers
      ("x", ⟨1, 2⟩) (fun _ _ h => by cases h),
    fill_missing_source .Int Example.RespelledParentMembers "A" Example.ChildMembers
      ("z", ⟨0, 2⟩) ((find_eq_none_iff _ _).1 rfl),
    by decide, by decide⟩

end FConcordSampler

/-! ## Reverse wiring -/

namespace FConcordSampler

/-- C3 (reverse wiring). Let `y` be an output of the factor graph of the instance `Key`
and let the graph of the parent declare the block `<Key>.<y>.Target` among the blocks
of the kind of `y`, found as `TMap::operator[]` finds it: names are compared without
regard to case. The pass of `RunInstanceSamplers` for the instance returns when the
instance is well wired, and whenever it returns, the environment of the parent holds in
that block the array of `y` in the expression context of the instance itself, and that
context is the one the instance has after its `SampleVariationSync` and the write-back:
its variation is the sampled one, which is also its staging variation. The block is
taken to have the size of the output and to lie inside the storage of the parent, the
blocks of that kind of the parent to lie pairwise apart and the output names to
compare distinct (a `TMap`). -/
theorem reverse_wiring (DO_CHECK : Bool) (p : FConcordSamplerMembers) (Key : String)
    (Value : FConcordSampler) (y : String) (Output : FOutput)
    (Block : FConcordFactorGraphBlock)
    (hout : (y, Output) ∈ Value.Members.FactorGraph.GetOutputs)
    (hnodup : (Value.Members.FactorGraph.GetOutputs.map (fun x => FoldCase x.1)).Nodup)
    (hdecl : Find (p.FactorGraph.GetParameterBlocks Output.GetType)
      (Key ++ "." ++ y ++ ".Target") = some Block)
    (hsize : Block.Size = Output.Num)
    (hin : Block.Offset + Block.Size ≤ (p.Environment.Parameters Output.GetType).length)
    (hapart : BlocksApart (p.FactorGraph.GetParameterBlocks Output.GetType)) :
    ((DO_CHECK = true → Value.IsSamplingVariation = false) →
      (∀ x ∈ Value.Members.FactorGraph.GetOutputs,
        (Find (p.FactorGraph.GetParameterBlocks x.2.GetType)
          (Key ++ "." ++ x.1 ++ ".Target")).isSome = true) →
      Value.WellWired DO_CHECK →
      ∃ r, ProcessInstance DO_CHECK p Key Value = .ok r) ∧
    (∀ p1 Value1, ProcessInstance DO_CHECK p Key Value = .ok (p1, Value1) →
      p1.Environment.GetParametersView Output.GetType Block
        = Output.Values Output.GetType Value1.Members.GetExpressionContext ∧
      ∃ Score Sampled,
        SampleVariationSync DO_CHECK (Value.WithMembers (PrepareInstance p Key Value.Members))
          = .ok (Score, Sampled) ∧
        Value1.Members.GetExpressionContext = Sampled.Members.GetExpressionContext ∧
        Value1.Members.Variation = Sampled.Members.Variation ∧
        Value1.Members.Environment.StagingVariation = Sampled.Members.Variation) := by
  refine ⟨processInstance_returns_of_wellWired DO_CHECK p Key Value, ?_⟩
  intro p1 Value1 hrun
  obtain ⟨Score, Sampled, hsync, hv1, hpush⟩ :=
    processInstance_ok DO_CHECK p p1 Key Value Value1 hrun
  have hgraph : Sampled.Members.FactorGraph = Value.Members.FactorGraph :=
    sampled_factorGraph DO_CHECK p Key Value _ hsync
  subst hv1
  rw [members_withMembers]
  refine ⟨?_, Score, Sampled, hsync, rfl, rfl, rfl⟩
  rw [hgraph] at hpush
  exact pushInstanceOutputs_view DO_CHECK Key (ReturnVariation Sampled.Members) _ p p1 y
    Output Block hout hnodup hdecl hsize hin hapart hpush

/-- Reverse wiring on the example: the pass for `A` returns; the instance sweeps its
variation to `[1, 1]`, its output `y` then evaluates to `[11, 11]` (before the sweep it
would be `[10, 10]`), which the parent holds in block `A.y.Target` (cells 2 and 3). The
same holds for a parent that declares the block under the spelling `a.Y.target`. -/
theorem reverse_wiring_witness :
    ProcessInstance true Example.ParentMembers "A" Example.Child = .ok Example.Processed ∧
    (∃ r, ProcessInstance true Example.ParentMembers "A" Example.Child = .ok r) ∧
    (Example.Processed.1.Environment.GetParametersView .Int ⟨2, 2⟩
        = (Example.Output .Int 2).Values .Int Example.Processed.2.Members.GetExpressionContext ∧
      ∃ Score Sampled,
        SampleVariationSync true
            (Example.Child.WithMembers
              (PrepareInstance Example.ParentMembers "A" Example.Child.Members))
          = .ok (Score, Sampled) ∧
        Example.Processed.2.Members.GetExpressionContext = Sampled.Members.GetExpressionContext ∧
        Example.Processed.2.Members.Variation = Sampled.Members.Variation ∧
        Example.Processed.2.Members.Environment.StagingVariation = Sampled.Members.Variation) ∧
    Example.Processed.1.Environment.IntParameters = [10, 20, 11, 11] ∧
    Example.Processed.2.Members.Variation = [1, 1] ∧
    ProcessInstance true Example.RespelledParentMembers "A" Example.Child
      = .ok Example.RespelledProcessed ∧
    (∃ r, ProcessInstance true Example.RespelledParentMembers "A" Example.Child = .ok r) ∧
    Example.RespelledProcessed.1.Environment.GetParametersView .Int ⟨2, 2⟩
      = (Example.Output .Int 2).Values .Int
          Example.RespelledProcessed.2.Members.GetExpressionContext ∧
    Example.RespelledProcessed.1.Environment.IntParameters = [10, 20, 11, 11] :=
  ⟨rfl,
    (reverse_wiring true Example.ParentMembers "A" Example.Child "y" (Example.Output .Int 2)
      ⟨2, 2⟩ (List.mem_cons_self _ _) (by decide) rfl rfl (by decide) (by decide)).1
      (fun _ => rfl)
      (by
        intro x hx
        rw [show x = ("y", Example.Output .Int 2) from List.mem_singleton.1 hx]
        rfl)
      (by simp [Example.Child, WellWired, FInstanceSamplers.WellWiredIn]),
    (reverse_wiring true Example.ParentMembers "A" Example.Child "y" (Example.Output .Int 2)
      ⟨2, 2⟩ (List.mem_cons_self _ _) (by decide) rfl rfl (by decide) (by decide)).2
      Example.Processed.1 Example.Processed.2 rfl,
    by decide, by decide, rfl,
    (reverse_wiring true Example.RespelledParentMembers "A" Example.Child "y"
      (Example.Output .Int 2) ⟨2, 2⟩ (List.mem_cons_self _ _) (by decide) rfl rfl (by decide)
      (by decide)).1
      (fun _ => rfl)
      (by
        intro x hx
        rw [show x = ("y", Example.Output .Int 2) from List.mem_singleton.1 hx]
        rfl)
      (by simp [Example.Child, WellWired, FInstanceSamplers.WellWiredIn]),
    ((reverse_wiring true Example.RespelledParentMembers "A" Example.Child "y"
      (Example.Output .Int 2) ⟨2, 2⟩ (List.mem_cons_self _ _) (by decide) rfl rfl (by decide)
      (by decide)).2 Example.RespelledProcessed.1 Example.RespelledProcessed.2 rfl).1,
    by decide⟩

end FConcordSampler

/-! ## A missing Target block -/

namespace FConcordSampler

/-- C5, the claim as stated fails. The parent `Example.UnwiredParent` declares no block
named `A.y.Target`, of either kind, while the factor graph of its instance `A` has the
output `y`. `RunInstanceSamplers` does not skip the transfer and return with the
parent's environment unchanged: the lookup `GetParameterBlocks<int32>()[ParameterName]`
of line 83 is a checked lookup, and the call ends in the failed check, or with checks
compiled out in the dereference of the missing entry. -/
theorem missing_target_counterexample :
    Find (Example.UnwiredParent.Members.FactorGraph.GetParameterBlocks .Int) "A.y.Target" = none ∧
    Find (Example.UnwiredParent.Members.FactorGraph.GetParameterBlocks .Float) "A.y.Target"
      = none ∧
    Find Example.Child.Members.FactorGraph.GetOutputs "y" = some (Example.Output .Int 2) ∧
    RunInstanceSamplers true Example.UnwiredParent = .error .CheckFailed ∧
    RunInstanceSamplers false Example.UnwiredParent = .error .NullDereference ∧
    RunInstanceSamplers true Example.UnwiredParent ≠ .ok Example.UnwiredParent ∧
    RunInstanceSamplers false Example.UnwiredParent ≠ .ok Example.UnwiredParent :=
  ⟨rfl, rfl, rfl, rfl, rfl, (fun h => by cases h), (fun h => by cases h)⟩

/-- C5 as amended. When the parent's factor graph declares no block named
`<instance>.<y>.Target` among the blocks of `y`'s kind, under any spelling that compares
equal to it (names are compared without regard to case), the pass of the output loop for
`y` evaluates nothing and writes nothing: the checked lookup of the block fails, with the
failed check or, with checks compiled out, the dereference of the missing entry. The
failure is not skipped: `RunInstanceSamplers` of a parent that has such an instance
does not return. -/
theorem missing_target_fatal (DO_CHECK : Bool) (s : FConcordSampler) (Key : String)
    (Value : FConcordSampler) (y : String) (Output : FOutput)
    (hinst : (Key, Value) ∈ s.GetInstanceSamplers.toList)
    (hout : (y, Output) ∈ Value.Members.FactorGraph.GetOutputs)
    (hmissing : ∀ k b, (k, b) ∈ s.Members.FactorGraph.GetParameterBlocks Output.GetType →
      FoldCase k ≠ FoldCase (Key ++ "." ++ y ++ ".Target")) :
    (∀ i : FConcordSamplerMembers,
      PushInstanceOutput DO_CHECK Key i s.Members (y, Output)
        = .error (if DO_CHECK then .CheckFailed else .NullDereference)) ∧
    ∃ e, RunInstanceSamplers DO_CHECK s = .error e := by
  have hfind : Find (s.Members.FactorGraph.GetParameterBlocks Output.GetType)
      (Key ++ "." ++ y ++ ".Target") = none := (find_eq_none_iff _ _).2 hmissing
  refine ⟨fun i => pushInstanceOutput_missing DO_CHECK Key i s.Members (y, Output) hfind, ?_⟩
  obtain ⟨e, he⟩ := runInstanceSamplersCore_missing DO_CHECK s.GetInstanceSamplers s.Members
    Key Value (y, Output) hinst hout hfind
  exact ⟨e, by rw [RunInstanceSamplers, he]⟩

/-- The checked lookup failing on the example parent without the block `A.y.Target`. -/
theorem missing_target_fatal_witness :
    PushInstanceOutput true "A" Example.ChildMembers Example.UnwiredParent.Members
        ("y", Example.Output .Int 2) = .error .CheckFailed ∧
    (∃ e, RunInstanceSamplers true Example.UnwiredParent = .error e) ∧
    PushInstanceOutput false "A" Example.ChildMembers Example.UnwiredParent.Members
        ("y", Example.Output .Int 2) = .error .NullDereference :=
  ⟨(missing_target_fatal true Example.UnwiredParent "A" Example.Child "y"
      (Example.Output .Int 2) (List.mem_cons_self _ _) (List.mem_cons_self _ _)
      (fun _ _ h => by cases h)).1 Example.ChildMembers,
    (missing_target_fatal true Example.UnwiredParent "A" Example.Child "y"
      (Example.Output .Int 2) (List.mem_cons_self _ _) (List.mem_cons_self _ _)
      (fun _ _ h => by cases h)).2,
    (missing_target_fatal false Example.UnwiredParent "A" Example.Child "y"
      (Example.Output .Int 2) (List.mem_cons_self _ _) (List.mem_cons_self _ _)
      (fun _ _ h => by cases h)).1 Example.ChildMembers⟩

end FConcordSampler

/-! ## Variation refresh and write-back -/

namespace FConcordSampler

/-- C7, the claim as stated fails for a sampler on which `SampleVariationSync` is called
directly. `Example.Child`, as its constructor leaves it, has variation and staging
variation `[0, 0]`; the call sweeps
the variation to `[1, 1]` and leaves the staging variation at `[0, 0]`, so afterwards
the two differ: nothing is written back. `Example.StaleChild` has the cached variation
`[5, 5]` and the staging variation `[0, 0]`; the call sweeps the cached `[5, 5]` to
`[6, 6]`: the variation is not first set to the staging variation. -/
theorem variation_refresh_counterexample :
    Example.Child.IsSamplingVariation = false ∧
    Example.Child.Members.Variation = [0, 0] ∧
    Example.Child.Members.Environment.StagingVariation = [0, 0] ∧
    SampleVariationSync true Example.Child = .ok Example.SampledChild ∧
    Example.SampledChild.2.Members.Variation = [1, 1] ∧
    Example.SampledChild.2.Members.Environment.StagingVariation = [0, 0] ∧
    Example.SampledChild.2.Members.Environment.StagingVariation
      ≠ Example.SampledChild.2.Members.Variation ∧
    Example.StaleChild.Members.Environment.StagingVariation = [0, 0] ∧
    SampleVariationSync true Example.StaleChild = .ok Example.SampledStaleChild ∧
    Example.SampledStaleChild.2.Members.Variation = [6, 6] ∧
    SampleVariationSync false Example.Child = .ok Example.SampledChild ∧
    SampleVariationSync false Example.StaleChild = .ok Example.SampledStaleChild := by
  refine ⟨rfl, rfl, rfl, rfl, rfl, rfl, ?_, rfl, rfl, rfl, rfl, rfl⟩
  decide

/-- C7 as amended. Refresh and write-back are done by the parent, in its
`RunInstanceSamplers`, around the `SampleVariationSync` of a nested sampler: the pass of
the instance loop returns for a well-wired instance, and a pass that returns has started
the nested `SampleVariationSync` on a sampler whose variation is the staging variation
of its environment, and leaves the nested sampler with the sampled variation, which is
also its staging variation. `SampleVariationSync` itself does neither: it returns on a
well-wired sampler, and a call that returns leaves the staging variation of the
environment of the sampler as it was and, unless a future is held, has swept the
variation the sampler had cached (the result is `SampleVariation` applied after
`RunInstanceSamplers`, which keeps the cached variation). -/
theorem variation_refresh_writeback (DO_CHECK : Bool) :
    (∀ (p : FConcordSamplerMembers) (Key : String) (Value : FConcordSampler),
      (DO_CHECK = true → Value.IsSamplingVariation = false) →
      (∀ x ∈ Value.Members.FactorGraph.GetOutputs,
        (Find (p.FactorGraph.GetParameterBlocks x.2.GetType)
          (Key ++ "." ++ x.1 ++ ".Target")).isSome = true) →
      Value.WellWired DO_CHECK →
      ∃ r, ProcessInstance DO_CHECK p Key Value = .ok r) ∧
    (∀ (p p1 : FConcordSamplerMembers) (Key : String) (Value Value1 : FConcordSampler),
      ProcessInstance DO_CHECK p Key Value = .ok (p1, Value1) →
      ∃ Score Sampled,
        (PrepareInstance p Key Value.Members).Variation
          = Value.Members.Environment.StagingVariation ∧
        (PrepareInstance p Key Value.Members).Environment.StagingVariation
          = Value.Members.Environment.StagingVariation ∧
        SampleVariationSync DO_CHECK (Value.WithMembers (PrepareInstance p Key Value.Members))
          = .ok (Score, Sampled) ∧
        Value1.Members.Variation = Sampled.Members.Variation ∧
        Value1.Members.Environment.StagingVariation = Value1.Members.Variation) ∧
    (∀ s : FConcordSampler, (DO_CHECK = true → s.IsSamplingVariation = false) →
      s.WellWired DO_CHECK → ∃ r, SampleVariationSync DO_CHECK s = .ok r) ∧
    (∀ (s : FConcordSampler) (r : F32 × FConcordSampler),
      SampleVariationSync DO_CHECK s = .ok r →
      r.2.Members.Environment.StagingVariation = s.Members.Environment.StagingVariation ∧
      (s.IsSamplingVariation = false →
        ∃ s0, RunInstanceSamplers DO_CHECK s = .ok s0 ∧
          s0.Members.Variation = s.Members.Variation ∧ r = s0.SampleVariation)) := by
  refine ⟨processInstance_returns_of_wellWired DO_CHECK, ?_,
    sampleVariationSync_returns DO_CHECK, ?_⟩
  · intro p p1 Key Value Value1 h
    obtain ⟨Score, Sampled, hsync, hv1, _⟩ := processInstance_ok DO_CHECK p p1 Key Value Value1 h
    obtain ⟨_, _, f3, f4⟩ := prepareInstance_frame p Key Value.Members
    subst hv1
    exact ⟨Score, Sampled, f3, f4, hsync, rfl, rfl⟩
  · intro s r h
    refine ⟨(sampleVariationSync_frame DO_CHECK s r h).2.2, ?_⟩
    intro hs
    rcases sampleVariationSync_ok DO_CHECK s r h with ⟨hs1, _⟩ | ⟨_, s0, hrun, hr⟩
    · rw [hs] at hs1; cases hs1
    · exact ⟨s0, hrun, (runInstanceSamplers_frame DO_CHECK s s0 hrun).2.1, hr⟩

/-- Refresh and write-back on the example: the nested pass leaves the instance with
variation and staging variation `[1, 1]`; the direct call leaves the staging variation
as it was. -/
theorem variation_refresh_writeback_witness :
    (∃ r, ProcessInstance true Example.ParentMembers "A" Example.Child = .ok r) ∧
    (∃ Score Sampled,
      (PrepareInstance Example.ParentMembers "A" Example.Child.Members).Variation
        = Example.Child.Members.Environment.StagingVariation ∧
      (PrepareInstance Example.ParentMembers "A" Example.Child.Members).Environment.StagingVariation
        = Example.Child.Members.Environment.StagingVariation ∧
      SampleVariationSync true
          (Example.Child.WithMembers
            (PrepareInstance Example.ParentMembers "A" Example.Child.Members))
        = .ok (Score, Sampled) ∧
      Example.Processed.2.Members.Variation = Sampled.Members.Variation ∧
      Example.Processed.2.Members.Environment.StagingVariation
        = Example.Processed.2.Members.Variation) ∧
    Example.Processed.2.Members.Environment.StagingVariation = [1, 1] ∧
    (∃ r, SampleVariationSync true Example.Child = .ok r) ∧
    Example.SampledChild.2.Members.Environment.StagingVariation
      = Example.Child.Members.Environment.StagingVariation ∧
    (∃ s0, RunInstanceSamplers true Example.Child = .ok s0 ∧
      s0.Members.Variation = Example.Child.Members.Variation ∧
        Example.SampledChild = s0.SampleVariation) :=
  ⟨(variation_refresh_writeback true).1 Example.ParentMembers "A" Example.Child
      (fun _ => rfl)
      (by
        intro x hx
        rw [show x = ("y", Example.Output .Int 2) from List.mem_singleton.1 hx]
        rfl)
      (by simp [Example.Child, WellWired, FInstanceSamplers.WellWiredIn]),
    (variation_refresh_writeback true).2.1 Example.ParentMembers Example.Processed.1 "A"
      Example.Child Example.Processed.2 rfl,
    by decide,
    (variation_refresh_writeback true).2.2.1 Example.Child (fun _ => rfl)
      (by simp [Example.Child, WellWired, FInstanceSamplers.WellWiredIn]),
    ((variation_refresh_writeback true).2.2.2 Example.Child Example.SampledChild rfl).1,
    ((variation_refresh_writeback true).2.2.2 Example.Child Example.SampledChild rfl).2 rfl⟩

end FConcordSampler

/-! ## Block projection -/

/-- C9 (block projection). `FillCrateWithOutputs` fully replaces the crate. Its result
does not depend on the prior crate (nor on what fresh array cells hold). The block map
of each kind (`IntBlocks`, `FloatBlocks`) has a block under a name exactly when an
output of that kind has that name and its name does not end in `.Source`, names and
the ending compared as the engine compares them, without regard to case; no two keys of
a block map compare equal. With output names that compare distinct (a `TMap`), the
block map of each kind is, in the order of the outputs, the outputs of that kind whose
name does not end in `.Source`, each under its own name and bound to its evaluated
array, of length `Output.Num()`. -/
theorem block_projection (m : FConcordSamplerMembers)
    (Uninit Uninit1 : (t : EConcordValueType) → Nat → FValue t)
    (Crate Crate1 : FConcordCrateData) :
    m.FillCrateWithOutputs Uninit Crate = m.FillCrateWithOutputs Uninit1 Crate1 ∧
    (∀ t n, (Find ((m.FillCrateWithOutputs Uninit Crate).Blocks t) n).isSome = true ↔
      ∃ x ∈ m.FactorGraph.GetOutputs, FoldCase x.1 = FoldCase n ∧ x.2.GetType = t ∧
        EndsWith x.1 ".Source" = false) ∧
    (∀ t, (((m.FillCrateWithOutputs Uninit Crate).Blocks t).map
      (fun x => FoldCase x.1)).Nodup) ∧
    ((m.FactorGraph.GetOutputs.map (fun x => FoldCase x.1)).Nodup →
      (∀ t, (m.FillCrateWithOutputs Uninit Crate).Blocks t
        = (m.FactorGraph.GetOutputs.filter
            (fun x => decide (x.2.GetType = t) && !EndsWith x.1 ".Source")).map
            (fun x => (x.1, (⟨x.2.Values t m.GetExpressionContext⟩ : FConcordBlock t)))) ∧
      (∀ t n, n ∈ ((m.FillCrateWithOutputs Uninit Crate).Blocks t).map Prod.fst ↔
        ∃ o, (n, o) ∈ m.FactorGraph.GetOutputs ∧ o.GetType = t ∧
          EndsWith n ".Source" = false) ∧
      (∀ n o, (n, o) ∈ m.FactorGraph.GetOutputs → EndsWith n ".Source" = false →
        ∃ Block, (n, Block) ∈ (m.FillCrateWithOutputs Uninit Crate).Blocks o.GetType ∧
          Find ((m.FillCrateWithOutputs Uninit Crate).Blocks o.GetType) n = some Block ∧
          Block.Values = o.Values o.GetType m.GetExpressionContext ∧
          Block.Values.length = o.Num)) := by
  have hreset : ∀ (U : (t : EConcordValueType) → Nat → FValue t) (C : FConcordCrateData),
      m.FillCrateWithOutputs U C =
        m.FactorGraph.GetOutputs.foldl
          (FillCrateFromNameOutputPair m.GetExpressionContext U) ⟨[], []⟩ := fun _ _ => rfl
  obtain ⟨hK, hN, hV⟩ := fillCrate_fold_spec m.GetExpressionContext Uninit
    m.FactorGraph.GetOutputs
  refine ⟨?_, ?_, ?_, ?_⟩
  · rw [hreset, hreset]
    exact fillCrate_fold_uninit _ _ _ _ _
  · rw [hreset]; exact hK
  · rw [hreset]; exact hN
  · intro hnodup
    rw [hreset]
    have hmem : ∀ n o, (n, o) ∈ m.FactorGraph.GetOutputs → EndsWith n ".Source" = false →
        (n, (⟨o.Values o.GetType m.GetExpressionContext⟩ : FConcordBlock o.GetType)) ∈
          (m.FactorGraph.GetOutputs.foldl
            (FillCrateFromNameOutputPair m.GetExpressionContext Uninit) ⟨[], []⟩).Blocks
            o.GetType := by
      intro n o ho hs
      rw [hV hnodup o.GetType]
      exact List.mem_map.2 ⟨(n, o), List.mem_filter.2 ⟨ho, by simp [hs]⟩, rfl⟩
    refine ⟨hV hnodup, ?_, ?_⟩
    · intro t n
      rw [hV hnodup t]
      constructor
      · intro h
        obtain ⟨b, hb, hbn⟩ := List.mem_map.1 h
        obtain ⟨x, hx, hxb⟩ := List.mem_map.1 hb
        obtain ⟨hx1, hx2⟩ := List.mem_filter.1 hx
        rw [Bool.and_eq_true, decide_eq_true_eq, Bool.not_eq_true'] at hx2
        have hname : x.1 = n := by rw [← hbn, ← hxb]
        refine ⟨x.2, ?_, hx2.1, ?_⟩
        · rw [← hname]; exact hx1
        · rw [← hname]; exact hx2.2
      · rintro ⟨o, ho, ht, hs⟩
        exact List.mem_map.2 ⟨(n, ⟨o.Values t m.GetExpressionContext⟩),
          List.mem_map.2 ⟨(n, o), List.mem_filter.2 ⟨ho, by simp [ht, hs]⟩, rfl⟩, rfl⟩
    · intro n o ho hs
      refine ⟨⟨o.Values o.GetType m.GetExpressionContext⟩, hmem n o ho hs, ?_, rfl,
        values_length _ _ _⟩
      exact find_of_mem_nodup _ _ _ (hN o.GetType) (hmem n o ho hs)

/-- Block projection on the example: the Source output is left out, the prior entries
`Gone` and `Old` are gone and `Tempo` is rebound. Outputs whose names end in `.source`
or `.SOURCE` are left out as well. -/
theorem block_projection_witness :
    (∃ Block,
      ("Gain", Block) ∈ (Example.ProjectionMembers.FillCrateWithOutputs Example.Uninit
          Example.OldCrate).Blocks .Float ∧
        Find ((Example.ProjectionMembers.FillCrateWithOutputs Example.Uninit
          Example.OldCrate).Blocks .Float) "Gain" = some Block ∧
        Block.Values
          = (Example.Output .Float 2).Values .Float
              Example.ProjectionMembers.GetExpressionContext ∧
        Block.Values.length = 2) ∧
    (Example.ProjectionMembers.FillCrateWithOutputs Example.Uninit Example.OldCrate).IntBlocks.map
        (fun x => (x.1, x.2.Values))
      = [("Lead.0.Note", [11, 12]), ("Lead.2.Volume", [11, 12, 13]), ("Bass.1.Delay", [11]),
          ("Tempo", [11])] ∧
    (Example.ProjectionMembers.FillCrateWithOutputs Example.Uninit Example.OldCrate).FloatBlocks.map
        (fun x => (x.1, x.2.Values))
      = [("Pad.0.Note", [⟨0⟩, ⟨1⟩]), ("Gain", [⟨0⟩, ⟨1⟩])] ∧
    (Example.RespelledProjectionMembers.FillCrateWithOutputs Example.Uninit
        Example.OldCrate).IntBlocks.map (fun x => (x.1, x.2.Values))
      = [("Lead.0.Note", [11, 12]), ("lead.1.Note", [11]), ("LEAD.2.Volume", [11, 12, 13]),
          ("Tempo", [11])] ∧
    (Example.RespelledProjectionMembers.FillCrateWithOutputs Example.Uninit
        Example.OldCrate).FloatBlocks.map (fun x => (x.1, x.2.Values))
      = [("Gain", [⟨0⟩, ⟨1⟩])] :=
  ⟨((block_projection Example.ProjectionMembers Example.Uninit Example.Uninit1
      Example.OldCrate ⟨[], []⟩).2.2.2 (by decide)).2.2 "Gain" (Example.Output .Float 2)
      (by simp [Example.ProjectionMembers, FConcordFactorGraph.GetOutputs]) (by decide),
    by decide, by decide, by decide, by decide⟩

/-! ## Track projection -/

theorem trackStep_fold_filter (Parse : String → Option FConcordColumnPath)
    (c : FConcordExpressionContext) (outs : List (String × FOutput))
    (Tracks : List (String × FConcordTrack)) :
    (outs.filter (fun x => (ColumnPathOf Parse x).isSome)).foldl (TrackStep Parse c) Tracks
      = outs.foldl (TrackStep Parse c) Tracks := by
  induction outs generalizing Tracks with
  | nil => rfl
  | cons x rest ih =>
    cases hx : ColumnPathOf Parse x with
    | none =>
      rw [List.filter_cons_of_neg (by simp [hx]), List.foldl_cons,
        trackStep_none Parse c Tracks x hx]
      exact ih Tracks
    | some path =>
      rw [List.filter_cons_of_pos (by simp [hx]), List.foldl_cons, List.foldl_cons]
      exact ih _

/-- C8 (idempotence of track projection). Applying `SetColumnsFromOutputs` to any pattern
data and then again to the result, for the same sampler state, gives the result of the
first application: the same tracks in the same order, the same columns and the same
Note/Instrument/Volume/Delay arrays. The arrays moved in from the previous pattern data
and the content of freshly sized cells (`Uninit`, `Uninit1`) leave no trace, since every
cell is overwritten by the evaluation. -/
theorem track_projection_idempotent (m : FConcordSamplerMembers)
    (Parse : String → Option FConcordColumnPath) (Uninit Uninit1 : Nat → Int)
    (OutPatternData : FConcordPatternData) :
    m.SetColumnsFromOutputs Parse Uninit1 (m.SetColumnsFromOutputs Parse Uninit OutPatternData)
      = m.SetColumnsFromOutputs Parse Uninit OutPatternData := by
  rw [setColumnsFromOutputs_eq m Parse Uninit1, setColumnsFromOutputs_eq m Parse Uninit]

/-- C10 (track projection selects and skips by name). After `SetColumnsFromOutputs`:
the pattern data has a track named `T` exactly when some output that is not Float-typed,
whose name does not end in `.Source` and whose name has a parse has the track name `T`,
track names and the ending compared as the engine compares them, without regard to
case; the spelling of a track's name is that of one of these paths and no two tracks
have names that compare equal; the outputs that are skipped contribute nothing (the
result is that for the selected outputs alone; the function is total); every track has
as many columns as the largest column index among the selected paths of that track,
plus one; and the array addressed by a selected output's path is the output's evaluated
array, of length `Output.Num()`, provided no later output addresses the same array. -/
theorem track_projection (m : FConcordSamplerMembers)
    (Parse : String → Option FConcordColumnPath) (Uninit : Nat → Int)
    (OutPatternData : FConcordPatternData) :
    (∀ T, (Find (m.SetColumnsFromOutputs Parse Uninit OutPatternData).Tracks T).isSome = true ↔
      ∃ x ∈ m.FactorGraph.GetOutputs, ∃ path, x.2.GetType ≠ .Float ∧
        EndsWith x.1 ".Source" = false ∧ Parse x.1 = some path ∧
        FoldCase path.TrackName = FoldCase T) ∧
    (∀ T, T ∈ (m.SetColumnsFromOutputs Parse Uninit OutPatternData).Tracks.map Prod.fst →
      ∃ x ∈ m.FactorGraph.GetOutputs, ∃ path, x.2.GetType ≠ .Float ∧
        EndsWith x.1 ".Source" = false ∧ Parse x.1 = some path ∧ path.TrackName = T) ∧
    ((m.SetColumnsFromOutputs Parse Uninit OutPatternData).Tracks.map
      (fun x => FoldCase x.1)).Nodup ∧
    ({ m with FactorGraph := { m.FactorGraph with
          Outputs := m.FactorGraph.Outputs.filter (fun x => (ColumnPathOf Parse x).isSome) }
      }.SetColumnsFromOutputs Parse Uninit OutPatternData
      = m.SetColumnsFromOutputs Parse Uninit OutPatternData) ∧
    (∀ T Track, (T, Track) ∈ (m.SetColumnsFromOutputs Parse Uninit OutPatternData).Tracks →
      (∀ x ∈ m.FactorGraph.GetOutputs, ∀ path, x.2.GetType ≠ .Float →
        EndsWith x.1 ".Source" = false → Parse x.1 = some path →
        FoldCase path.TrackName = FoldCase T → path.ColumnIndex < Track.Columns.length) ∧
      (∃ x ∈ m.FactorGraph.GetOutputs, ∃ path, x.2.GetType ≠ .Float ∧
        EndsWith x.1 ".Source" = false ∧ Parse x.1 = some path ∧
        FoldCase path.TrackName = FoldCase T ∧
        path.ColumnIndex + 1 = Track.Columns.length)) ∧
    (∀ l1 x l2 path, m.FactorGraph.GetOutputs = l1 ++ x :: l2 →
      x.2.GetType ≠ .Float → EndsWith x.1 ".Source" = false → Parse x.1 = some path →
      (∀ z ∈ l2, ∀ pz, z.2.GetType ≠ .Float → EndsWith z.1 ".Source" = false →
        Parse z.1 = some pz → ¬ pz.SameArray path) →
      ∃ Track Column,
        Find (m.SetColumnsFromOutputs Parse Uninit OutPatternData).Tracks path.TrackName
          = some Track ∧
        (∃ T, FoldCase T = FoldCase path.TrackName ∧
          (T, Track) ∈ (m.SetColumnsFromOutputs Parse Uninit OutPatternData).Tracks) ∧
        Track.Columns[path.ColumnIndex]? = some Column ∧
        Column.GetValues path.ColumnValuesType = x.2.Values .Int m.GetExpressionContext ∧
        (Column.GetValues path.ColumnValuesType).length = x.2.Num) := by
  obtain ⟨hK, hS, hN, hC⟩ :=
    tracks_fold_spec Parse m.GetExpressionContext m.FactorGraph.GetOutputs
  rw [setColumnsFromOutputs_eq m Parse Uninit]
  refine ⟨?_, ?_, hN, ?_, ?_, ?_⟩
  · intro T
    rw [hK T]
    constructor
    · rintro ⟨x, hx, path, hp, hn⟩
      obtain ⟨h1, h2, h3⟩ := (columnPathOf_eq_some_iff Parse x path).1 hp
      exact ⟨x, hx, path, h1, h2, h3, hn⟩
    · rintro ⟨x, hx, path, h1, h2, h3, hn⟩
      exact ⟨x, hx, path, (columnPathOf_eq_some_iff Parse x path).2 ⟨h1, h2, h3⟩, hn⟩
  · intro T hT
    obtain ⟨x, hx, path, hp, hn⟩ := hS T hT
    obtain ⟨h1, h2, h3⟩ := (columnPathOf_eq_some_iff Parse x path).1 hp
    exact ⟨x, hx, path, h1, h2, h3, hn⟩
  · rw [setColumnsFromOutputs_eq]
    exact congrArg FConcordPatternData.mk
      (trackStep_fold_filter Parse m.GetExpressionContext m.FactorGraph.GetOutputs [])
  · intro T Track hmem
    obtain ⟨hall, x, hx, path, hp, hn, hlen⟩ := hC T Track (find_of_mem_nodup _ _ _ hN hmem)
    obtain ⟨h1, h2, h3⟩ := (columnPathOf_eq_some_iff Parse x path).1 hp
    refine ⟨?_, x, hx, path, h1, h2, h3, hn, hlen⟩
    intro w hw pw g1 g2 g3 gn
    exact hall w hw pw ((columnPathOf_eq_some_iff Parse w pw).2 ⟨g1, g2, g3⟩) gn
  · intro l1 x l2 path hsplit h1 h2 h3 hlater
    have hp : ColumnPathOf Parse x = some path :=
      (columnPathOf_eq_some_iff Parse x path).2 ⟨h1, h2, h3⟩
    have hholds : ColumnHolds
        (m.FactorGraph.GetOutputs.foldl (TrackStep Parse m.GetExpressionContext) [])
        path (x.2.Values .Int m.GetExpressionContext) := by
      rw [hsplit, List.foldl_append, List.foldl_cons,
        trackStep_some Parse m.GetExpressionContext _ x path hp]
      apply columnHolds_fold Parse m.GetExpressionContext l2 _ path _
        (columnHolds_tracksWith_self _ _ _)
      intro z hz pz hzp
      obtain ⟨g1, g2, g3⟩ := (columnPathOf_eq_some_iff Parse z pz).1 hzp
      exact hlater z hz pz g1 g2 g3
    obtain ⟨Track, Column, hfind, hcol, hval⟩ := hholds
    exact ⟨Track, Column, hfind, find_some_mem _ _ _ hfind, hcol, hval,
      by rw [hval]; exact values_length _ _ _⟩

/-- Track projection on the example: the Float output, the Source output and the name
without a parse leave no track; `Lead` has three columns, `Bass` two. On the respelled
example the names `Lead`, `lead` and `LEAD` address one track, kept under its first
spelling, and the outputs ending in `.source` and `.SOURCE` leave no track. -/
theorem track_projection_witness :
    (∃ Track Column,
      Find (Example.ProjectionMembers.SetColumnsFromOutputs Example.Parse
          (Example.Uninit .Int) Example.OldPattern).Tracks "Lead" = some Track ∧
        (∃ T, FoldCase T = FoldCase "Lead" ∧
          (T, Track) ∈ (Example.ProjectionMembers.SetColumnsFromOutputs Example.Parse
            (Example.Uninit .Int) Example.OldPattern).Tracks) ∧
        Track.Columns[2]? = some Column ∧
        Column.GetValues .Volume
          = (Example.Output .Int 3).Values .Int Example.ProjectionMembers.GetExpressionContext ∧
        (Column.GetValues .Volume).length = 3) ∧
    Example.ProjectionMembers.SetColumnsFromOutputs Example.Parse (Example.Uninit .Int)
        Example.OldPattern
      = ⟨[("Lead", ⟨[⟨[11, 12], [], [], []⟩, ⟨[], [], [], []⟩, ⟨[], [], [11, 12, 13], []⟩]⟩),
          ("Bass", ⟨[⟨[], [], [], []⟩, ⟨[], [], [], [11]⟩]⟩)]⟩ ∧
    Example.RespelledProjectionMembers.SetColumnsFromOutputs Example.Parse
        (Example.Uninit .Int) Example.OldPattern
      = ⟨[("Lead", ⟨[⟨[11, 12], [], [], []⟩, ⟨[11], [], [], []⟩, ⟨[], [], [11, 12, 13], []⟩]⟩)]⟩ :=
  ⟨(track_projection Example.ProjectionMembers Example.Parse (Example.Uninit .Int)
      Example.OldPattern).2.2.2.2.2
      [("Lead.0.Note", Example.Output .Int 2)] ("Lead.2.Volume", Example.Output .Int 3)
      [("Pad.0.Note", Example.Output .Float 2), ("Bass.1.Delay", Example.Output .Int 1),
        ("Hat.0.Note.Source", Example.Output .Int 2), ("Tempo", Example.Output .Int 1),
        ("Gain", Example.Output .Float 2)]
      ⟨"Lead", 2, .Volume⟩ rfl (by decide) (by decide) (by decide)
      (by
        intro z hz pz h1 h2 h3
        simp only [List.mem_cons, List.mem_singleton, List.not_mem_nil, or_false] at hz
        rcases hz with rfl | rfl | rfl | rfl | rfl
        · exact absurd rfl h1
        · have hp : Example.Parse "Bass.1.Delay" = some ⟨"Bass", 1, .Delay⟩ := by decide
          rw [hp] at h3
          cases h3
          decide
        · exact absurd h2 (by decide)
        · have hp : Example.Parse "Tempo" = none := by decide
          rw [hp] at h3
          cases h3
        · exact absurd rfl h1),
    by decide, by decide⟩

/-! ## Lemmas: tracker module player -/

theorem wrapInt32_eq (x : Int) (h1 : -2147483648 ≤ x) (h2 : x < 2147483648) :
    WrapInt32 x = x := by
  unfold WrapInt32
  omega

theorem wrapInt32_range (x : Int) :
    -2147483648 ≤ WrapInt32 x ∧ WrapInt32 x < 2147483648 := by
  unfold WrapInt32
  omega

theorem toUInt8_eq (x : Int) (h1 : 0 ≤ x) (h2 : x < 256) : (ToUInt8 x : Int) = x := by
  unfold ToUInt8
  rw [Int.toNat_of_nonneg (by omega)]
  omega

theorem toUInt8_le (x : Int) (h1 : 0 ≤ x) : (ToUInt8 x : Int) ≤ x := by
  unfold ToUInt8
  rw [Int.toNat_of_nonneg (by omega)]
  omega

theorem clamp_range (X Min Max : Int) (h : Min ≤ Max) :
    Min ≤ FMath.Clamp X Min Max ∧ FMath.Clamp X Min Max ≤ Max := by
  unfold FMath.Clamp
  split
  · omega
  · split <;> omega

theorem fmath_min_eq (A B : Int) : FMath.Min A B = min A B := by
  unfold FMath.Min
  split <;> omega

/-- The effect byte `0xD0 | delay` for a delay clamped to `[0, 15]`. -/
theorem toUInt8_lor_delay (d : Int) (h1 : 0 ≤ d) (h2 : d ≤ 15) :
    ToUInt8 (Int.lor 0xD0 d) = 0xD0 ||| d.toNat ∧
    0xD0 ≤ ToUInt8 (Int.lor 0xD0 d) ∧ ToUInt8 (Int.lor 0xD0 d) ≤ 0xDF := by
  obtain ⟨k, rfl⟩ := Int.eq_ofNat_of_zero_le h1
  have hk : k ≤ 15 := by omega
  interval_cases k <;> decide

/-- The events after the row loop: row `i` is rewritten when it is below the row count
and stored, every other event is kept. -/
theorem rowLoop_getElem? (XMP_KEY_OFF ins instrument_index : Int) (bIsRightChannel : Bool)
    (Column : FConcordColumn) (n : Nat) (l : List xmp_event) (i : Nat) :
    ((List.range n).foldl
      (UpdatePatternRow XMP_KEY_OFF ins instrument_index bIsRightChannel Column) l)[i]?
      = if i < n then
          (l[i]?).map
            (UpdatePatternEvent XMP_KEY_OFF ins instrument_index bIsRightChannel Column i)
        else l[i]? := by
  induction n with
  | zero => simp
  | succ n ih =>
    rw [List.range_succ, List.foldl_append, List.foldl_cons, List.foldl_nil]
    generalize (List.range n).foldl
      (UpdatePatternRow XMP_KEY_OFF ins instrument_index bIsRightChannel Column) l = L at ih ⊢
    unfold UpdatePatternRow
    by_cases hin : i = n
    · subst hin
      have hLi : L[i]? = l[i]? := by
        have h0 := ih
        rw [if_neg (by omega)] at h0
        exact h0
      cases hl : l[i]? with
      | none =>
        rw [hl] at hLi
        simp [hLi]
      | some e =>
        rw [hl] at hLi
        have hlt : i < L.length := by
          by_contra hc
          rw [List.getElem?_eq_none (by omega)] at hLi
          cases hLi
        simp only [hLi, Option.map_some']
        rw [List.getElem?_set_self hlt]
        simp
    · cases hLn : L[n]? with
      | none =>
        simp only
        rw [ih]
        by_cases h1 : i < n
        · rw [if_pos h1, if_pos (by omega)]
        · rw [if_neg h1, if_neg (by omega)]
      | some e =>
        simp only
        rw [List.getElem?_set_ne (fun e => hin e.symm), ih]
        by_cases h1 : i < n
        · rw [if_pos h1, if_pos (by omega)]
        · rw [if_neg h1, if_neg (by omega)]

/-! ## Event encoding in `UpdatePattern` -/

/-- What the body of the row loop writes, for a key-off number that fits a byte, an
instrument index inside the instrument loop and a note below the largest `int`. -/
theorem updatePatternEvent_spec (XMP_KEY_OFF ins instrument_index : Int)
    (bIsRightChannel : Bool) (Column : FConcordColumn) (row : Nat) (event : xmp_event)
    (hkey : 0 ≤ XMP_KEY_OFF ∧ XMP_KEY_OFF ≤ 255)
    (hindex : 0 ≤ instrument_index ∧ instrument_index < ins)
    (hnote : Column.NoteValues.getD row 0 < 2147483647) :
    (Column.NoteValues.getD row 0 = 0 →
      (UpdatePatternEvent XMP_KEY_OFF ins instrument_index bIsRightChannel Column row
        event).note = 0) ∧
    (Column.NoteValues.getD row 0 < 0 →
      ((UpdatePatternEvent XMP_KEY_OFF ins instrument_index bIsRightChannel Column row
        event).note : Int) = XMP_KEY_OFF) ∧
    (Column.NoteValues.getD row 0 > 0 →
      ((UpdatePatternEvent XMP_KEY_OFF ins instrument_index bIsRightChannel Column row
        event).note : Int) = min (Column.NoteValues.getD row 0 + 1) 128) ∧
    ((UpdatePatternEvent XMP_KEY_OFF ins instrument_index bIsRightChannel Column row
      event).ins : Int) ≤ ins ∧
    (((UpdatePatternEvent XMP_KEY_OFF ins instrument_index bIsRightChannel Column row
        event).note : Int) = XMP_KEY_OFF →
      (UpdatePatternEvent XMP_KEY_OFF ins instrument_index bIsRightChannel Column row
        event).ins = 0) ∧
    (UpdatePatternEvent XMP_KEY_OFF ins instrument_index bIsRightChannel Column row
      event).vol ≤ 65 := by
  generalize hn : Column.NoteValues.getD row 0 = n at hnote ⊢
  -- the note as an `int`, before it is stored
  have hnoteval : ∀ note : Int,
      note = (if n > 0 then FMath.Min (WrapInt32 (n + 1)) 128
        else if n < 0 then XMP_KEY_OFF else n) →
      0 ≤ note ∧ note < 256 ∧ (n = 0 → note = 0) ∧ (n < 0 → note = XMP_KEY_OFF) ∧
        (n > 0 → note = min (n + 1) 128) := by
    intro note hdef
    by_cases h1 : n > 0
    · rw [if_pos h1, wrapInt32_eq _ (by omega) (by omega), fmath_min_eq] at hdef
      omega
    · rw [if_neg h1] at hdef
      by_cases h2 : n < 0
      · rw [if_pos h2] at hdef
        omega
      · rw [if_neg h2] at hdef
        omega
  unfold UpdatePatternEvent
  simp only [hn]
  generalize hnote1 : (if n > 0 then FMath.Min (WrapInt32 (n + 1)) 128
    else if n < 0 then XMP_KEY_OFF else n) = note
  obtain ⟨g0, g1, g2, g3, g4⟩ := hnoteval note hnote1.symm
  have hstored : (ToUInt8 note : Int) = note := toUInt8_eq note g0 g1
  refine ⟨?_, ?_, ?_, ?_, ?_, ?_⟩
  · intro h
    have : (ToUInt8 note : Int) = 0 := by rw [hstored]; exact g2 h
    exact_mod_cast this
  · intro h
    rw [hstored]
    exact g3 h
  · intro h
    rw [hstored]
    exact g4 h
  · have hc := clamp_range
      (if note = XMP_KEY_OFF then 0
        else if Column.InstrumentValues.getD row 0 = 0 ∧ note > 0 then
          WrapInt32 (instrument_index + 1)
        else if Column.InstrumentValues.getD row 0 ≠ 0 ∧ bIsRightChannel = true then
          WrapInt32 (Column.InstrumentValues.getD row 0 + 1)
        else Column.InstrumentValues.getD row 0) 0 ins (by omega)
    exact le_trans (toUInt8_le _ hc.1) hc.2
  · intro h
    rw [hstored] at h
    simp only [h, if_true]
    have : FMath.Clamp 0 0 ins = 0 := by
      unfold FMath.Clamp
      split
      · rfl
      · split
        · rfl
        · omega
    rw [this]
    rfl
  · have hc := clamp_range (Column.VolumeValues.getD row 0) 0 65 (by omega)
    have h1 := toUInt8_le _ hc.1
    omega

/-- C11 (event encoding in `UpdatePattern`). For a key-off number `XMP_KEY_OFF` that fits
a byte, an instrument index of the instrument loop (`0 <= instrument_index < mod->ins`)
and a row that the row loop writes (below `track->rows`, stored in the track) whose
note value `n` (0 when the column has no such row) is below `2^31 - 1`: the written note
is 0 when `n = 0`, `XMP_KEY_OFF` when `n < 0` and `min(n + 1, 128)` when `n > 0`; the
written instrument lies in `[0, mod->ins]` and is 0 whenever the written note is
`XMP_KEY_OFF`; the written volume lies in `[0, 65]`; `fxt` is `0x0E` and `fxp` is
`0xD0 | d` with `d` the delay clamped to `[0, 15]`, so `fxp` lies in `[0xD0, 0xDF]`. The
second effect and the flag of the event are kept. -/
theorem event_encoding (XMP_KEY_OFF ins instrument_index : Int) (bIsRightChannel : Bool)
    (Column : FConcordColumn) (track : xmp_track) (row : Nat) (event : xmp_event)
    (hkey : 0 ≤ XMP_KEY_OFF ∧ XMP_KEY_OFF ≤ 255)
    (hindex : 0 ≤ instrument_index ∧ instrument_index < ins)
    (hrow : (row : Int) < track.rows)
    (hstored : track.event[row]? = some event)
    (hnote : Column.NoteValues.getD row 0 < 2147483647) :
    ∃ written,
      (UpdatePatternRows XMP_KEY_OFF ins instrument_index bIsRightChannel Column
        track).event[row]? = some written ∧
      (Column.NoteValues.getD row 0 = 0 → written.note = 0) ∧
      (Column.NoteValues.getD row 0 < 0 → (written.note : Int) = XMP_KEY_OFF) ∧
      (Column.NoteValues.getD row 0 > 0 →
        (written.note : Int) = min (Column.NoteValues.getD row 0 + 1) 128) ∧
      (0 ≤ (written.ins : Int) ∧ (written.ins : Int) ≤ ins) ∧
      ((written.note : Int) = XMP_KEY_OFF → written.ins = 0) ∧
      (0 ≤ written.vol ∧ written.vol ≤ 65) ∧
      written.fxt = 0x0E ∧
      written.fxp = 0xD0 ||| (FMath.Clamp (Column.DelayValues.getD row 0) 0 0x0F).toNat ∧
      (0xD0 ≤ written.fxp ∧ written.fxp ≤ 0xDF) ∧
      written.f2t = event.f2t ∧ written.f2p = event.f2p ∧ written.flag = event.flag := by
  refine ⟨UpdatePatternEvent XMP_KEY_OFF ins instrument_index bIsRightChannel Column row
    event, ?_, ?_⟩
  · unfold UpdatePatternRows
    simp only
    rw [rowLoop_getElem?, if_pos (by omega), hstored]
    rfl
  · obtain ⟨h1, h2, h3, h4, h5, h6⟩ := updatePatternEvent_spec XMP_KEY_OFF ins
      instrument_index bIsRightChannel Column row event hkey hindex hnote
    have hd := clamp_range (Column.DelayValues.getD row 0) 0 0x0F (by omega)
    obtain ⟨d1, d2, d3⟩ := toUInt8_lor_delay _ hd.1 hd.2
    exact ⟨h1, h2, h3, ⟨Int.natCast_nonneg _, h4⟩, h5, ⟨Nat.zero_le _, h6⟩, rfl, d1, ⟨d2, d3⟩,
      rfl, rfl, rfl⟩

/-- The encoding on the example track, with the key-off number `0x81` of the replay
library, instrument index 1 of 4 and the right channel: row 2 holds a key-off. -/
theorem event_encoding_witness :
    ∃ written,
      (UpdatePatternRows Example.KeyOff 4 1 true Example.TrackerColumn
        Example.TrackerTrack).event[2]? = some written ∧
      (Example.TrackerColumn.NoteValues.getD 2 0 = 0 → written.note = 0) ∧
      (Example.TrackerColumn.NoteValues.getD 2 0 < 0 → (written.note : Int) = Example.KeyOff) ∧
      (Example.TrackerColumn.NoteValues.getD 2 0 > 0 →
        (written.note : Int) = min (Example.TrackerColumn.NoteValues.getD 2 0 + 1) 128) ∧
      (0 ≤ (written.ins : Int) ∧ (written.ins : Int) ≤ 4) ∧
      ((written.note : Int) = Example.KeyOff → written.ins = 0) ∧
      (0 ≤ written.vol ∧ written.vol ≤ 65) ∧
      written.fxt = 0x0E ∧
      written.fxp = 0xD0 ||| (FMath.Clamp (Example.TrackerColumn.DelayValues.getD 2 0) 0
        0x0F).toNat ∧
      (0xD0 ≤ written.fxp ∧ written.fxp ≤ 0xDF) ∧
      written.f2t = 9 ∧ written.f2p = 9 ∧ written.flag = 0 :=
  event_encoding Example.KeyOff 4 1 true Example.TrackerColumn Example.TrackerTrack 2
    ⟨0x81, 0, 0, 0, 0, 9, 9, 0⟩ (by decide) (by decide) (by decide) (by decide) (by decide)

/-! ## Lemmas: the skip loop of `SetPlayerStartPosition` -/

theorem skipLoop_zero (N F : Int) :
    SetPlayerStartPositionLoop N 0 F = if F > 0 then none else some [] := by
  unfold SetPlayerStartPositionLoop
  rfl

theorem skipLoop_done (N : Int) (fuel : Nat) (F : Int) (h : F ≤ 0) :
    SetPlayerStartPositionLoop N fuel F = some [] := by
  cases fuel with
  | zero => rw [skipLoop_zero, if_neg (by omega)]
  | succ fuel =>
    unfold SetPlayerStartPositionLoop
    rw [if_neg (by omega)]

/-- One iteration of the skip loop, for a frame count of the `int32` range. -/
theorem skipLoop_succ (N : Int) (hN : 0 < N) (fuel : Nat) (F : Int) (hpos : 0 < F)
    (hF : F ≤ 2147483647) :
    SetPlayerStartPositionLoop N (fuel + 1) F
      = (SetPlayerStartPositionLoop N fuel (F - min F N)).map
          (fun calls => ⟨min F N, WrapInt32 (WrapInt32 (min F N * 2) * 2)⟩ :: calls) := by
  rw [SetPlayerStartPositionLoop, if_pos hpos]
  simp only [fmath_min_eq]
  rw [wrapInt32_eq (F - min F N) (by omega) (by omega)]
  cases SetPlayerStartPositionLoop N fuel (F - min F N) <;> rfl

/-- What a run of the skip loop that ends has done. -/
theorem skipLoop_some (N : Int) (hN : 0 < N) :
    ∀ (fuel : Nat) (F : Int) (calls : List FPlayBufferCall), F ≤ 2147483647 →
      SetPlayerStartPositionLoop N fuel F = some calls →
      ((calls.length : Int) * N - N < max F 0 ∧ max F 0 ≤ (calls.length : Int) * N) ∧
      (∀ c ∈ calls, 1 ≤ c.FramesSkipped ∧ c.FramesSkipped ≤ N) ∧
      (calls.map FPlayBufferCall.FramesSkipped).sum = max F 0 ∧
      (N ≤ 536870911 → ∀ c ∈ calls, c.Size = 4 * c.FramesSkipped) := by
  intro fuel
  induction fuel with
  | zero =>
    intro F calls _ h
    rw [skipLoop_zero] at h
    by_cases hpos : F > 0
    · rw [if_pos hpos] at h
      cases h
    · rw [if_neg hpos] at h
      cases h
      refine ⟨⟨by simp; omega, by simp; omega⟩, by simp, by simp; omega, by simp⟩
  | succ fuel ih =>
    intro F calls hF h
    by_cases hpos : F > 0
    · rw [skipLoop_succ N hN fuel F hpos hF] at h
      cases hrest : SetPlayerStartPositionLoop N fuel (F - min F N) with
      | none =>
        rw [hrest] at h
        cases h
      | some rest =>
        rw [hrest] at h
        simp only [Option.map_some', Option.some.injEq] at h
        subst h
        obtain ⟨⟨a1, a2⟩, b, c, d⟩ := ih (F - min F N) rest (by omega) hrest
        have hlen : ((rest.length : Int) + 1) * N = (rest.length : Int) * N + N := by ring
        refine ⟨?_, ?_, ?_, ?_⟩
        · simp only [List.length_cons, Nat.cast_add, Nat.cast_one]
          rw [hlen]
          by_cases hle : F ≤ N
          · have hm : min F N = F := by omega
            rw [hm] at a1 a2
            have h0 : (rest.length : Int) * N < 1 * N := by omega
            have h1 : (rest.length : Int) < 1 := lt_of_mul_lt_mul_right h0 (by omega)
            have h2 : (rest.length : Int) = 0 := by omega
            rw [h2]
            omega
          · omega
        · intro c hc
          rcases List.mem_cons.mp hc with rfl | hc
          · simp only
            omega
          · exact b c hc
        · simp only [List.map_cons, List.sum_cons]
          rw [c]
          omega
        · intro hsmall c hc
          rcases List.mem_cons.mp hc with rfl | hc
          · simp only
            rw [wrapInt32_eq (min F N * 2) (by omega) (by omega),
              wrapInt32_eq (min F N * 2 * 2) (by omega) (by omega)]
            omega
          · exact d hsmall c hc
    · rw [skipLoop_done N (fuel + 1) F (by omega)] at h
      cases h
      refine ⟨⟨by simp; omega, by simp; omega⟩, by simp, by simp; omega, by simp⟩

/-- The skip loop ends within `fuel` iterations when `fuel` blocks cover the frames. -/
theorem skipLoop_enough (N : Int) (hN : 0 < N) :
    ∀ (fuel : Nat) (F : Int), F ≤ 2147483647 → F ≤ (fuel : Int) * N →
      ∃ calls, SetPlayerStartPositionLoop N fuel F = some calls := by
  intro fuel
  induction fuel with
  | zero =>
    intro F _ h
    exact ⟨[], skipLoop_done N 0 F (by simpa using h)⟩
  | succ fuel ih =>
    intro F hF h
    by_cases hpos : F > 0
    · rw [skipLoop_succ N hN fuel F hpos hF]
      have hlen : (((fuel + 1 : Nat) : Int)) * N = (fuel : Int) * N + N := by
        push_cast
        ring
      rw [hlen] at h
      have hfuel : 0 ≤ (fuel : Int) * N := mul_nonneg (Int.natCast_nonneg _) (by omega)
      obtain ⟨rest, hrest⟩ := ih (F - min F N) (by omega) (by omega)
      rw [hrest]
      exact ⟨_, rfl⟩
    · exact ⟨[], skipLoop_done N _ F (by omega)⟩

/-- The skip loop has not ended after `fuel` iterations when `fuel` blocks do not cover
the frames. -/
theorem skipLoop_short (N : Int) (hN : 0 < N) :
    ∀ (fuel : Nat) (F : Int), F ≤ 2147483647 → (fuel : Int) * N < F →
      SetPlayerStartPositionLoop N fuel F = none := by
  intro fuel
  induction fuel with
  | zero =>
    intro F _ h
    rw [skipLoop_zero, if_pos (by simpa using h)]
  | succ fuel ih =>
    intro F hF h
    have hlen : (((fuel + 1 : Nat) : Int)) * N = (fuel : Int) * N + N := by
      push_cast
      ring
    rw [hlen] at h
    have hfuel : 0 ≤ (fuel : Int) * N := mul_nonneg (Int.natCast_nonneg _) (by omega)
    rw [skipLoop_succ N hN fuel F (by omega) hF, ih (F - min F N) (by omega) (by omega)]
    rfl

/-- Two runs of the skip loop that end have made the same calls. -/
theorem skipLoop_unique (N : Int) (hN : 0 < N) :
    ∀ (fuel1 fuel2 : Nat) (F : Int) (calls1 calls2 : List FPlayBufferCall),
      F ≤ 2147483647 →
      SetPlayerStartPositionLoop N fuel1 F = some calls1 →
      SetPlayerStartPositionLoop N fuel2 F = some calls2 → calls1 = calls2 := by
  intro fuel1
  induction fuel1 with
  | zero =>
    intro fuel2 F calls1 calls2 _ h1 h2
    rw [skipLoop_zero] at h1
    by_cases hpos : F > 0
    · rw [if_pos hpos] at h1
      cases h1
    · rw [if_neg hpos] at h1
      rw [skipLoop_done N fuel2 F (by omega)] at h2
      cases h1
      cases h2
      rfl
  | succ fuel1 ih =>
    intro fuel2 F calls1 calls2 hF h1 h2
    by_cases hpos : F > 0
    · cases fuel2 with
      | zero =>
        rw [skipLoop_zero, if_pos hpos] at h2
        cases h2
      | succ fuel2 =>
        rw [skipLoop_succ N hN fuel1 F hpos hF] at h1
        rw [skipLoop_succ N hN fuel2 F hpos hF] at h2
        cases hr1 : SetPlayerStartPositionLoop N fuel1 (F - min F N) with
        | none =>
          rw [hr1] at h1
          cases h1
        | some rest1 =>
          cases hr2 : SetPlayerStartPositionLoop N fuel2 (F - min F N) with
          | none =>
            rw [hr2] at h2
            cases h2
          | some rest2 =>
            rw [hr1] at h1
            rw [hr2] at h2
            simp only [Option.map_some', Option.some.injEq] at h1 h2
            rw [← h1, ← h2, ih fuel2 (F - min F N) rest1 rest2 (by omega) hr1 hr2]
    · rw [skipLoop_done N _ F (by omega)] at h1 h2
      cases h1
      cases h2
      rfl

/-- The number of blocks that cover a frame count is the rounded-up quotient. -/
theorem blocks_eq_ceil (N F : Int) (hN : 0 < N) (k : Nat)
    (h1 : (k : Int) * N - N < max F 0) (h2 : max F 0 ≤ (k : Int) * N) :
    (k : Int) = max ⌈(F : ℚ) / (N : ℚ)⌉ 0 := by
  have hNq : (0 : ℚ) < (N : ℚ) := by exact_mod_cast hN
  by_cases hpos : 0 < F
  · have hm : max F 0 = F := by omega
    rw [hm] at h1 h2
    have hc : ⌈(F : ℚ) / (N : ℚ)⌉ = (k : Int) := by
      rw [Int.ceil_eq_iff]
      constructor
      · rw [lt_div_iff₀ hNq]
        have : ((k : Int) : ℚ) * (N : ℚ) - (N : ℚ) < (F : ℚ) := by exact_mod_cast h1
        linarith
      · rw [div_le_iff₀ hNq]
        exact_mod_cast h2
    rw [hc]
    omega
  · have hm : max F 0 = 0 := by omega
    rw [hm] at h1
    have h0 : (k : Int) * N < 1 * N := by omega
    have hk : (k : Int) < 1 := lt_of_mul_lt_mul_right h0 (by omega)
    have hc : ⌈(F : ℚ) / (N : ℚ)⌉ ≤ 0 := by
      rw [Int.ceil_le]
      have hFq : (F : ℚ) ≤ 0 := by exact_mod_cast (not_lt.mp hpos)
      simpa using div_nonpos_of_nonpos_of_nonneg hFq hNq.le
    omega

/-! ## The skip loop of `SetPlayerStartPosition` -/

/-- C12 (start-position skip loop in `SetPlayerStartPosition`). For every `int32` frame
count `FramesToSkip` and every block size `NumFramesPerBlock > 0` the loop terminates:
there is one list of `xmp_play_buffer` calls that the loop makes whenever it is given at
least as many iterations as the list is long, and with fewer iterations it has not
ended. The number of iterations is `ceil(FramesToSkip / NumFramesPerBlock)`, none when
`FramesToSkip <= 0`; each iteration requests between 1 and `NumFramesPerBlock` frames;
the frames requested over all iterations sum to `max(FramesToSkip, 0)`. While
`4 * NumFramesPerBlock` fits an `int` the size passed is four bytes per frame. -/
theorem skip_loop (NumFramesPerBlock FramesToSkip : Int)
    (hblock : 0 < NumFramesPerBlock) (hframes : FramesToSkip ≤ 2147483647) :
    ∃ calls : List FPlayBufferCall,
      (∀ fuel : Nat, SetPlayerStartPositionLoop NumFramesPerBlock fuel FramesToSkip
        = if calls.length ≤ fuel then some calls else none) ∧
      (calls.length : Int) = max ⌈(FramesToSkip : ℚ) / (NumFramesPerBlock : ℚ)⌉ 0 ∧
      (FramesToSkip ≤ 0 → calls = []) ∧
      (∀ c ∈ calls, 1 ≤ c.FramesSkipped ∧ c.FramesSkipped ≤ NumFramesPerBlock) ∧
      (calls.map FPlayBufferCall.FramesSkipped).sum = max FramesToSkip 0 ∧
      (NumFramesPerBlock ≤ 536870911 → ∀ c ∈ calls, c.Size = 4 * c.FramesSkipped) := by
  have hcover : max FramesToSkip 0 ≤ ((max FramesToSkip 0).toNat : Int) * NumFramesPerBlock := by
    rw [Int.toNat_of_nonneg (le_max_right _ _)]
    exact le_mul_of_one_le_right (le_max_right _ _) (by omega)
  obtain ⟨calls, hcalls⟩ := skipLoop_enough NumFramesPerBlock hblock
    (max FramesToSkip 0).toNat FramesToSkip hframes (le_trans (le_max_left _ _) hcover)
  obtain ⟨⟨a1, a2⟩, b, c, d⟩ := skipLoop_some NumFramesPerBlock hblock _ FramesToSkip calls
    hframes hcalls
  refine ⟨calls, ?_, blocks_eq_ceil NumFramesPerBlock FramesToSkip hblock calls.length a1 a2,
    ?_, b, c, d⟩
  · intro fuel
    by_cases hfuel : calls.length ≤ fuel
    · rw [if_pos hfuel]
      have hle : (calls.length : Int) * NumFramesPerBlock ≤ (fuel : Int) * NumFramesPerBlock :=
        mul_le_mul_of_nonneg_right (by exact_mod_cast hfuel) (by omega)
      obtain ⟨calls2, hcalls2⟩ := skipLoop_enough NumFramesPerBlock hblock fuel FramesToSkip
        hframes (by omega)
      rw [hcalls2, skipLoop_unique NumFramesPerBlock hblock _ _ FramesToSkip calls2 calls
        hframes hcalls2 hcalls]
    · rw [if_neg hfuel]
      have hlt : (fuel : Int) + 1 ≤ (calls.length : Int) := by omega
      have hle : ((fuel : Int) + 1) * NumFramesPerBlock
          ≤ (calls.length : Int) * NumFramesPerBlock :=
        mul_le_mul_of_nonneg_right hlt (by omega)
      have hexp : ((fuel : Int) + 1) * NumFramesPerBlock
          = (fuel : Int) * NumFramesPerBlock + NumFramesPerBlock := by ring
      have hnn : 0 ≤ (fuel : Int) * NumFramesPerBlock :=
        mul_nonneg (Int.natCast_nonneg _) (by omega)
      exact skipLoop_short NumFramesPerBlock hblock fuel FramesToSkip hframes (by omega)
  · intro hle
    rw [skipLoop_done NumFramesPerBlock _ FramesToSkip hle] at hcalls
    cases hcalls
    rfl

/-- The skip loop for 1000 frames in blocks of 256: four calls, of 256, 256, 256 and
232 frames, found with four iterations and not with three. -/
theorem skip_loop_witness :
    (0 : Int) < 256 ∧ (1000 : Int) ≤ 2147483647 ∧
    SetPlayerStartPositionLoop 256 4 1000
      = some [⟨256, 1024⟩, ⟨256, 1024⟩, ⟨256, 1024⟩, ⟨232, 928⟩] ∧
    SetPlayerStartPositionLoop 256 3 1000 = none ∧
    ∃ calls : List FPlayBufferCall,
      (∀ fuel : Nat, SetPlayerStartPositionLoop 256 fuel 1000
        = if calls.length ≤ fuel then some calls else none) ∧
      (calls.length : Int) = max ⌈((1000 : Int) : ℚ) / ((256 : Int) : ℚ)⌉ 0 ∧
      ((1000 : Int) ≤ 0 → calls = []) ∧
      (∀ c ∈ calls, 1 ≤ c.FramesSkipped ∧ c.FramesSkipped ≤ 256) ∧
      (calls.map FPlayBufferCall.FramesSkipped).sum = max 1000 0 ∧
      ((256 : Int) ≤ 536870911 → ∀ c ∈ calls, c.Size = 4 * c.FramesSkipped) :=
  ⟨by decide, by decide, by decide, by decide, skip_loop 256 1000 (by decide) (by decide)⟩

end Concord

